import Mathlib

/-!
Repeat indexing of a score (`source/score/utils/repeatindexer.cpp`).

A shallow embedding of `RepeatedSection` (the per-repeat playback state
machine) and `RepeatIndexer` (the build pass over the barlines of a score and
the point lookup `findRepeat`), followed by theorems about them.

Conventions of the embedding.

* C++ `int` is embedded as `Int`.  Signed overflow is undefined behaviour in
  C++, so there is no wrap-around to model; every statement below is about
  executions in which no `int` overflows.
* `std::map<K, V>` is embedded as `StdMap K V`: the list of its entries in
  strictly increasing key order (the order a `std::map` iterates in).
* A thrown exception (`std::map::at` on a missing key) and a failed `assert`
  are embedded as the result `none`.
-/

namespace RepeatIndex

/-! ## Locations -/

/-- Modelled from the spec: the class `SystemLocation` is declared in a header
that is not part of the sources at hand.  A location is the pair of a system
index and a position inside the system (both C++ `int`). -/
structure SystemLocation where
  system : Int
  position : Int
deriving DecidableEq, Repr

namespace SystemLocation

/-- Modelled from the spec: `SystemLocation::operator<`, "compare system index
first, then position". -/
def lt (a b : SystemLocation) : Prop :=
  a.system < b.system ∨ (a.system = b.system ∧ a.position < b.position)

instance instDecidableLt (a b : SystemLocation) : Decidable (lt a b) :=
  inferInstanceAs
    (Decidable (a.system < b.system ∨ (a.system = b.system ∧ a.position < b.position)))

theorem location_eq_of_fields {a b : SystemLocation} (h1 : a.system = b.system)
    (h2 : a.position = b.position) : a = b := by
  cases a; cases b; simp_all

instance instLinearOrder : LinearOrder SystemLocation where
  lt := lt
  le a b := ¬ lt b a
  le_refl a := by simp only [lt]; omega
  le_trans a b c := by simp only [lt]; omega
  le_antisymm a b h1 h2 := by
    apply location_eq_of_fields <;> (simp only [lt] at h1 h2; omega)
  le_total a b := by simp only [lt]; omega
  lt_iff_le_not_le a b := by simp only [lt]; omega
  decidableLE a b := inferInstanceAs (Decidable (¬ lt b a))
  decidableLT a b := inferInstanceAs (Decidable (lt a b))
  decidableEq := inferInstance

theorem lt_def (a b : SystemLocation) :
    a < b ↔ a.system < b.system ∨ (a.system = b.system ∧ a.position < b.position) :=
  Iff.rfl

theorem le_def (a b : SystemLocation) :
    a ≤ b ↔ a.system < b.system ∨ (a.system = b.system ∧ a.position ≤ b.position) := by
  show ¬ lt b a ↔ _
  simp only [lt]; omega

end SystemLocation

/-! ## Ordered maps (`std::map`) -/

/-- Raw `m[k] = v` on the sorted entry list of a `std::map`: overwrite the value
of an existing key, otherwise insert the entry at its place in key order. -/
def assignRaw {K V : Type} [LinearOrder K] (k : K) (v : V) : List (K × V) → List (K × V)
  | [] => [(k, v)]
  | (k', v') :: rest =>
    if k < k' then (k, v) :: (k', v') :: rest
    else if k' < k then (k', v') :: assignRaw k v rest
    else (k, v) :: rest

/-- Raw `find` on the entry list of a `std::map`. -/
def findRaw {K V : Type} [LinearOrder K] (k : K) : List (K × V) → Option V
  | [] => none
  | (k', v') :: rest => if k' = k then some v' else findRaw k rest

theorem mem_assignRaw {K V : Type} [LinearOrder K] (k : K) (v : V) (l : List (K × V))
    (e : K × V) (he : e ∈ assignRaw k v l) : e = (k, v) ∨ e ∈ l := by
  induction l with
  | nil => simp [assignRaw] at he; exact Or.inl he
  | cons hd tl ih =>
    obtain ⟨k', v'⟩ := hd
    simp only [assignRaw] at he
    split_ifs at he with h1 h2
    · simp only [List.mem_cons] at he ⊢; tauto
    · simp only [List.mem_cons] at he ⊢
      rcases he with he | he
      · tauto
      · have := ih he; tauto
    · simp only [List.mem_cons] at he ⊢; tauto

theorem pairwise_assignRaw {K V : Type} [LinearOrder K] (k : K) (v : V) (l : List (K × V))
    (hl : l.Pairwise (fun a b => a.1 < b.1)) :
    (assignRaw k v l).Pairwise (fun a b => a.1 < b.1) := by
  induction l with
  | nil => simp [assignRaw]
  | cons hd tl ih =>
    obtain ⟨k', v'⟩ := hd
    rw [List.pairwise_cons] at hl
    simp only [assignRaw]
    split_ifs with h1 h2
    · refine List.Pairwise.cons ?_ (List.Pairwise.cons hl.1 hl.2)
      intro e he
      rcases List.mem_cons.1 he with he | he
      · subst he; exact h1
      · exact lt_trans h1 (hl.1 e he)
    · refine List.Pairwise.cons ?_ (ih hl.2)
      intro e he
      rcases mem_assignRaw k v tl e he with he | he
      · subst he; exact h2
      · exact hl.1 e he
    · have hk : k = k' := le_antisymm (not_lt.1 h2) (not_lt.1 h1)
      subst hk
      exact List.Pairwise.cons hl.1 hl.2

/-- A `std::map<K, V>`: its entries in strictly increasing key order. -/
structure StdMap (K V : Type) [LinearOrder K] where
  entries : List (K × V)
  sorted : entries.Pairwise (fun a b => a.1 < b.1)

namespace StdMap

variable {K V : Type} [LinearOrder K]

theorem ext_entries {m1 m2 : StdMap K V} (h : m1.entries = m2.entries) : m1 = m2 := by
  cases m1; cases m2; simp_all

instance instDecidableEq [DecidableEq V] : DecidableEq (StdMap K V) := fun m1 m2 =>
  if h : m1.entries = m2.entries then isTrue (ext_entries h)
  else isFalse (fun h' => h (by rw [h']))

/-- The default-constructed (empty) map. -/
def empty : StdMap K V := ⟨[], List.Pairwise.nil⟩

/-- The statement `m[k] = v`. -/
def assign (m : StdMap K V) (k : K) (v : V) : StdMap K V :=
  ⟨assignRaw k v m.entries, pairwise_assignRaw k v m.entries m.sorted⟩

/-- The call `m.find(k)`: `none` stands for `m.end()`. -/
def find (m : StdMap K V) (k : K) : Option V := findRaw k m.entries

/-- The call `m.at(k)`: `none` stands for the exception `std::out_of_range`. -/
def atKey (m : StdMap K V) (k : K) : Option V := findRaw k m.entries

/-- The call `m.size()`. -/
def size (m : StdMap K V) : Nat := m.entries.length

/-- The call `m.empty()`. -/
def isEmpty (m : StdMap K V) : Bool := m.entries.isEmpty

/-- The keys in iteration order. -/
def keys (m : StdMap K V) : List K := m.entries.map Prod.fst

/-- The key of `*m.rbegin()`: the greatest key; `none` on an empty map. -/
def lastKey (m : StdMap K V) : Option K := m.entries.getLast?.map Prod.fst

end StdMap

/-! ## `RepeatedSection` -/

/-- Modelled from the spec: the class `AlternateEnding` is declared in a header
that is not part of the sources at hand; the code reads its position and the
collection of its repeat numbers. -/
structure AlternateEnding where
  position : Int
  numbers : List Int
deriving DecidableEq, Repr

/-- The data members of `RepeatedSection` (their declarations are in the absent
header `repeatindexer.h`; names and types are those the member functions use). -/
structure RepeatedSection where
  myStartBarLocation : SystemLocation
  myRepeatEndBars : StdMap SystemLocation Int
  myRemainingRepeats : StdMap SystemLocation Int
  myAlternateEndings : StdMap Int SystemLocation
  myActiveRepeat : Int
deriving DecidableEq

namespace RepeatedSection

/-- The constructor `RepeatedSection::RepeatedSection(startBar)`. -/
def new (startBar : SystemLocation) : RepeatedSection :=
  { myStartBarLocation := startBar
    myRepeatEndBars := StdMap.empty
    myRemainingRepeats := StdMap.empty
    myAlternateEndings := StdMap.empty
    myActiveRepeat := 1 }

/-- The comparison `RepeatedSection::operator<`. -/
def lt (a b : RepeatedSection) : Prop := a.myStartBarLocation < b.myStartBarLocation

instance instDecidableLt (a b : RepeatedSection) : Decidable (lt a b) :=
  inferInstanceAs (Decidable (a.myStartBarLocation < b.myStartBarLocation))

/-- The member function `RepeatedSection::addRepeatEndBar`. -/
def addRepeatEndBar (s : RepeatedSection) (location : SystemLocation) (repeatCount : Int) :
    RepeatedSection :=
  { s with
    myRepeatEndBars := s.myRepeatEndBars.assign location repeatCount
    myRemainingRepeats := s.myRemainingRepeats.assign location (repeatCount - 1) }

/-- The member function `RepeatedSection::addAlternateEnding`. -/
def addAlternateEnding (s : RepeatedSection) (system : Int) (ending : AlternateEnding) :
    RepeatedSection :=
  let location : SystemLocation := ⟨system, ending.position⟩
  { s with
    myAlternateEndings :=
      ending.numbers.foldl (fun m num => m.assign num location) s.myAlternateEndings }

/-- The member function `RepeatedSection::getStartBarLocation`. -/
def getStartBarLocation (s : RepeatedSection) : SystemLocation := s.myStartBarLocation

/-- The member function `RepeatedSection::getLastEndBarLocation`; `none` stands
for the failure of `assert(!myRepeatEndBars.empty())`. -/
def getLastEndBarLocation (s : RepeatedSection) : Option SystemLocation :=
  s.myRepeatEndBars.lastKey

/-- The member function `RepeatedSection::getAlternateEndingCount`. -/
def getAlternateEndingCount (s : RepeatedSection) : Int := (s.myAlternateEndings.size : Int)

/-- The member function `RepeatedSection::getTotalRepeatCount`. -/
def getTotalRepeatCount (s : RepeatedSection) : Int :=
  s.myRepeatEndBars.entries.foldl (fun count bar => count + bar.2) 0

/-- The member function `RepeatedSection::findAlternateEnding`. -/
def findAlternateEnding (s : RepeatedSection) (number : Int) : Option SystemLocation :=
  s.myAlternateEndings.find number

/-- The member function `RepeatedSection::reset`. -/
def reset (s : RepeatedSection) : RepeatedSection :=
  { s with
    myActiveRepeat := 1
    myRemainingRepeats :=
      s.myRepeatEndBars.entries.foldl (fun m r => m.assign r.1 (r.2 - 1))
        s.myRemainingRepeats }

/-- The part of `RepeatedSection::performRepeat` after the alternate-ending
branch ("Now, we can look for repeat end bars").  The result is the returned
location and the state after the call; `none` stands for the exception thrown
by `myRepeatEndBars.at`. -/
def performRepeatEndBar (s : RepeatedSection) (loc : SystemLocation) :
    Option (SystemLocation × RepeatedSection) :=
  match s.myRemainingRepeats.find loc with
  | none => some (loc, s)
  | some remainingRepeatCount =>
    if remainingRepeatCount ≠ 0 then
      some (s.myStartBarLocation,
        { s with
          myRemainingRepeats := s.myRemainingRepeats.assign loc (remainingRepeatCount - 1)
          myActiveRepeat := s.myActiveRepeat + 1 })
    else
      match s.myRepeatEndBars.atKey loc with
      | none => none
      | some count =>
        some (loc, { s with myRemainingRepeats := s.myRemainingRepeats.assign loc (count - 1) })

/-- The member function `RepeatedSection::performRepeat`. -/
def performRepeat (s : RepeatedSection) (loc : SystemLocation) :
    Option (SystemLocation × RepeatedSection) :=
  match s.findAlternateEnding 1 with
  | some firstAltEnding =>
    if firstAltEnding = loc then
      match s.findAlternateEnding s.myActiveRepeat with
      | some nextAltEnding => some (nextAltEnding, s)
      | none => performRepeatEndBar s loc
    else performRepeatEndBar s loc
  | none => performRepeatEndBar s loc

/-- A sequence of `performRepeat` calls on one section: the locations returned,
in call order, and the state after the last call. -/
def performRepeats (s : RepeatedSection) :
    List SystemLocation → Option (List SystemLocation × RepeatedSection)
  | [] => some ([], s)
  | loc :: rest =>
    match performRepeat s loc with
    | none => none
    | some (out, s') =>
      match performRepeats s' rest with
      | none => none
      | some (outs, s'') => some (out :: outs, s'')

/-- A section with start `S`, the single end bar `E` of declared count `n`, no
alternate ending, `j` remaining repeats at `E` and active repeat `a`. -/
def single (S E : SystemLocation) (n j a : Int) : RepeatedSection :=
  { myStartBarLocation := S
    myRepeatEndBars := StdMap.empty.assign E n
    myRemainingRepeats := StdMap.empty.assign E j
    myAlternateEndings := StdMap.empty
    myActiveRepeat := a }

/-- The key sets of `myRemainingRepeats` and `myRepeatEndBars` coincide. -/
def SameKeys (s : RepeatedSection) : Prop :=
  s.myRemainingRepeats.keys = s.myRepeatEndBars.keys

instance instDecidableSameKeys (s : RepeatedSection) : Decidable (SameKeys s) :=
  inferInstanceAs (Decidable (s.myRemainingRepeats.keys = s.myRepeatEndBars.keys))

/-- The alternate-ending branch at the head of `performRepeat` is taken. -/
def takesAlternateBranch (s : RepeatedSection) (loc : SystemLocation) : Prop :=
  s.findAlternateEnding 1 = some loc ∧ (s.findAlternateEnding s.myActiveRepeat).isSome = true

instance instDecidableTakesAlternateBranch (s : RepeatedSection) (loc : SystemLocation) :
    Decidable (takesAlternateBranch s loc) :=
  inferInstanceAs (Decidable (s.findAlternateEnding 1 = some loc ∧
    (s.findAlternateEnding s.myActiveRepeat).isSome = true))

/-- The sections obtained from the constructor by calls of `addRepeatEndBar` and
`addAlternateEnding`. -/
inductive Built : RepeatedSection → Prop
  | new (startBar : SystemLocation) : Built (new startBar)
  | addRepeatEndBar {s : RepeatedSection} (location : SystemLocation) (repeatCount : Int) :
      Built s → Built (s.addRepeatEndBar location repeatCount)
  | addAlternateEnding {s : RepeatedSection} (system : Int) (ending : AlternateEnding) :
      Built s → Built (s.addAlternateEnding system ending)

end RepeatedSection

/-! ## The score model read by the build pass -/

/-- Modelled from the spec: the enumeration `Barline::BarType` is declared in a
header that is not part of the sources at hand; the build pass tells
repeat-start and repeat-end barlines from all others. -/
inductive BarType where
  | Plain
  | RepeatStart
  | RepeatEnd
deriving DecidableEq, Repr

/-- Modelled from the spec: the class `Barline` is declared in a header that is
not part of the sources at hand; the build pass reads its position, its kind
and its declared repeat count. -/
structure Barline where
  position : Int
  barType : BarType
  repeatCount : Int
deriving DecidableEq, Repr

/-- Modelled from the spec: the class `System` is declared in a header that is
not part of the sources at hand; the build pass reads its barlines and its
alternate endings. -/
structure System where
  barlines : List Barline
  alternateEndings : List AlternateEnding
deriving DecidableEq, Repr

/-- Modelled from the spec: `System::getNextBarline` is not part of the sources
at hand; it is the "next barline after position X within a system" query, the
first barline of the system that lies after `position`. -/
def System.getNextBarline (system : System) (position : Int) : Option Barline :=
  system.barlines.find? (fun b => decide (position < b.position))

/-- Modelled from the spec: `ScoreUtils::findInRange` is not part of the sources
at hand; it yields the annotations whose position lies between `left` and
`right`, both included. -/
def findInRange (endings : List AlternateEnding) (left right : Int) : List AlternateEnding :=
  endings.filter (fun e => decide (left ≤ e.position ∧ e.position ≤ right))

/-- Modelled from the spec: the class `Score` is declared in a header that is
not part of the sources at hand; the build pass reads its systems in order. -/
structure Score where
  systems : List System
deriving DecidableEq, Repr

/-! ## `RepeatIndexer` -/

/-- Modelled from the spec: the member `myRepeats` is declared in the absent
header `repeatindexer.h`; it is an ordered collection of sections "keyed and
ordered by start" on which the code calls `insert`, `upper_bound` and `begin`,
a `std::set<RepeatedSection>` under `RepeatedSection::operator<`.  This is its
`insert`: an element equivalent to one already present is not inserted. -/
def setInsert (r : RepeatedSection) : List RepeatedSection → List RepeatedSection
  | [] => [r]
  | x :: rest =>
    if RepeatedSection.lt r x then r :: x :: rest
    else if RepeatedSection.lt x r then x :: setInsert r rest
    else x :: rest

/-- The local state of the constructor `RepeatIndexer::RepeatIndexer`: the stack
`repeats` of active sections (top first) and the member `myRepeats`. -/
structure BuildState where
  repeats : List RepeatedSection
  myRepeats : List RepeatedSection
deriving DecidableEq

/-- First block of the loop body ("If we've seen the last alternate ending of
the repeat, we are done"). -/
def finalizeCheck (st : BuildState) : BuildState :=
  match st.repeats with
  | [] => st
  | activeRepeat :: rest =>
    if activeRepeat.getAlternateEndingCount ≠ 0 ∧ activeRepeat.getTotalRepeatCount ≠ 0 ∧
        activeRepeat.getAlternateEndingCount ≥ activeRepeat.getTotalRepeatCount then
      { repeats := rest, myRepeats := setInsert activeRepeat st.myRepeats }
    else st

/-- Second block of the loop body: a repeat-start barline pushes a section, a
repeat-end barline met with a non-empty stack adds an end bar to the top
section, which is completed at once when it has no alternate ending. -/
def handleBarType (systemIndex : Int) (bar : Barline) (st : BuildState) : BuildState :=
  if bar.barType = BarType.RepeatStart then
    { st with repeats := RepeatedSection.new ⟨systemIndex, bar.position⟩ :: st.repeats }
  else if bar.barType = BarType.RepeatEnd then
    match st.repeats with
    | [] => st
    | top :: rest =>
      let activeRepeat := top.addRepeatEndBar ⟨systemIndex, bar.position⟩ bar.repeatCount
      if activeRepeat.getAlternateEndingCount = 0 then
        { repeats := rest, myRepeats := setInsert activeRepeat st.myRepeats }
      else { st with repeats := activeRepeat :: rest }
  else st

/-- The statement `if (!repeats.empty()) repeats.top().addAlternateEnding(..)`. -/
def addEndingToTop (systemIndex : Int) (st : BuildState) (ending : AlternateEnding) :
    BuildState :=
  match st.repeats with
  | [] => st
  | top :: rest => { st with repeats := top.addAlternateEnding systemIndex ending :: rest }

/-- Third block of the loop body ("Process repeat endings in this bar, unless
we're at the end bar"). -/
def handleAlternateEndings (systemIndex : Int) (system : System) (bar : Barline)
    (st : BuildState) : BuildState :=
  match system.getNextBarline bar.position with
  | none => st
  | some nextBar =>
    (findInRange system.alternateEndings bar.position (nextBar.position - 1)).foldl
      (addEndingToTop systemIndex) st

/-- The body of the loop over the barlines of a system. -/
def processBarline (systemIndex : Int) (system : System) (st : BuildState) (bar : Barline) :
    BuildState :=
  handleAlternateEndings systemIndex system bar
    (handleBarType systemIndex bar (finalizeCheck st))

/-- The body of the loop over the systems: the state and `systemIndex` after it. -/
def processSystem (acc : BuildState × Int) (system : System) : BuildState × Int :=
  (system.barlines.foldl (processBarline acc.2 system) acc.1, acc.2 + 1)

/-- The state before the loops: an empty index and a stack holding the section
that starts at the start of the score. -/
def initialBuildState : BuildState :=
  { repeats := [RepeatedSection.new ⟨0, 0⟩], myRepeats := [] }

/-- The class `RepeatIndexer`: its member `myRepeats`, in iteration order. -/
structure RepeatIndexer where
  myRepeats : List RepeatedSection
deriving DecidableEq

namespace RepeatIndexer

/-- The constructor `RepeatIndexer::RepeatIndexer(score)`. -/
def new (score : Score) : RepeatIndexer :=
  ⟨(score.systems.foldl processSystem (initialBuildState, 0)).1.myRepeats⟩

/-- The loop of `findRepeat`, run over the sections before `upper_bound(loc)`
from the last to the first.  The outer `none` stands for the failure of the
assertion of `getLastEndBarLocation`, `some none` for `nullptr`. -/
def findRepeatScan (loc : SystemLocation) :
    List RepeatedSection → Option (Option RepeatedSection)
  | [] => some none
  | r :: rest =>
    match r.getLastEndBarLocation with
    | none => none
    | some lastEndBar =>
      if lastEndBar ≥ loc then some (some r) else findRepeatScan loc rest

/-- The sections before the iterator `myRepeats.upper_bound(loc)`: those before
the first section whose start lies after `loc`. -/
def beforeUpperBound (idx : RepeatIndexer) (loc : SystemLocation) : List RepeatedSection :=
  idx.myRepeats.takeWhile (fun r => decide (¬ loc < r.myStartBarLocation))

/-- The member function `RepeatIndexer::findRepeat`. -/
def findRepeat (idx : RepeatIndexer) (loc : SystemLocation) :
    Option (Option RepeatedSection) :=
  findRepeatScan loc (idx.beforeUpperBound loc).reverse

/-- The member function `RepeatIndexer::getRepeats`. -/
def getRepeats (idx : RepeatIndexer) : List RepeatedSection := idx.myRepeats

end RepeatIndexer

/-! ## Auxiliary definitions used in the statements -/

/-- The barlines of a list of systems in scan order, each with the index of its
system and the system itself; `systemIndex` is the index of the first system. -/
def scanOrder (systemIndex : Int) : List System → List (Int × System × Barline)
  | [] => []
  | system :: rest =>
    system.barlines.map (fun bar => (systemIndex, system, bar)) ++
      scanOrder (systemIndex + 1) rest

/-- The loop body applied to one entry of the scan order. -/
def processEntry (st : BuildState) (e : Int × System × Barline) : BuildState :=
  processBarline e.1 e.2.1 st e.2.2

/-- The location of an entry of the scan order. -/
def entryLocation (e : Int × System × Barline) : SystemLocation := ⟨e.1, e.2.2.position⟩

/-- The section `r` surrounds `loc`: its start bar is not after `loc` and its
last end bar is not before `loc`. -/
def Encloses (r : RepeatedSection) (loc : SystemLocation) : Prop :=
  r.myStartBarLocation ≤ loc ∧ ∃ e, r.getLastEndBarLocation = some e ∧ e ≥ loc

instance instDecidableEncloses (r : RepeatedSection) (loc : SystemLocation) :
    Decidable (Encloses r loc) :=
  match h : r.getLastEndBarLocation with
  | none => isFalse (fun hE => by
      obtain ⟨_, e, he, _⟩ := hE
      rw [h] at he
      exact Option.noConfusion he)
  | some e =>
    if h1 : r.myStartBarLocation ≤ loc ∧ e ≥ loc then isTrue ⟨h1.1, e, h, h1.2⟩
    else isFalse (fun hE => by
      obtain ⟨hs, e', he', hge⟩ := hE
      rw [h] at he'
      simp only [Option.some.injEq] at he'
      subst he'
      exact h1 ⟨hs, hge⟩)

/-- A sample score: one system with a plain barline at position 0 and a
repeat-end barline (count 3) at position 10. -/
def sampleLoneEnd : Score :=
  ⟨[⟨[⟨0, BarType.Plain, 1⟩, ⟨10, BarType.RepeatEnd, 3⟩], []⟩]⟩

/-- A sample score: repeat-start at (0,0), repeat-end (count 3) at (0,10). -/
def sampleSimple : Score :=
  ⟨[⟨[⟨0, BarType.RepeatStart, 1⟩, ⟨10, BarType.RepeatEnd, 3⟩], []⟩]⟩

/-- The sections `a` and `b` differ at most in their alternate endings. -/
def SameButEndings (a b : RepeatedSection) : Prop :=
  b.myStartBarLocation = a.myStartBarLocation ∧ b.myRepeatEndBars = a.myRepeatEndBars ∧
    b.myRemainingRepeats = a.myRemainingRepeats ∧ b.myActiveRepeat = a.myActiveRepeat

/-- While no repeat barline is met, the index stays empty and no section of the
stack has an end bar. -/
def NoEndBarYet (st : BuildState) : Prop :=
  st.myRepeats = [] ∧ ∀ r ∈ st.repeats, r.myRepeatEndBars.entries = []

/-- A sample score without repeat barlines: two plain barlines and an alternate
ending for the repeats 1 and 2 between them. -/
def samplePlain : Score :=
  ⟨[⟨[⟨0, BarType.Plain, 1⟩, ⟨8, BarType.Plain, 1⟩], [⟨3, [1, 2]⟩]⟩]⟩

/-- Every section of the index has an end bar. -/
def IndexHasEndBars (st : BuildState) : Prop :=
  ∀ r ∈ st.myRepeats, r.myRepeatEndBars.entries ≠ []

/-- Before the repeat-end barline: the index is empty and the stack holds one
section, which starts at the start of the score and has no end bar. -/
def BeforeLoneEnd (st : BuildState) : Prop :=
  st.myRepeats = [] ∧ ∃ top, st.repeats = [top] ∧ top.myStartBarLocation = ⟨0, 0⟩ ∧
    top.myRepeatEndBars.entries = []

/-- After the repeat-end barline at `E` with count `c`: one section, which starts
at the start of the score and has the single end bar `E`, is either alone on the
stack (index empty) or alone in the index (stack empty). -/
def AfterLoneEnd (E : SystemLocation) (c : Int) (st : BuildState) : Prop :=
  ∃ r, r.myStartBarLocation = ⟨0, 0⟩ ∧ r.myRepeatEndBars = StdMap.empty.assign E c ∧
    ((st.repeats = [r] ∧ st.myRepeats = []) ∨ (st.repeats = [] ∧ st.myRepeats = [r]))

/-- The barlines of every system are listed in strictly increasing position. -/
def SortedBarlines (score : Score) : Prop :=
  ∀ system ∈ score.systems, system.barlines.Pairwise (fun a b => a.position < b.position)

/-- No barline has a negative position (positions are non-negative integers in
the data model). -/
def NonnegPositions (score : Score) : Prop :=
  ∀ system ∈ score.systems, ∀ bar ∈ system.barlines, 0 ≤ bar.position

instance instDecidableSortedBarlines (score : Score) : Decidable (SortedBarlines score) :=
  inferInstanceAs (Decidable (∀ system ∈ score.systems,
    system.barlines.Pairwise (fun (a b : Barline) => a.position < b.position)))

instance instDecidableNonnegPositions (score : Score) : Decidable (NonnegPositions score) :=
  inferInstanceAs (Decidable (∀ system ∈ score.systems, ∀ bar ∈ system.barlines,
    0 ≤ bar.position))

/-- The start of every section on the stack and in the index satisfies `A`. -/
def StartsIn (A : SystemLocation → Prop) (st : BuildState) : Prop :=
  (∀ r ∈ st.repeats, A r.myStartBarLocation) ∧ (∀ r ∈ st.myRepeats, A r.myStartBarLocation)

/-- After an unterminated repeat-start barline: the starts of the sections of the
index satisfy `A` and the section on top of the stack has no end bar. -/
def OpenTop (A : SystemLocation → Prop) (st : BuildState) : Prop :=
  (∀ r ∈ st.myRepeats, A r.myStartBarLocation) ∧
    ∃ top rest, st.repeats = top :: rest ∧ top.myRepeatEndBars.entries = []

/-- Every end bar of `r` is related to the start of `r` by `rel`. -/
def EndsAfter (rel : SystemLocation → SystemLocation → Prop) (r : RepeatedSection) : Prop :=
  ∀ k ∈ r.myRepeatEndBars.keys, rel r.myStartBarLocation k

/-- Invariant of the build pass, `pending` being the entries of the scan order
not yet handled: the end bars of every section met so far are related to its
start by `rel`, and so is every pending repeat-end barline to the start of every
section on the stack. -/
def Ordered (rel : SystemLocation → SystemLocation → Prop)
    (pending : List (Int × System × Barline)) (st : BuildState) : Prop :=
  (∀ r ∈ st.repeats,
    (∀ x ∈ pending, x.2.2.barType = BarType.RepeatEnd →
      rel r.myStartBarLocation (entryLocation x)) ∧ EndsAfter rel r) ∧
  (∀ r ∈ st.myRepeats, EndsAfter rel r)

/-- A sample score: a repeat from (0,0) to (0,10) with count 2, then a
repeat-start barline at (0,14) that no repeat-end barline follows. -/
def sampleUnterminated : Score :=
  ⟨[⟨[⟨0, BarType.RepeatStart, 1⟩, ⟨10, BarType.RepeatEnd, 2⟩, ⟨14, BarType.RepeatStart, 1⟩,
      ⟨20, BarType.Plain, 1⟩], []⟩]⟩

/-- A sample score whose first barline, at (0,0), is a repeat-end barline. -/
def sampleEndAtOrigin : Score :=
  ⟨[⟨[⟨0, BarType.RepeatEnd, 2⟩, ⟨12, BarType.Plain, 1⟩], []⟩]⟩

/-- A sample score whose barlines are not in position order: a repeat-start
barline at position 5 is listed before a repeat-end barline at position 3. -/
def sampleUnsorted : Score :=
  ⟨[⟨[⟨5, BarType.RepeatStart, 1⟩, ⟨3, BarType.RepeatEnd, 2⟩], []⟩]⟩

/-- The sections of the index are in strictly increasing order of start. -/
def IndexSorted (st : BuildState) : Prop :=
  st.myRepeats.Pairwise (fun a b => a.myStartBarLocation < b.myStartBarLocation)

/-- The barline of the entry `x` is neither a repeat-start nor a repeat-end
barline. -/
def PlainEntry (x : Int × System × Barline) : Prop :=
  x.2.2.barType ≠ BarType.RepeatStart ∧ x.2.2.barType ≠ BarType.RepeatEnd

instance instDecidablePlainEntry (x : Int × System × Barline) : Decidable (PlainEntry x) :=
  inferInstanceAs (Decidable
    (x.2.2.barType ≠ BarType.RepeatStart ∧ x.2.2.barType ≠ BarType.RepeatEnd))

/-- No system of the score has an alternate ending. -/
def NoAlternateEndings (score : Score) : Prop :=
  ∀ system ∈ score.systems, system.alternateEndings = []

instance instDecidableNoAlternateEndings (score : Score) :
    Decidable (NoAlternateEndings score) :=
  inferInstanceAs (Decidable (∀ system ∈ score.systems, system.alternateEndings = []))

/-- A sample score without repeat-start barlines: repeat-end barlines at (0,10)
(count 3) and (0,20) (count 2). -/
def sampleTwoEnds : Score :=
  ⟨[⟨[⟨0, BarType.Plain, 1⟩, ⟨10, BarType.RepeatEnd, 3⟩, ⟨20, BarType.RepeatEnd, 2⟩], []⟩]⟩

/-- First system of the sample score with nested repeats: the outer repeat
starts at its first barline. -/
def nestedSystem0 : System := ⟨[⟨0, BarType.RepeatStart, 1⟩, ⟨20, BarType.Plain, 1⟩], []⟩

/-- Second system of the sample score with nested repeats: it holds the inner
repeat, from position 4 to position 12. -/
def nestedSystem1 : System :=
  ⟨[⟨0, BarType.Plain, 1⟩, ⟨4, BarType.RepeatStart, 1⟩, ⟨12, BarType.RepeatEnd, 2⟩,
    ⟨20, BarType.Plain, 1⟩], []⟩

/-- Third system of the sample score with nested repeats. -/
def nestedSystem2 : System := ⟨[⟨0, BarType.Plain, 1⟩, ⟨20, BarType.Plain, 1⟩], []⟩

/-- Fourth system of the sample score with nested repeats: the outer repeat ends
at its last barline. -/
def nestedSystem3 : System := ⟨[⟨0, BarType.Plain, 1⟩, ⟨20, BarType.RepeatEnd, 2⟩], []⟩

/-- A sample score: an outer repeat over the systems 0 to 3 and an inner repeat
inside system 1. -/
def sampleNested : Score := ⟨[nestedSystem0, nestedSystem1, nestedSystem2, nestedSystem3]⟩

/-- A call made on a section during playback: `performRepeat(loc)` or `reset()`. -/
inductive PlaybackCall where
  | performRepeat (loc : SystemLocation)
  | reset
deriving DecidableEq

/-- A sequence of playback calls on one section: the state after the last call;
`none` when a call throws. -/
def runPlayback (s : RepeatedSection) : List PlaybackCall → Option RepeatedSection
  | [] => some s
  | PlaybackCall.performRepeat loc :: rest =>
    match s.performRepeat loc with
    | none => none
    | some (_, s') => runPlayback s' rest
  | PlaybackCall.reset :: rest => runPlayback s.reset rest

/-- The structural members of `a` and `b` coincide: start bar, end bars and
alternate endings. -/
def SameStructure (a b : RepeatedSection) : Prop :=
  b.myStartBarLocation = a.myStartBarLocation ∧ b.myRepeatEndBars = a.myRepeatEndBars ∧
    b.myAlternateEndings = a.myAlternateEndings

/-- A sample section: start (0,0), end bar (0,10) of count 2, alternate endings
`1 -> (0,5)` and `2 -> (0,8)`. -/
def sampleSection : RepeatedSection :=
  (((RepeatedSection.new ⟨0, 0⟩).addRepeatEndBar ⟨0, 10⟩ 2).addAlternateEnding 0
    ⟨5, [1]⟩).addAlternateEnding 0 ⟨8, [2]⟩

/-- The start bar of a section and the locations of its end bars, in order. -/
def sectionShape (r : RepeatedSection) : SystemLocation × List SystemLocation :=
  (r.myStartBarLocation, r.myRepeatEndBars.keys)

/-- Every end bar of `outer` lies before the start of `inner` or after all the
end bars of `inner`. -/
def AroundOrBefore (outer inner : SystemLocation × List SystemLocation) : Prop :=
  ∀ k ∈ outer.2, k < inner.1 ∨ ∀ k' ∈ inner.2, k' < k

/-- Invariant of the build pass on the shapes of the sections of the stack `S`
(top first) and of the index `I`, `P` being the locations of the barlines not yet
handled. -/
structure LaminarShapes (P : List SystemLocation)
    (S I : List (SystemLocation × List SystemLocation)) : Prop where
  stack : S.Pairwise (fun a b => b.1 ≤ a.1 ∧ ∀ k ∈ b.2, k < a.1)
  index : ∀ X ∈ I, ∀ Y ∈ I, X.1 < Y.1 → AroundOrBefore X Y
  before : ∀ X ∈ I, ∀ T ∈ S, X.1 < T.1 → ∀ k ∈ X.2, k < T.1
  inside : ∀ X ∈ I, ∀ T ∈ S, T.1 ≤ X.1 → AroundOrBefore T X
  startsLe : ∀ T ∈ S, ∀ p ∈ P, T.1 ≤ p
  stackKeysLt : ∀ T ∈ S, ∀ k ∈ T.2, ∀ p ∈ P, k < p
  indexKeysLt : ∀ X ∈ I, ∀ k ∈ X.2, ∀ p ∈ P, k < p

/-- The invariant `LaminarShapes` on a state of the build pass. -/
def Laminar (pending : List (Int × System × Barline)) (st : BuildState) : Prop :=
  LaminarShapes (pending.map entryLocation) (st.repeats.map sectionShape)
    (st.myRepeats.map sectionShape)

/-- A sample score: a repeat-start barline at (0,0) followed by plain barlines,
with an alternate ending for the repeat 1 at position 2 and no repeat-end
barline. -/
def sampleOpenEnding : Score :=
  ⟨[⟨[⟨0, BarType.RepeatStart, 1⟩, ⟨8, BarType.Plain, 1⟩, ⟨16, BarType.Plain, 1⟩],
    [⟨2, [1]⟩]⟩]⟩

/-- The only system of the sample score `sampleSameStart`. -/
def sameStartSystem : System :=
  ⟨[⟨0, BarType.RepeatStart, 1⟩, ⟨10, BarType.RepeatEnd, 2⟩, ⟨12, BarType.Plain, 1⟩,
    ⟨20, BarType.RepeatEnd, 2⟩, ⟨30, BarType.Plain, 1⟩], [⟨13, [1, 2]⟩]⟩

/-- A sample score: a repeat from (0,0) to (0,10), then an alternate ending for
the repeats 1 and 2 at position 13 and a second repeat-end barline at (0,20),
which both go to the section seeded at the start of the score. -/
def sampleSameStart : Score := ⟨[sameStartSystem]⟩

/-- The sections obtained from the constructor by calls of `addRepeatEndBar` with
a declared count of at least 1 and of `addAlternateEnding`. -/
inductive BuiltPositive : RepeatedSection → Prop
  | new (startBar : SystemLocation) : BuiltPositive (RepeatedSection.new startBar)
  | addRepeatEndBar {s : RepeatedSection} (location : SystemLocation) (repeatCount : Int) :
      1 ≤ repeatCount → BuiltPositive s → BuiltPositive (s.addRepeatEndBar location repeatCount)
  | addAlternateEnding {s : RepeatedSection} (system : Int) (ending : AlternateEnding) :
      BuiltPositive s → BuiltPositive (s.addAlternateEnding system ending)

/-- Every declared count of an end bar is at least 1. -/
def CountsPositive (s : RepeatedSection) : Prop :=
  ∀ loc c, s.myRepeatEndBars.find loc = some c → 1 ≤ c

/-- Every end bar `loc` has a remaining count between 0 and
`myRepeatEndBars[loc] - 1`. -/
def RemainingInRange (s : RepeatedSection) : Prop :=
  ∀ loc c, s.myRepeatEndBars.find loc = some c →
    ∃ r, s.myRemainingRepeats.find loc = some r ∧ 0 ≤ r ∧ r ≤ c - 1

/-- A sample section: start (0,0), end bars (0,10) and (0,20) of count 2 each,
alternate endings `1 -> (0,10)`, on the first end bar, and `2 -> (0,15)`. -/
def sampleEndingOnEndBar : RepeatedSection :=
  ((((RepeatedSection.new ⟨0, 0⟩).addRepeatEndBar ⟨0, 10⟩ 2).addRepeatEndBar ⟨0, 20⟩
    2).addAlternateEnding 0 ⟨10, [1]⟩).addAlternateEnding 0 ⟨15, [2]⟩

/-- A fresh section with start `S`, the end bar `E` of count 2 and the alternate
endings `1 -> P1` and `2 -> P2`, built by the operations of the class. -/
def twoEndings (S E P1 P2 : SystemLocation) : RepeatedSection :=
  (((RepeatedSection.new S).addRepeatEndBar E 2).addAlternateEnding P1.system
    ⟨P1.position, [1]⟩).addAlternateEnding P2.system ⟨P2.position, [2]⟩

/-- The invariant of playback on a section built with declared counts of at
least 1. -/
def PlaybackInvariant (s : RepeatedSection) : Prop :=
  RepeatedSection.SameKeys s ∧ CountsPositive s ∧ RemainingInRange s

/-! ## Lemmas on ordered maps -/

theorem findRaw_eq_none_iff {K V : Type} [LinearOrder K] (k : K) (l : List (K × V)) :
    findRaw k l = none ↔ ∀ e ∈ l, e.1 ≠ k := by
  induction l with
  | nil => simp [findRaw]
  | cons hd tl ih =>
    obtain ⟨k', v'⟩ := hd
    simp only [findRaw, List.mem_cons, forall_eq_or_imp]
    split_ifs with h
    · simp [h]
    · simp [h, ih]

theorem findRaw_eq_none_of_lt {K V : Type} [LinearOrder K] (k : K) (l : List (K × V))
    (h : ∀ e ∈ l, k < e.1) : findRaw k l = none :=
  (findRaw_eq_none_iff k l).2 (fun e he => ne_of_gt (h e he))

theorem findRaw_isSome_iff {K V : Type} [LinearOrder K] (k : K) (l : List (K × V)) :
    (findRaw k l).isSome ↔ k ∈ l.map Prod.fst := by
  rw [← not_iff_not]
  simp only [Bool.not_eq_true, Option.not_isSome, Option.isNone_iff_eq_none,
    findRaw_eq_none_iff, List.mem_map, not_exists, not_and]

theorem findRaw_mem {K V : Type} [LinearOrder K] (k : K) (v : V) (l : List (K × V))
    (h : findRaw k l = some v) : (k, v) ∈ l := by
  induction l with
  | nil => simp [findRaw] at h
  | cons hd tl ih =>
    obtain ⟨k', v'⟩ := hd
    simp only [findRaw] at h
    split_ifs at h with hk
    · simp only [Option.some.injEq] at h
      subst hk; subst h; exact List.mem_cons_self _ _
    · exact List.mem_cons_of_mem _ (ih h)

theorem findRaw_assignRaw_self {K V : Type} [LinearOrder K] (k : K) (v : V)
    (l : List (K × V)) : findRaw k (assignRaw k v l) = some v := by
  induction l with
  | nil => simp [assignRaw, findRaw]
  | cons hd tl ih =>
    obtain ⟨k', v'⟩ := hd
    simp only [assignRaw]
    split_ifs with h1 h2
    · simp [findRaw]
    · simp [findRaw, ne_of_lt h2, ih]
    · simp [findRaw]

theorem findRaw_assignRaw_ne {K V : Type} [LinearOrder K] (k k2 : K) (v : V)
    (l : List (K × V)) (hne : k2 ≠ k) : findRaw k2 (assignRaw k v l) = findRaw k2 l := by
  induction l with
  | nil => simp [assignRaw, findRaw, Ne.symm hne]
  | cons hd tl ih =>
    obtain ⟨k', v'⟩ := hd
    simp only [assignRaw]
    split_ifs with h1 h2
    · simp [findRaw, Ne.symm hne]
    · simp [findRaw, ih]
    · have hk : k = k' := le_antisymm (not_lt.1 h2) (not_lt.1 h1)
      subst hk
      simp [findRaw, Ne.symm hne]

theorem keys_assignRaw_of_mem {K V : Type} [LinearOrder K] (k : K) (v : V)
    (l : List (K × V)) (hl : l.Pairwise (fun a b => a.1 < b.1))
    (hk : k ∈ l.map Prod.fst) : (assignRaw k v l).map Prod.fst = l.map Prod.fst := by
  induction l with
  | nil => simp at hk
  | cons hd tl ih =>
    obtain ⟨k', v'⟩ := hd
    rw [List.pairwise_cons] at hl
    simp only [assignRaw]
    split_ifs with h1 h2
    · exfalso
      simp only [List.map_cons, List.mem_cons, List.mem_map] at hk
      rcases hk with hk | ⟨e, he, hek⟩
      · exact absurd hk (ne_of_lt h1)
      · have := hl.1 e he
        rw [hek] at this
        exact lt_asymm h1 this
    · simp only [List.map_cons, List.cons.injEq, true_and]
      apply ih hl.2
      simp only [List.map_cons, List.mem_cons] at hk
      rcases hk with hk | hk
      · exact absurd hk.symm (ne_of_lt h2)
      · exact hk
    · have hk' : k = k' := le_antisymm (not_lt.1 h2) (not_lt.1 h1)
      simp [hk']

theorem keys_assignRaw_congr {K V : Type} [LinearOrder K] (k : K) (v w : V) :
    ∀ (l1 l2 : List (K × V)), l1.map Prod.fst = l2.map Prod.fst →
      (assignRaw k v l1).map Prod.fst = (assignRaw k w l2).map Prod.fst
  | [], [], _ => rfl
  | [], _ :: _, h => by simp at h
  | _ :: _, [], h => by simp at h
  | (k1, v1) :: t1, (k2, v2) :: t2, h => by
    simp only [List.map_cons, List.cons.injEq] at h
    obtain ⟨hk, ht⟩ := h
    subst hk
    simp only [assignRaw]
    split_ifs with h1 h2
    · simp [ht]
    · simp [keys_assignRaw_congr k v w t1 t2 ht]
    · simp [ht]

theorem entries_eq_of_findRaw_eq {K V : Type} [LinearOrder K] :
    ∀ (l1 l2 : List (K × V)), l1.Pairwise (fun a b => a.1 < b.1) →
      l2.Pairwise (fun a b => a.1 < b.1) →
      (∀ k, findRaw k l1 = findRaw k l2) → l1 = l2
  | [], [], _, _, _ => rfl
  | [], (k2, v2) :: t2, _, _, h => by
    have := h k2
    simp [findRaw] at this
  | (k1, v1) :: t1, [], _, _, h => by
    have := h k1
    simp [findRaw] at this
  | (k1, v1) :: t1, (k2, v2) :: t2, h1, h2, h => by
    rw [List.pairwise_cons] at h1 h2
    have n1 : findRaw k1 t1 = none := findRaw_eq_none_of_lt k1 t1 h1.1
    have n2 : findRaw k2 t2 = none := findRaw_eq_none_of_lt k2 t2 h2.1
    have hk : k1 = k2 := by
      rcases lt_trichotomy k1 k2 with hlt | heq | hgt
      · exfalso
        have := h k1
        rw [findRaw, if_pos rfl, findRaw, if_neg (ne_of_gt hlt),
          findRaw_eq_none_of_lt k1 t2 (fun e he => lt_trans hlt (h2.1 e he))] at this
        exact Option.noConfusion this
      · exact heq
      · exfalso
        have := h k2
        rw [findRaw, if_neg (ne_of_gt hgt),
          findRaw_eq_none_of_lt k2 t1 (fun e he => lt_trans hgt (h1.1 e he)),
          findRaw, if_pos rfl] at this
        exact Option.noConfusion this
    subst hk
    have hv : v1 = v2 := by
      have := h k1
      simpa [findRaw] using this
    subst hv
    have ht : t1 = t2 := by
      apply entries_eq_of_findRaw_eq t1 t2 h1.2 h2.2
      intro k
      by_cases hkk : k1 = k
      · subst hkk; rw [n1, n2]
      · have := h k
        simpa [findRaw, hkk] using this
    rw [ht]

theorem findRaw_foldl_assign {K V : Type} [LinearOrder K] (f : V → V) (k : K) :
    ∀ (l : List (K × V)) (m : StdMap K V), l.Pairwise (fun a b => a.1 < b.1) →
      (l.foldl (fun m r => m.assign r.1 (f r.2)) m).find k =
        (findRaw k l).elim (m.find k) (fun c => some (f c))
  | [], m, _ => by simp [findRaw]
  | (k', v') :: tl, m, hl => by
    rw [List.pairwise_cons] at hl
    rw [List.foldl_cons, findRaw_foldl_assign f k tl _ hl.2]
    by_cases hk : k' = k
    · subst hk
      rw [findRaw_eq_none_of_lt k' tl hl.1]
      simp [findRaw, StdMap.find, StdMap.assign, findRaw_assignRaw_self]
    · simp only [findRaw, if_neg hk]
      cases findRaw k tl with
      | some c => rfl
      | none =>
        simp only [StdMap.find, StdMap.assign, Option.elim]
        exact findRaw_assignRaw_ne k' k _ _ (Ne.symm hk)

namespace StdMap

variable {K V : Type} [LinearOrder K]

theorem ext_find {m1 m2 : StdMap K V} (h : ∀ k, m1.find k = m2.find k) : m1 = m2 :=
  ext_entries (entries_eq_of_findRaw_eq _ _ m1.sorted m2.sorted h)

theorem find_assign_self (m : StdMap K V) (k : K) (v : V) : (m.assign k v).find k = some v :=
  findRaw_assignRaw_self k v m.entries

theorem find_assign_ne (m : StdMap K V) (k k2 : K) (v : V) (hne : k2 ≠ k) :
    (m.assign k v).find k2 = m.find k2 :=
  findRaw_assignRaw_ne k k2 v m.entries hne

theorem find_assign (m : StdMap K V) (k k2 : K) (v : V) :
    (m.assign k v).find k2 = if k2 = k then some v else m.find k2 := by
  split_ifs with h
  · subst h; exact find_assign_self m k2 v
  · exact find_assign_ne m k k2 v h

theorem find_empty (k : K) : (empty : StdMap K V).find k = none := rfl

theorem atKey_eq_find (m : StdMap K V) (k : K) : m.atKey k = m.find k := rfl

theorem assign_assign (m : StdMap K V) (k : K) (v w : V) :
    (m.assign k v).assign k w = m.assign k w := by
  apply ext_find
  intro k2
  simp only [find_assign]
  split_ifs <;> rfl

theorem assign_eq_self (m : StdMap K V) (k : K) (v : V) (h : m.find k = some v) :
    m.assign k v = m := by
  apply ext_find
  intro k2
  rw [find_assign]
  split_ifs with hk
  · subst hk; exact h.symm
  · rfl

theorem find_isSome_iff (m : StdMap K V) (k : K) : (m.find k).isSome ↔ k ∈ m.keys :=
  findRaw_isSome_iff k m.entries

theorem keys_assign_of_find (m : StdMap K V) (k : K) (v w : V) (h : m.find k = some w) :
    (m.assign k v).keys = m.keys := by
  apply keys_assignRaw_of_mem k v m.entries m.sorted
  have := (find_isSome_iff m k).1 (by rw [h]; rfl)
  exact this

end StdMap

/-! ## Lemmas on `RepeatedSection` -/

namespace RepeatedSection

theorem new_addRepeatEndBar (S E : SystemLocation) (n : Int) :
    (new S).addRepeatEndBar E n = single S E n (n - 1) 1 := rfl

theorem performRepeat_single_ne (S E : SystemLocation) (n j a : Int) (hj : j ≠ 0) :
    (single S E n j a).performRepeat E = some (S, single S E n (j - 1) (a + 1)) := by
  simp only [performRepeat, findAlternateEnding, single, StdMap.find_empty,
    performRepeatEndBar, StdMap.find_assign_self, ne_eq, hj, not_false_eq_true, if_true,
    StdMap.assign_assign]

theorem performRepeat_single_zero (S E : SystemLocation) (n a : Int) :
    (single S E n 0 a).performRepeat E = some (E, single S E n (n - 1) a) := by
  simp only [performRepeat, findAlternateEnding, single, StdMap.find_empty,
    performRepeatEndBar, StdMap.find_assign_self, ne_eq, not_true_eq_false, if_false,
    StdMap.atKey_eq_find, StdMap.assign_assign]

theorem performRepeats_append (s : RepeatedSection) (l1 l2 : List SystemLocation) :
    s.performRepeats (l1 ++ l2) =
      match s.performRepeats l1 with
      | none => none
      | some (outs1, s1) =>
        match s1.performRepeats l2 with
        | none => none
        | some (outs2, s2) => some (outs1 ++ outs2, s2) := by
  induction l1 generalizing s with
  | nil =>
    simp only [List.nil_append, performRepeats]
    cases s.performRepeats l2 with
    | none => rfl
    | some r => rfl
  | cons loc rest ih =>
    simp only [List.cons_append, performRepeats]
    cases h : s.performRepeat loc with
    | none => rfl
    | some r =>
      obtain ⟨out, s'⟩ := r
      simp only [List.append_eq, ih s']
      cases s'.performRepeats rest with
      | none => rfl
      | some r1 =>
        obtain ⟨outs1, s1⟩ := r1
        simp only
        cases s1.performRepeats l2 with
        | none => rfl
        | some r2 => rfl

theorem performRepeats_single (S E : SystemLocation) (n : Int) :
    ∀ (k : Nat) (j a : Int), (k : Int) ≤ j →
      (single S E n j a).performRepeats (List.replicate k E) =
        some (List.replicate k S, single S E n (j - k) (a + k))
  | 0, j, a, _ => by simp [performRepeats]
  | k + 1, j, a, h => by
    have hj : j ≠ 0 := by omega
    have hk : (k : Int) ≤ j - 1 := by omega
    simp only [List.replicate_succ, performRepeats, performRepeat_single_ne S E n j a hj,
      performRepeats_single S E n k (j - 1) (a + 1) hk]
    have e1 : j - 1 - (k : Int) = j - ((k + 1 : Nat) : Int) := by push_cast; ring
    have e2 : a + 1 + (k : Int) = a + ((k + 1 : Nat) : Int) := by push_cast; ring
    rw [e1, e2]

theorem SameKeys.find_endBars {s : RepeatedSection} (h : SameKeys s) (loc : SystemLocation)
    (r : Int) (hr : s.myRemainingRepeats.find loc = some r) :
    ∃ c, s.myRepeatEndBars.find loc = some c := by
  have h1 : loc ∈ s.myRemainingRepeats.keys :=
    (StdMap.find_isSome_iff _ loc).1 (by rw [hr]; rfl)
  rw [h] at h1
  exact Option.isSome_iff_exists.1 ((StdMap.find_isSome_iff _ loc).2 h1)

theorem performRepeat_of_not_branch (s : RepeatedSection) (loc : SystemLocation)
    (h : ¬ takesAlternateBranch s loc) : s.performRepeat loc = s.performRepeatEndBar loc := by
  unfold performRepeat
  cases h1 : s.findAlternateEnding 1 with
  | none => rfl
  | some first =>
    simp only
    split_ifs with he
    · cases h2 : s.findAlternateEnding s.myActiveRepeat with
      | none => rfl
      | some t =>
        exfalso
        apply h
        exact ⟨by rw [h1, he], by rw [h2]; rfl⟩
    · rfl

end RepeatedSection

/-! ## Claims on `RepeatedSection::performRepeat` and `reset` -/

/-- C1: on a section with start `S`, no alternate ending and the single end bar
`E` added with `addRepeatEndBar(E, n)`, `n ≥ 1`: for every `k` with
`1 ≤ k ≤ n - 1` the first `k` calls `performRepeat(E)` all return `S` and leave
`myActiveRepeat = k + 1`; the first `n` calls return `S` (`n - 1` times) and then
`E`, and leave `myActiveRepeat = n` and `myRemainingRepeats[E] = n - 1`, the map
being the initial one. -/
theorem C1_simple_repeat (S E : SystemLocation) (n : Nat) (hn : 1 ≤ n) :
    (∀ k : Nat, 1 ≤ k → k < n →
      ∃ s, ((RepeatedSection.new S).addRepeatEndBar E n).performRepeats (List.replicate k E) =
          some (List.replicate k S, s) ∧
        s.myActiveRepeat = k + 1) ∧
    (∃ s, ((RepeatedSection.new S).addRepeatEndBar E n).performRepeats (List.replicate n E) =
        some (List.replicate (n - 1) S ++ [E], s) ∧
      s.myActiveRepeat = n ∧
      s.myRemainingRepeats.find E = some ((n : Int) - 1) ∧
      s.myRemainingRepeats = ((RepeatedSection.new S).addRepeatEndBar E n).myRemainingRepeats) := by
  rw [RepeatedSection.new_addRepeatEndBar]
  constructor
  · intro k _ hk
    refine ⟨_, RepeatedSection.performRepeats_single S E n k _ 1 (by omega), ?_⟩
    simp only [RepeatedSection.single]
    ring
  · have hrep : List.replicate n E = List.replicate (n - 1) E ++ [E] := by
      rw [← List.replicate_succ', Nat.sub_add_cancel hn]
    have hz : (n : Int) - 1 - ((n - 1 : Nat) : Int) = 0 := by omega
    refine ⟨RepeatedSection.single S E n (n - 1) n, ?_, rfl, ?_, rfl⟩
    · rw [hrep, RepeatedSection.performRepeats_append,
        RepeatedSection.performRepeats_single S E n (n - 1) _ 1 (by omega)]
      simp only [RepeatedSection.performRepeats, hz, RepeatedSection.performRepeat_single_zero]
      have e : (1 : Int) + ((n - 1 : Nat) : Int) = n := by omega
      rw [e]
    · simp only [RepeatedSection.single, StdMap.find_assign_self]

/-- Witness of C1: `S = (0,0)`, `E = (0,10)`, `n = 3`. -/
theorem C1_simple_repeat_witness :
    (1 ≤ 3) ∧
    ((∀ k : Nat, 1 ≤ k → k < 3 →
      ∃ s, ((RepeatedSection.new ⟨0, 0⟩).addRepeatEndBar ⟨0, 10⟩ (3 : Nat)).performRepeats
            (List.replicate k ⟨0, 10⟩) = some (List.replicate k ⟨0, 0⟩, s) ∧
        s.myActiveRepeat = k + 1) ∧
    (∃ s, ((RepeatedSection.new ⟨0, 0⟩).addRepeatEndBar ⟨0, 10⟩ (3 : Nat)).performRepeats
          (List.replicate 3 ⟨0, 10⟩) = some (List.replicate (3 - 1) ⟨0, 0⟩ ++ [⟨0, 10⟩], s) ∧
      s.myActiveRepeat = (3 : Nat) ∧
      s.myRemainingRepeats.find ⟨0, 10⟩ = some (((3 : Nat) : Int) - 1) ∧
      s.myRemainingRepeats =
        ((RepeatedSection.new ⟨0, 0⟩).addRepeatEndBar ⟨0, 10⟩ (3 : Nat)).myRemainingRepeats)) :=
  ⟨by decide, C1_simple_repeat ⟨0, 0⟩ ⟨0, 10⟩ 3 (by decide)⟩

/-- C2: when the alternate-ending branch is not taken, `performRepeat(loc)`
returns `loc` and changes nothing if `loc` is not a key of `myRemainingRepeats`;
decrements `myRemainingRepeats[loc]`, increments `myActiveRepeat` and returns the
start bar if the entry is positive; and, if the entry is `0` (the key sets of the
two maps being the same), sets it to `myRepeatEndBars[loc] - 1`, keeps
`myActiveRepeat` and returns `loc`.  No other entry of `myRemainingRepeats` is
changed by any call. -/
theorem C2_end_bar_step (s : RepeatedSection) (loc : SystemLocation)
    (h : ¬ RepeatedSection.takesAlternateBranch s loc) :
    (s.myRemainingRepeats.find loc = none → s.performRepeat loc = some (loc, s)) ∧
    (∀ r, s.myRemainingRepeats.find loc = some r → r > 0 →
      s.performRepeat loc = some (s.myStartBarLocation,
        { s with
          myRemainingRepeats := s.myRemainingRepeats.assign loc (r - 1)
          myActiveRepeat := s.myActiveRepeat + 1 })) ∧
    (s.myRemainingRepeats.find loc = some 0 → RepeatedSection.SameKeys s →
      ∃ c, s.myRepeatEndBars.find loc = some c ∧
        s.performRepeat loc = some (loc,
          { s with myRemainingRepeats := s.myRemainingRepeats.assign loc (c - 1) })) ∧
    (∀ out s', s.performRepeat loc = some (out, s') →
      ∀ l, l ≠ loc → s'.myRemainingRepeats.find l = s.myRemainingRepeats.find l) := by
  rw [RepeatedSection.performRepeat_of_not_branch s loc h]
  refine ⟨?_, ?_, ?_, ?_⟩
  · intro h0
    simp only [RepeatedSection.performRepeatEndBar, h0]
  · intro r hr hpos
    have hne : r ≠ 0 := by omega
    simp only [RepeatedSection.performRepeatEndBar, hr, ne_eq, hne, not_false_eq_true, if_true]
  · intro h0 hkeys
    obtain ⟨c, hc⟩ := hkeys.find_endBars loc 0 h0
    refine ⟨c, hc, ?_⟩
    simp only [RepeatedSection.performRepeatEndBar, h0, ne_eq, not_true_eq_false, if_false,
      StdMap.atKey_eq_find, hc]
  · intro out s' hs l hl
    unfold RepeatedSection.performRepeatEndBar at hs
    cases hr : s.myRemainingRepeats.find loc with
    | none =>
      rw [hr] at hs
      simp only [Option.some.injEq, Prod.mk.injEq] at hs
      rw [← hs.2]
    | some r =>
      rw [hr] at hs
      simp only at hs
      split_ifs at hs with hne
      · simp only [Option.some.injEq, Prod.mk.injEq] at hs
        rw [← hs.2]
        exact StdMap.find_assign_ne _ loc l _ hl
      · cases hc : s.myRepeatEndBars.atKey loc with
        | none => rw [hc] at hs; exact Option.noConfusion hs
        | some c =>
          rw [hc] at hs
          simp only [Option.some.injEq, Prod.mk.injEq] at hs
          rw [← hs.2]
          exact StdMap.find_assign_ne _ loc l _ hl

/-- Witness of C2: the section with start (0,0) and end bar (0,10) of count 3,
at the location (0,10), where two repeats remain. -/
theorem C2_end_bar_step_witness :
    ¬ RepeatedSection.takesAlternateBranch
        ((RepeatedSection.new ⟨0, 0⟩).addRepeatEndBar ⟨0, 10⟩ 3) ⟨0, 10⟩ ∧
    ((RepeatedSection.new ⟨0, 0⟩).addRepeatEndBar ⟨0, 10⟩ 3).myRemainingRepeats.find
        ⟨0, 10⟩ = some 2 ∧
    ((RepeatedSection.new ⟨0, 0⟩).addRepeatEndBar ⟨0, 10⟩ 3).performRepeat ⟨0, 10⟩ =
      some (((RepeatedSection.new ⟨0, 0⟩).addRepeatEndBar ⟨0, 10⟩ 3).myStartBarLocation,
        { (RepeatedSection.new ⟨0, 0⟩).addRepeatEndBar ⟨0, 10⟩ 3 with
          myRemainingRepeats :=
            ((RepeatedSection.new ⟨0, 0⟩).addRepeatEndBar ⟨0, 10⟩ 3).myRemainingRepeats.assign
              ⟨0, 10⟩ (2 - 1)
          myActiveRepeat :=
            ((RepeatedSection.new ⟨0, 0⟩).addRepeatEndBar ⟨0, 10⟩ 3).myActiveRepeat + 1 }) :=
  ⟨by decide, by decide,
    (C2_end_bar_step ((RepeatedSection.new ⟨0, 0⟩).addRepeatEndBar ⟨0, 10⟩ 3) ⟨0, 10⟩
      (by decide)).2.1 2 (by decide) (by decide)⟩

/-- C3: when `myAlternateEndings[1] = L` and `myAlternateEndings[myActiveRepeat] = T`,
`performRepeat(L)` returns `T` and leaves the whole state unchanged, whether or
not `L` is an end-bar key; with `myActiveRepeat = 1` it returns `L`; and with the
alternate endings `1 -> (0,5)`, `2 -> (0,8)` and `myActiveRepeat = 2`,
`performRepeat((0,5))` returns `(0,8)`. -/
theorem C3_alternate_branch :
    (∀ (s : RepeatedSection) (L T : SystemLocation),
      s.findAlternateEnding 1 = some L → s.findAlternateEnding s.myActiveRepeat = some T →
      s.performRepeat L = some (T, s)) ∧
    (∀ (s : RepeatedSection) (L : SystemLocation),
      s.findAlternateEnding 1 = some L → s.myActiveRepeat = 1 →
      s.performRepeat L = some (L, s)) ∧
    (∀ s : RepeatedSection,
      s.myAlternateEndings = (StdMap.empty.assign 1 ⟨0, 5⟩).assign 2 ⟨0, 8⟩ →
      s.myActiveRepeat = 2 → s.performRepeat ⟨0, 5⟩ = some (⟨0, 8⟩, s)) := by
  have main : ∀ (s : RepeatedSection) (L T : SystemLocation),
      s.findAlternateEnding 1 = some L → s.findAlternateEnding s.myActiveRepeat = some T →
      s.performRepeat L = some (T, s) := by
    intro s L T h1 h2
    simp only [RepeatedSection.performRepeat, h1, h2, if_true]
  refine ⟨main, ?_, ?_⟩
  · intro s L h1 ha
    apply main s L L h1
    rw [ha]; exact h1
  · intro s hm ha
    apply main
    · rw [RepeatedSection.findAlternateEnding, hm]; rfl
    · rw [RepeatedSection.findAlternateEnding, hm, ha]; rfl

/-- Witness of C3: start (0,0), end bar (0,10) of count 2 (which makes (0,10) an
end-bar key), alternate endings `1 -> (0,10)` and `2 -> (0,12)`: the first
alternate ending sits on the end bar and `performRepeat((0,10))` returns it. -/
theorem C3_alternate_branch_witness :
    (((RepeatedSection.new ⟨0, 0⟩).addRepeatEndBar ⟨0, 10⟩ 2).addAlternateEnding 0
        ⟨10, [1]⟩).findAlternateEnding 1 = some ⟨0, 10⟩ ∧
    (((RepeatedSection.new ⟨0, 0⟩).addRepeatEndBar ⟨0, 10⟩ 2).addAlternateEnding 0
        ⟨10, [1]⟩).myActiveRepeat = 1 ∧
    (((RepeatedSection.new ⟨0, 0⟩).addRepeatEndBar ⟨0, 10⟩ 2).addAlternateEnding 0
        ⟨10, [1]⟩).performRepeat ⟨0, 10⟩ =
      some (⟨0, 10⟩, ((RepeatedSection.new ⟨0, 0⟩).addRepeatEndBar ⟨0, 10⟩ 2).addAlternateEnding 0
        ⟨10, [1]⟩) :=
  ⟨by decide, by decide,
    C3_alternate_branch.2.1 _ ⟨0, 10⟩ (by decide) (by decide)⟩

namespace RepeatedSection

theorem section_eq_of_fields {a b : RepeatedSection}
    (h1 : a.myStartBarLocation = b.myStartBarLocation)
    (h2 : a.myRepeatEndBars = b.myRepeatEndBars)
    (h3 : a.myRemainingRepeats = b.myRemainingRepeats)
    (h4 : a.myAlternateEndings = b.myAlternateEndings)
    (h5 : a.myActiveRepeat = b.myActiveRepeat) : a = b := by
  cases a; cases b
  simp only at h1 h2 h3 h4 h5
  subst h1 h2 h3 h4 h5
  rfl

theorem find_reset (s : RepeatedSection) (k : SystemLocation) :
    s.reset.myRemainingRepeats.find k =
      (s.myRepeatEndBars.find k).elim (s.myRemainingRepeats.find k) (fun c => some (c - 1)) :=
  findRaw_foldl_assign (fun c => c - 1) k s.myRepeatEndBars.entries s.myRemainingRepeats
    s.myRepeatEndBars.sorted

theorem find_eq_none_of_sameKeys {s : RepeatedSection} (h : SameKeys s) (k : SystemLocation)
    (hk : s.myRepeatEndBars.find k = none) : s.myRemainingRepeats.find k = none := by
  cases hr : s.myRemainingRepeats.find k with
  | none => rfl
  | some r =>
    obtain ⟨c, hc⟩ := h.find_endBars k r hr
    rw [hk] at hc
    exact Option.noConfusion hc

theorem find_reset_of_sameKeys {s : RepeatedSection} (h : SameKeys s) (k : SystemLocation) :
    s.reset.myRemainingRepeats.find k = (s.myRepeatEndBars.find k).map (fun c => c - 1) := by
  rw [find_reset]
  cases hk : s.myRepeatEndBars.find k with
  | none => exact find_eq_none_of_sameKeys h k hk
  | some c => rfl

theorem reset_eq_of_shape {s s' : RepeatedSection} (h : SameKeys s) (h' : SameKeys s')
    (hstart : s'.myStartBarLocation = s.myStartBarLocation)
    (hend : s'.myRepeatEndBars = s.myRepeatEndBars)
    (halt : s'.myAlternateEndings = s.myAlternateEndings) : s'.reset = s.reset := by
  refine @section_eq_of_fields s'.reset s.reset hstart hend ?_ halt rfl
  apply StdMap.ext_find
  intro k
  rw [find_reset_of_sameKeys h, find_reset_of_sameKeys h', hend]

theorem reset_eq_self_of_fresh {s : RepeatedSection} (ha : s.myActiveRepeat = 1)
    (hr : ∀ k, s.myRemainingRepeats.find k = (s.myRepeatEndBars.find k).map (fun c => c - 1)) :
    s.reset = s := by
  refine @section_eq_of_fields s.reset s rfl rfl ?_ rfl ha.symm
  apply StdMap.ext_find
  intro k
  rw [find_reset, hr k]
  cases s.myRepeatEndBars.find k <;> rfl

theorem reset_reset (s : RepeatedSection) : s.reset.reset = s.reset := by
  refine @section_eq_of_fields s.reset.reset s.reset rfl rfl ?_ rfl rfl
  apply StdMap.ext_find
  intro k
  have e : s.reset.myRepeatEndBars = s.myRepeatEndBars := rfl
  rw [find_reset s.reset, e, find_reset s]
  cases s.myRepeatEndBars.find k <;> rfl

theorem sameKeys_addRepeatEndBar {s : RepeatedSection} (h : SameKeys s)
    (location : SystemLocation) (repeatCount : Int) :
    SameKeys (s.addRepeatEndBar location repeatCount) :=
  keys_assignRaw_congr location (repeatCount - 1) repeatCount _ _ h

theorem Built.sameKeys {s : RepeatedSection} (h : Built s) : SameKeys s := by
  induction h with
  | new startBar => rfl
  | addRepeatEndBar location repeatCount _ ih => exact sameKeys_addRepeatEndBar ih _ _
  | addAlternateEnding system ending _ ih => exact ih

theorem Built.fresh {s : RepeatedSection} (h : Built s) :
    s.myActiveRepeat = 1 ∧
    ∀ k, s.myRemainingRepeats.find k = (s.myRepeatEndBars.find k).map (fun c => c - 1) := by
  induction h with
  | new startBar => exact ⟨rfl, fun k => rfl⟩
  | addRepeatEndBar location repeatCount _ ih =>
    refine ⟨ih.1, fun k => ?_⟩
    simp only [RepeatedSection.addRepeatEndBar, StdMap.find_assign]
    split_ifs
    · rfl
    · exact ih.2 k
  | addAlternateEnding system ending _ ih => exact ih

/-- Under `SameKeys`, `performRepeat` returns (it does not throw) and changes at
most the values of `myRemainingRepeats` and `myActiveRepeat`. -/
theorem performRepeat_shape {s : RepeatedSection} (h : SameKeys s) (loc : SystemLocation) :
    ∃ out s', s.performRepeat loc = some (out, s') ∧ SameKeys s' ∧
      s'.myStartBarLocation = s.myStartBarLocation ∧
      s'.myRepeatEndBars = s.myRepeatEndBars ∧
      s'.myAlternateEndings = s.myAlternateEndings := by
  by_cases hb : takesAlternateBranch s loc
  · obtain ⟨h1, h2⟩ := hb
    obtain ⟨T, hT⟩ := Option.isSome_iff_exists.1 h2
    refine ⟨T, s, ?_, h, rfl, rfl, rfl⟩
    simp only [performRepeat, h1, hT, if_true]
  · rw [performRepeat_of_not_branch s loc hb]
    unfold performRepeatEndBar
    cases hr : s.myRemainingRepeats.find loc with
    | none => exact ⟨loc, s, rfl, h, rfl, rfl, rfl⟩
    | some r =>
      simp only
      split_ifs with hne
      · refine ⟨_, _, rfl, ?_, rfl, rfl, rfl⟩
        show (s.myRemainingRepeats.assign loc (r - 1)).keys = s.myRepeatEndBars.keys
        rw [StdMap.keys_assign_of_find _ loc _ r hr]
        exact h
      · obtain ⟨c, hc⟩ := h.find_endBars loc r hr
        rw [StdMap.atKey_eq_find, hc]
        refine ⟨_, _, rfl, ?_, rfl, rfl, rfl⟩
        show (s.myRemainingRepeats.assign loc (c - 1)).keys = s.myRepeatEndBars.keys
        rw [StdMap.keys_assign_of_find _ loc _ r hr]
        exact h

theorem performRepeats_shape :
    ∀ (locs : List SystemLocation) {s : RepeatedSection}, SameKeys s →
      ∃ outs s', s.performRepeats locs = some (outs, s') ∧ SameKeys s' ∧
        s'.myStartBarLocation = s.myStartBarLocation ∧
        s'.myRepeatEndBars = s.myRepeatEndBars ∧
        s'.myAlternateEndings = s.myAlternateEndings
  | [], s, h => ⟨[], s, rfl, h, rfl, rfl, rfl⟩
  | loc :: rest, s, h => by
    obtain ⟨out, s1, e1, k1, a1, b1, c1⟩ := performRepeat_shape h loc
    obtain ⟨outs, s2, e2, k2, a2, b2, c2⟩ := performRepeats_shape rest k1
    refine ⟨out :: outs, s2, ?_, k2, a2.trans a1, b2.trans b1, c2.trans c1⟩
    simp only [performRepeats, e1, e2]

end RepeatedSection

/-- C4: on a section built by `addRepeatEndBar` / `addAlternateEnding`, every
finite sequence of `performRepeat` calls returns, and a following `reset()`
yields `myActiveRepeat = 1` and `myRemainingRepeats[loc] = myRepeatEndBars[loc] - 1`
for every end bar `loc`, indeed exactly the state before the calls; and
`reset()` is idempotent on every state. -/
theorem C4_reset_restores :
    (∀ s : RepeatedSection, RepeatedSection.Built s → ∀ locs : List SystemLocation,
      ∃ outs s', s.performRepeats locs = some (outs, s') ∧
        s'.reset.myActiveRepeat = 1 ∧
        (∀ loc c, s'.reset.myRepeatEndBars.find loc = some c →
          s'.reset.myRemainingRepeats.find loc = some (c - 1)) ∧
        s'.reset = s) ∧
    (∀ s : RepeatedSection, s.reset.reset = s.reset) := by
  constructor
  · intro s hs locs
    obtain ⟨outs, s', e, k, a, b, c⟩ := RepeatedSection.performRepeats_shape locs hs.sameKeys
    refine ⟨outs, s', e, rfl, ?_, ?_⟩
    · intro loc cnt hc
      have hc' : s'.myRepeatEndBars.find loc = some cnt := hc
      rw [RepeatedSection.find_reset, hc']
      rfl
    · rw [RepeatedSection.reset_eq_of_shape hs.sameKeys k a b c]
      exact RepeatedSection.reset_eq_self_of_fresh hs.fresh.1 hs.fresh.2
  · exact RepeatedSection.reset_reset

/-- Witness of C4: the section with start (0,0) and end bar (0,10) of count 3,
after `performRepeat((0,10))` and `performRepeat((0,4))`. -/
theorem C4_reset_restores_witness :
    RepeatedSection.Built ((RepeatedSection.new ⟨0, 0⟩).addRepeatEndBar ⟨0, 10⟩ 3) ∧
    ∃ outs s', ((RepeatedSection.new ⟨0, 0⟩).addRepeatEndBar ⟨0, 10⟩ 3).performRepeats
          [⟨0, 10⟩, ⟨0, 4⟩] = some (outs, s') ∧
      s'.reset.myActiveRepeat = 1 ∧
      (∀ loc c, s'.reset.myRepeatEndBars.find loc = some c →
        s'.reset.myRemainingRepeats.find loc = some (c - 1)) ∧
      s'.reset = (RepeatedSection.new ⟨0, 0⟩).addRepeatEndBar ⟨0, 10⟩ 3 :=
  ⟨RepeatedSection.Built.addRepeatEndBar _ _ (RepeatedSection.Built.new _),
    C4_reset_restores.1 _
      (RepeatedSection.Built.addRepeatEndBar _ _ (RepeatedSection.Built.new _)) _⟩

/-! ## `RepeatIndexer::findRepeat` -/

theorem mem_takeWhile_start (loc : SystemLocation) :
    ∀ (l : List RepeatedSection),
      l.Pairwise (fun a b => a.myStartBarLocation < b.myStartBarLocation) →
      ∀ r, r ∈ l.takeWhile (fun r => decide (¬ loc < r.myStartBarLocation)) ↔
        r ∈ l ∧ r.myStartBarLocation ≤ loc
  | [], _, r => by simp
  | x :: t, h, r => by
    rw [List.pairwise_cons] at h
    by_cases hx : loc < x.myStartBarLocation
    · rw [List.takeWhile_cons_of_neg (by simpa using hx)]
      simp only [List.not_mem_nil, List.mem_cons, false_iff, not_and, not_le]
      rintro (rfl | hr)
      · exact hx
      · exact lt_trans hx (h.1 r hr)
    · rw [List.takeWhile_cons_of_pos (by simpa using hx), List.mem_cons, List.mem_cons,
        mem_takeWhile_start loc t h.2 r]
      constructor
      · rintro (rfl | ⟨hr, hle⟩)
        · exact ⟨Or.inl rfl, not_lt.1 hx⟩
        · exact ⟨Or.inr hr, hle⟩
      · rintro ⟨rfl | hr, hle⟩
        · exact Or.inl rfl
        · exact Or.inr ⟨hr, hle⟩

theorem findRepeatScan_spec (loc : SystemLocation) :
    ∀ (l : List RepeatedSection),
      l.Pairwise (fun a b => b.myStartBarLocation < a.myStartBarLocation) →
      (∀ r ∈ l, r.myRepeatEndBars.isEmpty = false) →
      (∀ R, RepeatIndexer.findRepeatScan loc l = some (some R) ↔
        R ∈ l ∧ (∃ e, R.getLastEndBarLocation = some e ∧ e ≥ loc) ∧
          ∀ R' ∈ l, (∃ e, R'.getLastEndBarLocation = some e ∧ e ≥ loc) →
            R'.myStartBarLocation ≤ R.myStartBarLocation) ∧
      (RepeatIndexer.findRepeatScan loc l = some none ↔
        ∀ R ∈ l, ¬ ∃ e, R.getLastEndBarLocation = some e ∧ e ≥ loc)
  | [], _, _ => by simp [RepeatIndexer.findRepeatScan]
  | x :: t, hp, hne => by
    rw [List.pairwise_cons] at hp
    have ih := findRepeatScan_spec loc t hp.2 (fun r hr => hne r (List.mem_cons_of_mem _ hr))
    cases hx : x.getLastEndBarLocation with
    | none =>
      exfalso
      have := hne x (List.mem_cons_self _ _)
      simp only [RepeatedSection.getLastEndBarLocation, StdMap.lastKey, Option.map_eq_none',
        List.getLast?_eq_none_iff] at hx
      simp [StdMap.isEmpty, hx] at this
    | some e =>
      simp only [RepeatIndexer.findRepeatScan, hx]
      by_cases he : e ≥ loc
      · rw [if_pos he]
        constructor
        · intro R
          simp only [Option.some.injEq, List.mem_cons, forall_eq_or_imp]
          constructor
          · intro hR
            subst hR
            exact ⟨Or.inl rfl, ⟨e, hx, he⟩, fun _ => le_refl _,
              fun R' hR' _ => le_of_lt (hp.1 R' hR')⟩
          · rintro ⟨hmem, _, hmax, _⟩
            rcases hmem with rfl | hmem
            · rfl
            · exact absurd (hp.1 R hmem) (not_lt.2 (hmax ⟨e, hx, he⟩))
        · simp only [Option.some.injEq, List.mem_cons, forall_eq_or_imp, false_iff, not_and,
            reduceCtorEq]
          intro hh
          exact absurd ⟨e, hx, he⟩ hh
      · rw [if_neg he]
        have hnx : ¬ ∃ e', x.getLastEndBarLocation = some e' ∧ e' ≥ loc := by
          rintro ⟨e', he', hge⟩
          rw [hx] at he'
          simp only [Option.some.injEq] at he'
          subst he'
          exact he hge
        constructor
        · intro R
          rw [ih.1 R]
          simp only [List.mem_cons, forall_eq_or_imp]
          constructor
          · rintro ⟨hmem, hhit, hmax⟩
            exact ⟨Or.inr hmem, hhit, fun hh => absurd hh hnx, hmax⟩
          · rintro ⟨hmem, hhit, _, hmax⟩
            rcases hmem with rfl | hmem
            · exact absurd hhit hnx
            · exact ⟨hmem, hhit, hmax⟩
        · rw [ih.2]
          simp only [List.mem_cons, forall_eq_or_imp]
          constructor
          · intro h; exact ⟨hnx, h⟩
          · intro h; exact h.2

/-- C5: on an index whose sections are in strictly increasing order of start and
have at least one end bar each, `findRepeat(loc)` returns the section `R` iff `R`
is in the index, surrounds `loc` (`start ≤ loc ≤ getLastEndBarLocation()`) and has
the greatest start among the sections that surround `loc`; and it returns
`nullptr` iff no section of the index surrounds `loc`. -/
theorem C5_findRepeat_innermost (idx : RepeatIndexer) (loc : SystemLocation)
    (hsorted : idx.myRepeats.Pairwise
      (fun a b => a.myStartBarLocation < b.myStartBarLocation))
    (hne : ∀ r ∈ idx.myRepeats, r.myRepeatEndBars.isEmpty = false) :
    (∀ R, idx.findRepeat loc = some (some R) ↔
      R ∈ idx.myRepeats ∧ Encloses R loc ∧
        ∀ R' ∈ idx.myRepeats, Encloses R' loc →
          R'.myStartBarLocation ≤ R.myStartBarLocation) ∧
    (idx.findRepeat loc = some none ↔ ∀ R ∈ idx.myRepeats, ¬ Encloses R loc) := by
  have hmem := mem_takeWhile_start loc idx.myRepeats hsorted
  have hsub : (idx.beforeUpperBound loc).Pairwise
      (fun a b => a.myStartBarLocation < b.myStartBarLocation) :=
    hsorted.sublist (List.takeWhile_sublist _)
  have hrev : (idx.beforeUpperBound loc).reverse.Pairwise
      (fun a b => b.myStartBarLocation < a.myStartBarLocation) :=
    List.pairwise_reverse.2 hsub
  have hne' : ∀ r ∈ (idx.beforeUpperBound loc).reverse, r.myRepeatEndBars.isEmpty = false := by
    intro r hr
    exact hne r ((hmem r).1 (List.mem_reverse.1 hr)).1
  have key := findRepeatScan_spec loc _ hrev hne'
  have hmem' : ∀ r, r ∈ (idx.beforeUpperBound loc).reverse ↔
      r ∈ idx.myRepeats ∧ r.myStartBarLocation ≤ loc := by
    intro r
    rw [List.mem_reverse]
    exact hmem r
  unfold RepeatIndexer.findRepeat
  constructor
  · intro R
    rw [key.1 R, hmem' R]
    unfold Encloses
    constructor
    · rintro ⟨⟨hin, hle⟩, hhit, hmax⟩
      exact ⟨hin, ⟨hle, hhit⟩, fun R' hR' hE => hmax R' ((hmem' R').2 ⟨hR', hE.1⟩) hE.2⟩
    · rintro ⟨hin, ⟨hle, hhit⟩, hmax⟩
      exact ⟨⟨hin, hle⟩, hhit, fun R' hR' hE =>
        hmax R' ((hmem' R').1 hR').1 ⟨((hmem' R').1 hR').2, hE⟩⟩
  · rw [key.2]
    unfold Encloses
    constructor
    · intro h R hR hE
      exact h R ((hmem' R).2 ⟨hR, hE.1⟩) hE.2
    · intro h R hR hE
      exact h R ((hmem' R).1 hR).1 ⟨((hmem' R).1 hR).2, hE⟩

/-- Witness of C5: the index built from the sample score with a repeat from
(0,0) to (0,10). -/
theorem C5_findRepeat_innermost_witness :
    (RepeatIndexer.new sampleSimple).myRepeats.Pairwise
      (fun a b => a.myStartBarLocation < b.myStartBarLocation) ∧
    (∀ r ∈ (RepeatIndexer.new sampleSimple).myRepeats, r.myRepeatEndBars.isEmpty = false) ∧
    ((RepeatIndexer.new sampleSimple).findRepeat ⟨1, 0⟩ = some none ↔
      ∀ R ∈ (RepeatIndexer.new sampleSimple).myRepeats, ¬ Encloses R ⟨1, 0⟩) :=
  ⟨by decide, by decide,
    (C5_findRepeat_innermost (RepeatIndexer.new sampleSimple) ⟨1, 0⟩ (by decide)
      (by decide)).2⟩

/-! ## The build pass: structure of one step -/

theorem build_eq_foldl :
    ∀ (systems : List System) (st : BuildState) (i : Int),
      (systems.foldl processSystem (st, i)).1 = (scanOrder i systems).foldl processEntry st
  | [], _, _ => rfl
  | system :: rest, st, i => by
    rw [List.foldl_cons, scanOrder, List.foldl_append, List.foldl_map]
    exact build_eq_foldl rest _ (i + 1)

theorem new_myRepeats (score : Score) :
    (RepeatIndexer.new score).myRepeats =
      ((scanOrder 0 score.systems).foldl processEntry initialBuildState).myRepeats := by
  unfold RepeatIndexer.new
  rw [build_eq_foldl]

theorem mem_scanOrder :
    ∀ (systems : List System) (i : Int) (x : Int × System × Barline),
      x ∈ scanOrder i systems → x.2.1 ∈ systems ∧ x.2.2 ∈ x.2.1.barlines ∧ i ≤ x.1
  | [], _, x, h => by simp [scanOrder] at h
  | system :: rest, i, x, h => by
    rw [scanOrder, List.mem_append, List.mem_map] at h
    rcases h with ⟨bar, hbar, rfl⟩ | h
    · exact ⟨List.mem_cons_self _ _, hbar, le_refl _⟩
    · obtain ⟨h1, h2, h3⟩ := mem_scanOrder rest (i + 1) x h
      exact ⟨List.mem_cons_of_mem _ h1, h2, by omega⟩

theorem foldl_processEntry_induction (P : BuildState → Prop) :
    ∀ (evs : List (Int × System × Barline)) (st : BuildState), P st →
      (∀ e ∈ evs, ∀ s, P s → P (processEntry s e)) → P (evs.foldl processEntry st)
  | [], _, h0, _ => h0
  | e :: rest, st, h0, hstep => by
    rw [List.foldl_cons]
    exact foldl_processEntry_induction P rest _ (hstep e (List.mem_cons_self _ _) st h0)
      (fun e' he' => hstep e' (List.mem_cons_of_mem _ he'))

theorem mem_setInsert (r r' : RepeatedSection) :
    ∀ (l : List RepeatedSection), r' ∈ setInsert r l → r' = r ∨ r' ∈ l
  | [], h => by simp [setInsert] at h; exact Or.inl h
  | x :: t, h => by
    simp only [setInsert] at h
    split_ifs at h with h1 h2
    · simp only [List.mem_cons] at h ⊢; tauto
    · simp only [List.mem_cons] at h ⊢
      rcases h with h | h
      · tauto
      · have := mem_setInsert r r' t h; tauto
    · simp only [List.mem_cons] at h ⊢; tauto

theorem getTotalRepeatCount_of_empty (r : RepeatedSection)
    (h : r.myRepeatEndBars.entries = []) : r.getTotalRepeatCount = 0 := by
  simp [RepeatedSection.getTotalRepeatCount, h]

theorem finalizeCheck_cases (st : BuildState) :
    finalizeCheck st = st ∨
    ∃ top rest, st.repeats = top :: rest ∧ top.getAlternateEndingCount ≠ 0 ∧
      top.getTotalRepeatCount ≠ 0 ∧
      top.getAlternateEndingCount ≥ top.getTotalRepeatCount ∧
      finalizeCheck st = ⟨rest, setInsert top st.myRepeats⟩ := by
  unfold finalizeCheck
  cases hst : st.repeats with
  | nil => exact Or.inl rfl
  | cons top rest =>
    simp only
    split_ifs with h
    · exact Or.inr ⟨top, rest, rfl, h.1, h.2.1, h.2.2, rfl⟩
    · exact Or.inl rfl

theorem finalizeCheck_of_top_empty (st : BuildState)
    (h : ∀ top rest, st.repeats = top :: rest → top.myRepeatEndBars.entries = []) :
    finalizeCheck st = st := by
  rcases finalizeCheck_cases st with h1 | ⟨top, rest, hst, _, htot, _, _⟩
  · exact h1
  · exact absurd (getTotalRepeatCount_of_empty top (h top rest hst)) htot

theorem handleBarType_cases (i : Int) (bar : Barline) (st : BuildState) :
    (bar.barType = BarType.RepeatStart ∧
      handleBarType i bar st =
        ⟨RepeatedSection.new ⟨i, bar.position⟩ :: st.repeats, st.myRepeats⟩) ∨
    (bar.barType ≠ BarType.RepeatStart ∧ handleBarType i bar st = st ∧
      (bar.barType = BarType.RepeatEnd → st.repeats = [])) ∨
    (bar.barType = BarType.RepeatEnd ∧ ∃ top rest, st.repeats = top :: rest ∧
      (top.addRepeatEndBar ⟨i, bar.position⟩ bar.repeatCount).getAlternateEndingCount = 0 ∧
      handleBarType i bar st =
        ⟨rest, setInsert (top.addRepeatEndBar ⟨i, bar.position⟩ bar.repeatCount)
          st.myRepeats⟩) ∨
    (bar.barType = BarType.RepeatEnd ∧ ∃ top rest, st.repeats = top :: rest ∧
      (top.addRepeatEndBar ⟨i, bar.position⟩ bar.repeatCount).getAlternateEndingCount ≠ 0 ∧
      handleBarType i bar st =
        ⟨top.addRepeatEndBar ⟨i, bar.position⟩ bar.repeatCount :: rest, st.myRepeats⟩) := by
  unfold handleBarType
  by_cases h1 : bar.barType = BarType.RepeatStart
  · exact Or.inl ⟨h1, by rw [if_pos h1]⟩
  · rw [if_neg h1]
    by_cases h2 : bar.barType = BarType.RepeatEnd
    · rw [if_pos h2]
      cases hst : st.repeats with
      | nil => exact Or.inr (Or.inl ⟨h1, rfl, fun _ => rfl⟩)
      | cons top rest =>
        simp only
        split_ifs with h3
        · exact Or.inr (Or.inr (Or.inl ⟨h2, top, rest, rfl, h3, rfl⟩))
        · refine Or.inr (Or.inr (Or.inr ⟨h2, top, rest, rfl, h3, ?_⟩))
          cases st
          simp only at hst
          subst hst
          rfl
    · rw [if_neg h2]
      exact Or.inr (Or.inl ⟨h1, rfl, fun h => absurd h h2⟩)

theorem handleBarType_of_plain (i : Int) (bar : Barline) (st : BuildState)
    (h1 : bar.barType ≠ BarType.RepeatStart) (h2 : bar.barType ≠ BarType.RepeatEnd) :
    handleBarType i bar st = st := by
  unfold handleBarType
  rw [if_neg h1, if_neg h2]

theorem foldl_addEndingToTop_nil (i : Int) :
    ∀ (endings : List AlternateEnding) (st : BuildState), st.repeats = [] →
      endings.foldl (addEndingToTop i) st = st
  | [], _, _ => rfl
  | e :: rest, st, h => by
    have h1 : addEndingToTop i st e = st := by
      unfold addEndingToTop
      rw [h]
    rw [List.foldl_cons, h1]
    exact foldl_addEndingToTop_nil i rest st h

theorem foldl_addEndingToTop_cons (i : Int) :
    ∀ (endings : List AlternateEnding) (st : BuildState) (top : RepeatedSection)
      (rest : List RepeatedSection), st.repeats = top :: rest →
      ∃ top', endings.foldl (addEndingToTop i) st = ⟨top' :: rest, st.myRepeats⟩ ∧
        SameButEndings top top'
  | [], st, top, rest, h => by
    refine ⟨top, ?_, rfl, rfl, rfl, rfl⟩
    cases st
    simp only at h
    subst h
    rfl
  | e :: es, st, top, rest, h => by
    have h1 : addEndingToTop i st e = ⟨top.addAlternateEnding i e :: rest, st.myRepeats⟩ := by
      unfold addEndingToTop
      rw [h]
    obtain ⟨top', e1, e2⟩ := foldl_addEndingToTop_cons i es
      ⟨top.addAlternateEnding i e :: rest, st.myRepeats⟩ (top.addAlternateEnding i e) rest rfl
    rw [List.foldl_cons, h1]
    exact ⟨top', e1, e2⟩

theorem handleAlternateEndings_nil (i : Int) (system : System) (bar : Barline)
    (st : BuildState) (h : st.repeats = []) : handleAlternateEndings i system bar st = st := by
  unfold handleAlternateEndings
  cases system.getNextBarline bar.position with
  | none => rfl
  | some nextBar => exact foldl_addEndingToTop_nil i _ st h

theorem handleAlternateEndings_cons (i : Int) (system : System) (bar : Barline)
    (st : BuildState) (top : RepeatedSection) (rest : List RepeatedSection)
    (h : st.repeats = top :: rest) :
    ∃ top', handleAlternateEndings i system bar st = ⟨top' :: rest, st.myRepeats⟩ ∧
      SameButEndings top top' := by
  unfold handleAlternateEndings
  cases system.getNextBarline bar.position with
  | none =>
    refine ⟨top, ?_, rfl, rfl, rfl, rfl⟩
    cases st
    simp only at h
    subst h
    rfl
  | some nextBar => exact foldl_addEndingToTop_cons i _ st top rest h

theorem handleAlternateEndings_myRepeats (i : Int) (system : System) (bar : Barline)
    (st : BuildState) : (handleAlternateEndings i system bar st).myRepeats = st.myRepeats := by
  cases h : st.repeats with
  | nil => rw [handleAlternateEndings_nil i system bar st h]
  | cons top rest =>
    obtain ⟨top', e, _⟩ := handleAlternateEndings_cons i system bar st top rest h
    rw [e]

theorem handleAlternateEndings_of_no_endings (i : Int) (system : System) (bar : Barline)
    (st : BuildState) (h : system.alternateEndings = []) :
    handleAlternateEndings i system bar st = st := by
  unfold handleAlternateEndings
  cases system.getNextBarline bar.position with
  | none => rfl
  | some nextBar => simp [findInRange, h]

/-! ## Claims on the build pass -/

theorem noEndBarYet_step (e : Int × System × Barline)
    (h1 : e.2.2.barType ≠ BarType.RepeatStart) (h2 : e.2.2.barType ≠ BarType.RepeatEnd)
    (st : BuildState) (hst : NoEndBarYet st) : NoEndBarYet (processEntry st e) := by
  unfold processEntry processBarline
  rw [finalizeCheck_of_top_empty st (fun top rest h => hst.2 top (by rw [h]; simp)),
    handleBarType_of_plain _ _ _ h1 h2]
  cases h : st.repeats with
  | nil =>
    rw [handleAlternateEndings_nil _ _ _ _ h]
    exact hst
  | cons top rest =>
    obtain ⟨top', e1, e2⟩ := handleAlternateEndings_cons e.1 e.2.1 e.2.2 st top rest h
    rw [e1]
    refine ⟨hst.1, ?_⟩
    intro r hr
    simp only [List.mem_cons] at hr
    rcases hr with rfl | hr
    · rw [e2.2.1]
      exact hst.2 top (by rw [h]; simp)
    · exact hst.2 r (by rw [h]; simp [hr])

/-- C6: a score without repeat-start and repeat-end barlines, whatever its other
barlines and alternate endings, yields an empty index, and `findRepeat` returns
`nullptr` for every location. -/
theorem C6_no_repeat_bars (score : Score)
    (h : ∀ system ∈ score.systems, ∀ bar ∈ system.barlines,
      bar.barType ≠ BarType.RepeatStart ∧ bar.barType ≠ BarType.RepeatEnd) :
    (RepeatIndexer.new score).myRepeats = [] ∧
    ∀ loc, (RepeatIndexer.new score).findRepeat loc = some none := by
  have hempty : (RepeatIndexer.new score).myRepeats = [] := by
    rw [new_myRepeats]
    have := foldl_processEntry_induction NoEndBarYet (scanOrder 0 score.systems)
      initialBuildState ⟨rfl, by simp [initialBuildState, RepeatedSection.new, StdMap.empty]⟩
      (fun e he s hs => by
        obtain ⟨m1, m2, _⟩ := mem_scanOrder _ _ e he
        exact noEndBarYet_step e (h _ m1 _ m2).1 (h _ m1 _ m2).2 s hs)
    exact this.1
  refine ⟨hempty, fun loc => ?_⟩
  simp [RepeatIndexer.findRepeat, RepeatIndexer.beforeUpperBound, hempty,
    RepeatIndexer.findRepeatScan]

/-- Witness of C6: the sample score with plain barlines and an alternate ending. -/
theorem C6_no_repeat_bars_witness :
    (∀ system ∈ samplePlain.systems, ∀ bar ∈ system.barlines,
      bar.barType ≠ BarType.RepeatStart ∧ bar.barType ≠ BarType.RepeatEnd) ∧
    (RepeatIndexer.new samplePlain).myRepeats = [] ∧
    ∀ loc, (RepeatIndexer.new samplePlain).findRepeat loc = some none :=
  ⟨by decide, C6_no_repeat_bars samplePlain (by decide)⟩

theorem assignRaw_ne_nil {K V : Type} [LinearOrder K] (k : K) (v : V) (l : List (K × V)) :
    assignRaw k v l ≠ [] := by
  cases l with
  | nil => simp [assignRaw]
  | cons hd tl =>
    obtain ⟨k', v'⟩ := hd
    simp only [assignRaw]
    split_ifs <;> simp

theorem endBars_ne_nil_of_total (r : RepeatedSection) (h : r.getTotalRepeatCount ≠ 0) :
    r.myRepeatEndBars.entries ≠ [] :=
  fun hnil => h (getTotalRepeatCount_of_empty r hnil)

theorem indexHasEndBars_step (e : Int × System × Barline) (st : BuildState)
    (hst : IndexHasEndBars st) : IndexHasEndBars (processEntry st e) := by
  unfold processEntry processBarline IndexHasEndBars
  rw [handleAlternateEndings_myRepeats]
  have h1 : IndexHasEndBars (finalizeCheck st) := by
    rcases finalizeCheck_cases st with h | ⟨top, rest, _, _, htot, _, h⟩
    · rw [h]; exact hst
    · rw [h]
      intro r hr
      rcases mem_setInsert top r _ hr with rfl | hr
      · exact endBars_ne_nil_of_total _ htot
      · exact hst r hr
  rcases handleBarType_cases e.1 e.2.2 (finalizeCheck st) with
    ⟨_, h⟩ | ⟨_, h, _⟩ | ⟨_, top, rest, _, _, h⟩ | ⟨_, top, rest, _, _, h⟩
  · rw [h]; exact h1
  · rw [h]; exact h1
  · rw [h]
    intro r hr
    rcases mem_setInsert _ r _ hr with rfl | hr
    · exact assignRaw_ne_nil _ _ _
    · exact h1 r hr
  · rw [h]; exact h1

theorem build_indexHasEndBars (score : Score) :
    ∀ r ∈ (RepeatIndexer.new score).myRepeats, r.myRepeatEndBars.entries ≠ [] := by
  rw [new_myRepeats]
  exact foldl_processEntry_induction IndexHasEndBars (scanOrder 0 score.systems)
    initialBuildState (fun r hr => by simp [initialBuildState] at hr)
    (fun e _ s hs => indexHasEndBars_step e s hs)

theorem getLastEndBarLocation_isSome (r : RepeatedSection)
    (h : r.myRepeatEndBars.entries ≠ []) : ∃ e, r.getLastEndBarLocation = some e := by
  unfold RepeatedSection.getLastEndBarLocation StdMap.lastKey
  rw [List.getLast?_eq_getLast _ h]
  exact ⟨_, rfl⟩

theorem findRepeatScan_ne_none (loc : SystemLocation) :
    ∀ (l : List RepeatedSection), (∀ r ∈ l, r.myRepeatEndBars.entries ≠ []) →
      RepeatIndexer.findRepeatScan loc l ≠ none
  | [], _ => by simp [RepeatIndexer.findRepeatScan]
  | x :: t, h => by
    obtain ⟨e, he⟩ := getLastEndBarLocation_isSome x (h x (List.mem_cons_self _ _))
    simp only [RepeatIndexer.findRepeatScan, he]
    split_ifs
    · simp
    · exact findRepeatScan_ne_none loc t (fun r hr => h r (List.mem_cons_of_mem _ hr))

/-- C9: for every score, well formed or not, every section of the built index
has at least one end bar, so `getLastEndBarLocation()` returns on it (its
assertion holds), and `findRepeat` never fails that assertion, at any location. -/
theorem C9_indexed_sections_have_end_bar (score : Score) :
    (∀ r ∈ (RepeatIndexer.new score).myRepeats,
      r.myRepeatEndBars.isEmpty = false ∧ ∃ e, r.getLastEndBarLocation = some e) ∧
    (∀ loc, ∃ res, (RepeatIndexer.new score).findRepeat loc = some res) := by
  have hne := build_indexHasEndBars score
  constructor
  · intro r hr
    refine ⟨?_, getLastEndBarLocation_isSome r (hne r hr)⟩
    have := hne r hr
    unfold StdMap.isEmpty
    cases hent : r.myRepeatEndBars.entries with
    | nil => exact absurd hent this
    | cons a b => rfl
  · intro loc
    have hscan := findRepeatScan_ne_none loc ((RepeatIndexer.new score).beforeUpperBound loc).reverse
      (fun r hr => hne r ((List.takeWhile_sublist _).subset (List.mem_reverse.1 hr)))
    exact Option.ne_none_iff_exists'.1 hscan

/-! ## A lone repeat-end barline -/

theorem beforeLoneEnd_step (e : Int × System × Barline)
    (h1 : e.2.2.barType ≠ BarType.RepeatStart) (h2 : e.2.2.barType ≠ BarType.RepeatEnd)
    (st : BuildState) (hst : BeforeLoneEnd st) : BeforeLoneEnd (processEntry st e) := by
  obtain ⟨hidx, top, htop, hstart, hend⟩ := hst
  unfold processEntry processBarline
  rw [finalizeCheck_of_top_empty st (fun t rest h => by
      rw [htop] at h
      simp only [List.cons.injEq] at h
      rw [← h.1]; exact hend),
    handleBarType_of_plain _ _ _ h1 h2]
  obtain ⟨top', e1, e2⟩ := handleAlternateEndings_cons e.1 e.2.1 e.2.2 st top [] htop
  rw [e1]
  exact ⟨hidx, top', rfl, e2.1.trans hstart, by rw [e2.2.1]; exact hend⟩

theorem afterLoneEnd_step (E : SystemLocation) (c : Int) (e : Int × System × Barline)
    (h1 : e.2.2.barType ≠ BarType.RepeatStart) (h2 : e.2.2.barType ≠ BarType.RepeatEnd)
    (st : BuildState) (hst : AfterLoneEnd E c st) : AfterLoneEnd E c (processEntry st e) := by
  obtain ⟨r, hstart, hend, ⟨hs, hi⟩ | ⟨hs, hi⟩⟩ := hst
  · unfold processEntry processBarline
    rcases finalizeCheck_cases st with hf | ⟨top, rest, htop, _, _, _, hf⟩
    · rw [hf, handleBarType_of_plain _ _ _ h1 h2]
      obtain ⟨top', e1, e2⟩ := handleAlternateEndings_cons e.1 e.2.1 e.2.2 st r [] hs
      rw [e1]
      exact ⟨top', e2.1.trans hstart, e2.2.1.trans hend, Or.inl ⟨rfl, hi⟩⟩
    · rw [hs] at htop
      simp only [List.cons.injEq] at htop
      obtain ⟨rfl, rfl⟩ := htop
      rw [hf, handleBarType_of_plain _ _ _ h1 h2, handleAlternateEndings_nil _ _ _ _ rfl, hi]
      exact ⟨r, hstart, hend, Or.inr ⟨rfl, rfl⟩⟩
  · unfold processEntry processBarline
    rw [finalizeCheck_of_top_empty st (fun t rest h => by rw [hs] at h; simp at h),
      handleBarType_of_plain _ _ _ h1 h2, handleAlternateEndings_nil _ _ _ _ hs]
    exact ⟨r, hstart, hend, Or.inr ⟨hs, hi⟩⟩

theorem loneEnd_step (e : Int × System × Barline) (h : e.2.2.barType = BarType.RepeatEnd)
    (st : BuildState) (hst : BeforeLoneEnd st) :
    AfterLoneEnd (entryLocation e) e.2.2.repeatCount (processEntry st e) := by
  obtain ⟨hidx, top, htop, hstart, hend⟩ := hst
  have hmap : top.myRepeatEndBars = StdMap.empty := StdMap.ext_entries hend
  unfold processEntry processBarline
  rw [finalizeCheck_of_top_empty st (fun t rest h => by
      rw [htop] at h
      simp only [List.cons.injEq] at h
      rw [← h.1]; exact hend)]
  rcases handleBarType_cases e.1 e.2.2 st with
    ⟨h', _⟩ | ⟨_, _, h'⟩ | ⟨_, t, rest, ht, _, hh⟩ | ⟨_, t, rest, ht, _, hh⟩
  · rw [h] at h'; exact absurd h' (by decide)
  · rw [h' h] at htop; exact absurd htop (by simp)
  · rw [htop] at ht
    simp only [List.cons.injEq] at ht
    obtain ⟨rfl, rfl⟩ := ht
    rw [hh, handleAlternateEndings_nil _ _ _ _ rfl, hidx]
    refine ⟨top.addRepeatEndBar ⟨e.1, e.2.2.position⟩ e.2.2.repeatCount, hstart, ?_,
      Or.inr ⟨rfl, rfl⟩⟩
    simp only [RepeatedSection.addRepeatEndBar, hmap]
    rfl
  · rw [htop] at ht
    simp only [List.cons.injEq] at ht
    obtain ⟨rfl, rfl⟩ := ht
    rw [hh]
    obtain ⟨top', e1, e2⟩ := handleAlternateEndings_cons e.1 e.2.1 e.2.2
      ⟨top.addRepeatEndBar ⟨e.1, e.2.2.position⟩ e.2.2.repeatCount :: [], st.myRepeats⟩ _ [] rfl
    rw [e1]
    refine ⟨top', e2.1.trans hstart, ?_, Or.inl ⟨rfl, hidx⟩⟩
    rw [e2.2.1]
    simp only [RepeatedSection.addRepeatEndBar, hmap]
    rfl

theorem processEntry_of_plain_no_endings (e : Int × System × Barline)
    (h1 : e.2.2.barType ≠ BarType.RepeatStart) (h2 : e.2.2.barType ≠ BarType.RepeatEnd)
    (h3 : e.2.1.alternateEndings = []) (st : BuildState) (hf : finalizeCheck st = st) :
    processEntry st e = st := by
  unfold processEntry processBarline
  rw [hf, handleBarType_of_plain _ _ _ h1 h2, handleAlternateEndings_of_no_endings _ _ _ _ h3]

theorem foldl_processEntry_fixed (st : BuildState) (hf : finalizeCheck st = st) :
    ∀ (evs : List (Int × System × Barline)),
      (∀ x ∈ evs, x.2.2.barType ≠ BarType.RepeatStart ∧ x.2.2.barType ≠ BarType.RepeatEnd ∧
        x.2.1.alternateEndings = []) →
      evs.foldl processEntry st = st
  | [], _ => rfl
  | x :: rest, h => by
    obtain ⟨h1, h2, h3⟩ := h x (List.mem_cons_self _ _)
    rw [List.foldl_cons, processEntry_of_plain_no_endings x h1 h2 h3 st hf]
    exact foldl_processEntry_fixed st hf rest (fun y hy => h y (List.mem_cons_of_mem _ hy))

/-- C7 (as amended): when the only repeat barline of a score is one repeat-end
barline (the scan order is `pre`, that barline `e`, `post`, with no repeat barline
in `pre` and `post`), the build pass yields an index with at most one section;
such a section starts at the start of the score, (0,0), and has `e` as its only
end bar; and when the score has no alternate ending, the index is exactly that
one section. -/
theorem C7_lone_repeat_end (score : Score) (pre post : List (Int × System × Barline))
    (e : Int × System × Barline)
    (hscan : scanOrder 0 score.systems = pre ++ e :: post)
    (he : e.2.2.barType = BarType.RepeatEnd)
    (hpre : ∀ x ∈ pre, x.2.2.barType ≠ BarType.RepeatStart ∧ x.2.2.barType ≠ BarType.RepeatEnd)
    (hpost : ∀ x ∈ post,
      x.2.2.barType ≠ BarType.RepeatStart ∧ x.2.2.barType ≠ BarType.RepeatEnd) :
    ((RepeatIndexer.new score).myRepeats = [] ∨
      ∃ r, (RepeatIndexer.new score).myRepeats = [r] ∧ r.myStartBarLocation = ⟨0, 0⟩ ∧
        r.myRepeatEndBars = StdMap.empty.assign (entryLocation e) e.2.2.repeatCount) ∧
    ((∀ system ∈ score.systems, system.alternateEndings = []) →
      (RepeatIndexer.new score).myRepeats =
        [(RepeatedSection.new ⟨0, 0⟩).addRepeatEndBar (entryLocation e) e.2.2.repeatCount]) := by
  rw [new_myRepeats, hscan, List.foldl_append, List.foldl_cons]
  constructor
  · have hA : BeforeLoneEnd (pre.foldl processEntry initialBuildState) :=
      foldl_processEntry_induction BeforeLoneEnd pre initialBuildState
        ⟨rfl, _, rfl, rfl, rfl⟩ (fun x hx s hs => beforeLoneEnd_step x (hpre x hx).1 (hpre x hx).2 s hs)
    have hB := loneEnd_step e he _ hA
    have hC := foldl_processEntry_induction
      (AfterLoneEnd (entryLocation e) e.2.2.repeatCount) post _ hB
      (fun x hx s hs => afterLoneEnd_step _ _ x (hpost x hx).1 (hpost x hx).2 s hs)
    obtain ⟨r, hstart, hend, ⟨_, hi⟩ | ⟨_, hi⟩⟩ := hC
    · exact Or.inl hi
    · exact Or.inr ⟨r, hi, hstart, hend⟩
  · intro hno
    have hsys : ∀ x ∈ pre ++ e :: post, x.2.1.alternateEndings = [] := by
      intro x hx
      rw [← hscan] at hx
      exact hno _ (mem_scanOrder _ _ x hx).1
    have h1 : pre.foldl processEntry initialBuildState = initialBuildState :=
      foldl_processEntry_fixed initialBuildState rfl pre (fun x hx =>
        ⟨(hpre x hx).1, (hpre x hx).2, hsys x (List.mem_append_left _ hx)⟩)
    have h2 : processEntry initialBuildState e =
        ⟨[], [(RepeatedSection.new ⟨0, 0⟩).addRepeatEndBar (entryLocation e)
          e.2.2.repeatCount]⟩ := by
      unfold processEntry processBarline
      rw [handleAlternateEndings_of_no_endings _ _ _ _
        (hsys e (List.mem_append_right _ (List.mem_cons_self _ _)))]
      have hfin : finalizeCheck initialBuildState = initialBuildState := rfl
      rw [hfin]
      unfold handleBarType
      rw [he]
      rfl
    rw [h1, h2, foldl_processEntry_fixed _ rfl post (fun x hx =>
      ⟨(hpost x hx).1, (hpost x hx).2,
        hsys x (List.mem_append_right _ (List.mem_cons_of_mem _ hx))⟩)]

/-- Counterexample to C7 as stated: in the sample score the only repeat barline
is the repeat-end barline at (0,10), after a plain barline, and the built index
is not empty: it holds the section that starts at (0,0) and ends at (0,10). -/
theorem C7_counterexample :
    scanOrder 0 sampleLoneEnd.systems =
      [(0, ⟨[⟨0, BarType.Plain, 1⟩, ⟨10, BarType.RepeatEnd, 3⟩], []⟩, ⟨0, BarType.Plain, 1⟩),
       (0, ⟨[⟨0, BarType.Plain, 1⟩, ⟨10, BarType.RepeatEnd, 3⟩], []⟩,
         ⟨10, BarType.RepeatEnd, 3⟩)] ∧
    (RepeatIndexer.new sampleLoneEnd).myRepeats =
      [(RepeatedSection.new ⟨0, 0⟩).addRepeatEndBar ⟨0, 10⟩ 3] ∧
    (RepeatIndexer.new sampleLoneEnd).myRepeats ≠ [] := by
  decide

/-- Witness of C7 (as amended): the sample score with a lone repeat-end barline. -/
theorem C7_lone_repeat_end_witness :
    (RepeatIndexer.new sampleLoneEnd).myRepeats =
      [(RepeatedSection.new ⟨0, 0⟩).addRepeatEndBar ⟨0, 10⟩ 3] :=
  (C7_lone_repeat_end sampleLoneEnd
    [(0, ⟨[⟨0, BarType.Plain, 1⟩, ⟨10, BarType.RepeatEnd, 3⟩], []⟩, ⟨0, BarType.Plain, 1⟩)] []
    (0, ⟨[⟨0, BarType.Plain, 1⟩, ⟨10, BarType.RepeatEnd, 3⟩], []⟩, ⟨10, BarType.RepeatEnd, 3⟩)
    (by decide) (by decide) (by decide) (by decide)).2 (by decide)

/-! ## Scan order of a score with sorted barlines -/

theorem pairwise_scanOrder :
    ∀ (systems : List System) (i : Int),
      (∀ system ∈ systems, system.barlines.Pairwise (fun a b => a.position < b.position)) →
      (scanOrder i systems).Pairwise (fun x y => entryLocation x < entryLocation y)
  | [], _, _ => List.Pairwise.nil
  | system :: rest, i, h => by
    rw [scanOrder, List.pairwise_append]
    refine ⟨?_, pairwise_scanOrder rest (i + 1)
      (fun s hs => h s (List.mem_cons_of_mem _ hs)), ?_⟩
    · rw [List.pairwise_map]
      refine (h system (List.mem_cons_self _ _)).imp ?_
      intro a b hab
      exact Or.inr ⟨rfl, hab⟩
    · intro x hx y hy
      rw [List.mem_map] at hx
      obtain ⟨bar, _, rfl⟩ := hx
      have hy3 := (mem_scanOrder rest (i + 1) y hy).2.2
      left
      show i < y.1
      omega

theorem origin_le_entryLocation (score : Score) (hpos : NonnegPositions score)
    (x : Int × System × Barline) (hx : x ∈ scanOrder 0 score.systems) :
    (⟨0, 0⟩ : SystemLocation) ≤ entryLocation x := by
  obtain ⟨h1, h2, h3⟩ := mem_scanOrder _ _ x hx
  have h4 := hpos _ h1 _ h2
  rw [SystemLocation.le_def]
  simp only [entryLocation]
  omega

/-! ## Starts of the sections met by the build pass -/

theorem startsIn_finalizeCheck (A : SystemLocation → Prop) (st : BuildState)
    (hst : StartsIn A st) : StartsIn A (finalizeCheck st) := by
  rcases finalizeCheck_cases st with h | ⟨top, rest, htop, _, _, _, h⟩
  · rw [h]; exact hst
  · rw [h]
    constructor
    · intro r hr
      exact hst.1 r (by rw [htop]; exact List.mem_cons_of_mem _ hr)
    · intro r hr
      rcases mem_setInsert top r _ hr with rfl | hr
      · exact hst.1 r (by rw [htop]; exact List.mem_cons_self _ _)
      · exact hst.2 r hr

theorem startsIn_handleBarType (A : SystemLocation → Prop) (i : Int) (bar : Barline)
    (st : BuildState) (hA : A ⟨i, bar.position⟩) (hst : StartsIn A st) :
    StartsIn A (handleBarType i bar st) := by
  rcases handleBarType_cases i bar st with
    ⟨_, h⟩ | ⟨_, h, _⟩ | ⟨_, top, rest, htop, _, h⟩ | ⟨_, top, rest, htop, _, h⟩
  · rw [h]
    refine ⟨?_, hst.2⟩
    intro r hr
    simp only [List.mem_cons] at hr
    rcases hr with rfl | hr
    · exact hA
    · exact hst.1 r hr
  · rw [h]; exact hst
  · rw [h]
    constructor
    · intro r hr
      exact hst.1 r (by rw [htop]; exact List.mem_cons_of_mem _ hr)
    · intro r hr
      rcases mem_setInsert _ r _ hr with rfl | hr
      · exact hst.1 top (by rw [htop]; exact List.mem_cons_self _ _)
      · exact hst.2 r hr
  · rw [h]
    refine ⟨?_, hst.2⟩
    intro r hr
    simp only [List.mem_cons] at hr
    rcases hr with rfl | hr
    · exact hst.1 top (by rw [htop]; exact List.mem_cons_self _ _)
    · exact hst.1 r (by rw [htop]; exact List.mem_cons_of_mem _ hr)

theorem startsIn_handleAlternateEndings (A : SystemLocation → Prop) (i : Int)
    (system : System) (bar : Barline) (st : BuildState) (hst : StartsIn A st) :
    StartsIn A (handleAlternateEndings i system bar st) := by
  cases h : st.repeats with
  | nil => rw [handleAlternateEndings_nil _ _ _ _ h]; exact hst
  | cons top rest =>
    obtain ⟨top', e1, e2⟩ := handleAlternateEndings_cons i system bar st top rest h
    rw [e1]
    refine ⟨?_, hst.2⟩
    intro r hr
    simp only [List.mem_cons] at hr
    rcases hr with rfl | hr
    · rw [e2.1]; exact hst.1 top (by rw [h]; exact List.mem_cons_self _ _)
    · exact hst.1 r (by rw [h]; exact List.mem_cons_of_mem _ hr)

theorem startsIn_step (A : SystemLocation → Prop) (e : Int × System × Barline)
    (st : BuildState) (hA : A (entryLocation e)) (hst : StartsIn A st) :
    StartsIn A (processEntry st e) :=
  startsIn_handleAlternateEndings A _ _ _ _
    (startsIn_handleBarType A _ _ _ hA (startsIn_finalizeCheck A st hst))

theorem openTop_handleAlternateEndings (A : SystemLocation → Prop) (i : Int)
    (system : System) (bar : Barline) (st : BuildState) (hst : OpenTop A st) :
    OpenTop A (handleAlternateEndings i system bar st) := by
  obtain ⟨hidx, top, rest, htop, hend⟩ := hst
  obtain ⟨top', e1, e2⟩ := handleAlternateEndings_cons i system bar st top rest htop
  rw [e1]
  exact ⟨hidx, top', rest, rfl, by rw [e2.2.1]; exact hend⟩

theorem openTop_step (A : SystemLocation → Prop) (e : Int × System × Barline)
    (he : e.2.2.barType ≠ BarType.RepeatEnd) (st : BuildState) (hst : OpenTop A st) :
    OpenTop A (processEntry st e) := by
  unfold processEntry processBarline
  apply openTop_handleAlternateEndings
  obtain ⟨hidx, top, rest, htop, hend⟩ := hst
  rw [finalizeCheck_of_top_empty st (fun t r h => by
    rw [htop] at h
    simp only [List.cons.injEq] at h
    rw [← h.1]; exact hend)]
  rcases handleBarType_cases e.1 e.2.2 st with
    ⟨_, h⟩ | ⟨_, h, _⟩ | ⟨h', _⟩ | ⟨h', _⟩
  · rw [h]
    exact ⟨hidx, _, _, rfl, rfl⟩
  · rw [h]
    exact ⟨hidx, top, rest, htop, hend⟩
  · exact absurd h' he
  · exact absurd h' he

/-- C8: in a score whose systems list their barlines in strictly increasing
(non-negative) position, a repeat-start barline `e` after which, in scan order,
no repeat-end barline occurs leaves no section in the built index: no section of
the index starts at the location of `e`. -/
theorem C8_unterminated_start_dropped (score : Score)
    (pre post : List (Int × System × Barline)) (e : Int × System × Barline)
    (hsorted : SortedBarlines score) (hpos : NonnegPositions score)
    (hscan : scanOrder 0 score.systems = pre ++ e :: post)
    (he : e.2.2.barType = BarType.RepeatStart)
    (hpost : ∀ x ∈ post, x.2.2.barType ≠ BarType.RepeatEnd) :
    ∀ r ∈ (RepeatIndexer.new score).myRepeats, r.myStartBarLocation ≠ entryLocation e := by
  have hpw := pairwise_scanOrder score.systems 0 hsorted
  rw [hscan, List.pairwise_append] at hpw
  obtain ⟨_, _, hcross⟩ := hpw
  have hlt : ∀ x ∈ pre, entryLocation x < entryLocation e :=
    fun x hx => hcross x hx e (List.mem_cons_self _ _)
  -- the index just before the barline `e` is handled
  have hbefore : ∀ r ∈ (finalizeCheck (pre.foldl processEntry initialBuildState)).myRepeats,
      r.myStartBarLocation ≠ entryLocation e := by
    cases hp : pre with
    | nil =>
      intro r hr
      simp [initialBuildState, finalizeCheck, RepeatedSection.getAlternateEndingCount,
        RepeatedSection.new, StdMap.size, StdMap.empty] at hr
    | cons x0 pre' =>
      rw [← hp]
      have hx0 : x0 ∈ pre := by rw [hp]; exact List.mem_cons_self _ _
      have horigin : (⟨0, 0⟩ : SystemLocation) ≠ entryLocation e := by
        have h1 := origin_le_entryLocation score hpos x0
          (by rw [hscan]; exact List.mem_append_left _ hx0)
        exact ne_of_lt (lt_of_le_of_lt h1 (hlt x0 hx0))
      have hinit : StartsIn (fun l => l ≠ entryLocation e) initialBuildState := by
        constructor
        · intro r hr
          simp only [initialBuildState, List.mem_singleton] at hr
          subst hr
          exact horigin
        · intro r hr
          simp [initialBuildState] at hr
      have hfold := foldl_processEntry_induction (StartsIn (fun l => l ≠ entryLocation e)) pre
        initialBuildState hinit
        (fun x hx s hs => startsIn_step _ x s (ne_of_lt (hlt x hx)) hs)
      exact (startsIn_finalizeCheck _ _ hfold).2
  -- handling `e` pushes a section without end bar and leaves the index as it is
  have hafter : OpenTop (fun l => l ≠ entryLocation e)
      (processEntry (pre.foldl processEntry initialBuildState) e) := by
    show OpenTop _ (handleAlternateEndings e.1 e.2.1 e.2.2 (handleBarType e.1 e.2.2
      (finalizeCheck (pre.foldl processEntry initialBuildState))))
    apply openTop_handleAlternateEndings
    rcases handleBarType_cases e.1 e.2.2
        (finalizeCheck (pre.foldl processEntry initialBuildState)) with
      ⟨_, h⟩ | ⟨h', _⟩ | ⟨h', _⟩ | ⟨h', _⟩
    · rw [h]
      exact ⟨hbefore, _, _, rfl, rfl⟩
    · exact absurd he h'
    · rw [he] at h'; exact absurd h' (by decide)
    · rw [he] at h'; exact absurd h' (by decide)
  rw [new_myRepeats, hscan, List.foldl_append, List.foldl_cons]
  exact (foldl_processEntry_induction (OpenTop (fun l => l ≠ entryLocation e)) post _ hafter
    (fun x hx s hs => openTop_step _ x (hpost x hx) s hs)).1

/-- Witness of C8: the repeat-start barline at (0,14) of the sample score. -/
theorem C8_unterminated_start_dropped_witness :
    SortedBarlines sampleUnterminated ∧ NonnegPositions sampleUnterminated ∧
    (RepeatIndexer.new sampleUnterminated).myRepeats ≠ [] ∧
    ∀ r ∈ (RepeatIndexer.new sampleUnterminated).myRepeats,
      r.myStartBarLocation ≠ ⟨0, 14⟩ :=
  ⟨by decide, by decide, by decide,
    C8_unterminated_start_dropped sampleUnterminated
      [(0, ⟨[⟨0, BarType.RepeatStart, 1⟩, ⟨10, BarType.RepeatEnd, 2⟩,
          ⟨14, BarType.RepeatStart, 1⟩, ⟨20, BarType.Plain, 1⟩], []⟩,
          ⟨0, BarType.RepeatStart, 1⟩),
       (0, ⟨[⟨0, BarType.RepeatStart, 1⟩, ⟨10, BarType.RepeatEnd, 2⟩,
          ⟨14, BarType.RepeatStart, 1⟩, ⟨20, BarType.Plain, 1⟩], []⟩,
          ⟨10, BarType.RepeatEnd, 2⟩)]
      [(0, ⟨[⟨0, BarType.RepeatStart, 1⟩, ⟨10, BarType.RepeatEnd, 2⟩,
          ⟨14, BarType.RepeatStart, 1⟩, ⟨20, BarType.Plain, 1⟩], []⟩,
          ⟨20, BarType.Plain, 1⟩)]
      (0, ⟨[⟨0, BarType.RepeatStart, 1⟩, ⟨10, BarType.RepeatEnd, 2⟩,
          ⟨14, BarType.RepeatStart, 1⟩, ⟨20, BarType.Plain, 1⟩], []⟩,
          ⟨14, BarType.RepeatStart, 1⟩)
      (by decide) (by decide) (by decide) (by decide) (by decide)⟩

/-! ## Start bar and end bars of the indexed sections -/

theorem mem_keys_assign {K V : Type} [LinearOrder K] (m : StdMap K V) (k0 k : K) (v : V)
    (h : k ∈ (m.assign k0 v).keys) : k = k0 ∨ k ∈ m.keys := by
  simp only [StdMap.keys, StdMap.assign, List.mem_map] at h ⊢
  obtain ⟨a, ha, rfl⟩ := h
  rcases mem_assignRaw k0 v m.entries a ha with rfl | ha
  · exact Or.inl rfl
  · exact Or.inr ⟨a, ha, rfl⟩

theorem endsAfter_addRepeatEndBar (rel : SystemLocation → SystemLocation → Prop)
    (r : RepeatedSection) (loc : SystemLocation) (c : Int) (h : EndsAfter rel r)
    (hloc : rel r.myStartBarLocation loc) : EndsAfter rel (r.addRepeatEndBar loc c) := by
  intro k hk
  rcases mem_keys_assign r.myRepeatEndBars loc k c hk with rfl | hk
  · exact hloc
  · exact h k hk

theorem endsAfter_of_sameButEndings (rel : SystemLocation → SystemLocation → Prop)
    (a b : RepeatedSection) (hab : SameButEndings a b) (h : EndsAfter rel a) :
    EndsAfter rel b := by
  intro k hk
  rw [hab.1]
  rw [hab.2.1] at hk
  exact h k hk

theorem ordered_finalizeCheck (rel : SystemLocation → SystemLocation → Prop)
    (pending : List (Int × System × Barline)) (st : BuildState)
    (hst : Ordered rel pending st) : Ordered rel pending (finalizeCheck st) := by
  rcases finalizeCheck_cases st with h | ⟨top, rest, htop, _, _, _, h⟩
  · rw [h]; exact hst
  · rw [h]
    constructor
    · intro r hr
      exact hst.1 r (by rw [htop]; exact List.mem_cons_of_mem _ hr)
    · intro r hr
      rcases mem_setInsert top r _ hr with rfl | hr
      · exact (hst.1 r (by rw [htop]; exact List.mem_cons_self _ _)).2
      · exact hst.2 r hr

theorem ordered_handleAlternateEndings (rel : SystemLocation → SystemLocation → Prop)
    (pending : List (Int × System × Barline)) (i : Int) (system : System) (bar : Barline)
    (st : BuildState) (hst : Ordered rel pending st) :
    Ordered rel pending (handleAlternateEndings i system bar st) := by
  cases h : st.repeats with
  | nil => rw [handleAlternateEndings_nil _ _ _ _ h]; exact hst
  | cons top rest =>
    obtain ⟨top', e1, e2⟩ := handleAlternateEndings_cons i system bar st top rest h
    rw [e1]
    refine ⟨?_, hst.2⟩
    intro r hr
    simp only [List.mem_cons] at hr
    rcases hr with rfl | hr
    · have ht := hst.1 top (by rw [h]; exact List.mem_cons_self _ _)
      refine ⟨?_, endsAfter_of_sameButEndings rel top r e2 ht.2⟩
      rw [e2.1]; exact ht.1
    · exact hst.1 r (by rw [h]; exact List.mem_cons_of_mem _ hr)

theorem ordered_handleBarType (rel : SystemLocation → SystemLocation → Prop)
    (e : Int × System × Barline) (pending : List (Int × System × Barline))
    (st : BuildState) (hnext : ∀ x ∈ pending, rel (entryLocation e) (entryLocation x))
    (hst : Ordered rel (e :: pending) st) :
    Ordered rel pending (handleBarType e.1 e.2.2 st) := by
  have hweak : ∀ r ∈ st.repeats,
      (∀ x ∈ pending, x.2.2.barType = BarType.RepeatEnd →
        rel r.myStartBarLocation (entryLocation x)) ∧ EndsAfter rel r :=
    fun r hr => ⟨fun x hx => (hst.1 r hr).1 x (List.mem_cons_of_mem _ hx), (hst.1 r hr).2⟩
  rcases handleBarType_cases e.1 e.2.2 st with
    ⟨_, h⟩ | ⟨_, h, _⟩ | ⟨hend, top, rest, htop, _, h⟩ | ⟨hend, top, rest, htop, _, h⟩
  · rw [h]
    refine ⟨?_, hst.2⟩
    intro r hr
    simp only [List.mem_cons] at hr
    rcases hr with rfl | hr
    · refine ⟨fun x hx _ => hnext x hx, ?_⟩
      intro k hk
      simp [RepeatedSection.new, StdMap.keys, StdMap.empty] at hk
    · exact hweak r hr
  · rw [h]; exact ⟨hweak, hst.2⟩
  · have ht := hst.1 top (by rw [htop]; exact List.mem_cons_self _ _)
    rw [h]
    constructor
    · intro r hr
      exact hweak r (by rw [htop]; exact List.mem_cons_of_mem _ hr)
    · intro r hr
      rcases mem_setInsert _ r _ hr with rfl | hr
      · exact endsAfter_addRepeatEndBar rel top _ _ ht.2
          (ht.1 e (List.mem_cons_self _ _) hend)
      · exact hst.2 r hr
  · have ht := hst.1 top (by rw [htop]; exact List.mem_cons_self _ _)
    rw [h]
    refine ⟨?_, hst.2⟩
    intro r hr
    simp only [List.mem_cons] at hr
    rcases hr with rfl | hr
    · exact ⟨fun x hx hx' => ht.1 x (List.mem_cons_of_mem _ hx) hx',
        endsAfter_addRepeatEndBar rel top _ _ ht.2 (ht.1 e (List.mem_cons_self _ _) hend)⟩
    · exact hweak r (by rw [htop]; exact List.mem_cons_of_mem _ hr)

theorem ordered_foldl (rel : SystemLocation → SystemLocation → Prop)
    (hrel : ∀ a b, a < b → rel a b) :
    ∀ (evs : List (Int × System × Barline)) (st : BuildState),
      evs.Pairwise (fun x y => entryLocation x < entryLocation y) →
      Ordered rel evs st → Ordered rel [] (evs.foldl processEntry st)
  | [], _, _, h => h
  | e :: rest, st, hp, h => by
    rw [List.pairwise_cons] at hp
    rw [List.foldl_cons]
    apply ordered_foldl rel hrel rest _ hp.2
    show Ordered rel rest (handleAlternateEndings e.1 e.2.1 e.2.2
      (handleBarType e.1 e.2.2 (finalizeCheck st)))
    apply ordered_handleAlternateEndings
    apply ordered_handleBarType rel e rest _ (fun x hx => hrel _ _ (hp.1 x hx))
    exact ordered_finalizeCheck rel _ st h

theorem build_endsAfter (rel : SystemLocation → SystemLocation → Prop)
    (hrel : ∀ a b, a < b → rel a b) (score : Score) (hsorted : SortedBarlines score)
    (horigin : ∀ x ∈ scanOrder 0 score.systems, x.2.2.barType = BarType.RepeatEnd →
      rel ⟨0, 0⟩ (entryLocation x)) :
    ∀ r ∈ (RepeatIndexer.new score).myRepeats, EndsAfter rel r := by
  rw [new_myRepeats]
  refine (ordered_foldl rel hrel _ initialBuildState
    (pairwise_scanOrder score.systems 0 hsorted) ⟨?_, ?_⟩).2
  · intro r hr
    simp only [initialBuildState, List.mem_singleton] at hr
    subst hr
    refine ⟨horigin, ?_⟩
    intro k hk
    simp [RepeatedSection.new, StdMap.keys, StdMap.empty] at hk
  · intro r hr
    simp [initialBuildState] at hr

theorem getLastEndBarLocation_mem_keys (r : RepeatedSection) (e : SystemLocation)
    (h : r.getLastEndBarLocation = some e) : e ∈ r.myRepeatEndBars.keys := by
  simp only [RepeatedSection.getLastEndBarLocation, StdMap.lastKey, Option.map_eq_some'] at h
  obtain ⟨a, ha, rfl⟩ := h
  exact List.mem_map.2 ⟨a, List.mem_of_getLast?_eq_some ha, rfl⟩

/-- C10 (as amended): in a score whose systems list their barlines in strictly
increasing (non-negative) position, every section `R` of the built index has
`R.start ≤ R.getLastEndBarLocation()`, and `R.start < R.getLastEndBarLocation()`
when no repeat-end barline lies at the start of the score, the location (0,0). -/
theorem C10_start_before_last_end (score : Score) (hsorted : SortedBarlines score)
    (hpos : NonnegPositions score) :
    ∀ R ∈ (RepeatIndexer.new score).myRepeats,
      ∃ e, R.getLastEndBarLocation = some e ∧ R.myStartBarLocation ≤ e ∧
        ((∀ x ∈ scanOrder 0 score.systems, x.2.2.barType = BarType.RepeatEnd →
            entryLocation x ≠ ⟨0, 0⟩) →
          R.myStartBarLocation < e) := by
  intro R hR
  obtain ⟨e, he⟩ := getLastEndBarLocation_isSome R (build_indexHasEndBars score R hR)
  have hmem := getLastEndBarLocation_mem_keys R e he
  refine ⟨e, he, ?_, ?_⟩
  · exact build_endsAfter (fun a b => a ≤ b) (fun a b h => le_of_lt h) score hsorted
      (fun x hx _ => origin_le_entryLocation score hpos x hx) R hR e hmem
  · intro hno
    exact build_endsAfter (fun a b => a < b) (fun a b h => h) score hsorted
      (fun x hx hx' => lt_of_le_of_ne (origin_le_entryLocation score hpos x hx)
        (Ne.symm (hno x hx hx'))) R hR e hmem

/-- Counterexample to C10 as stated: the index of the score with a repeat-end
barline at (0,0) holds a section whose start and last end bar are both (0,0); and
the index of the score with unsorted barlines holds a section that starts at
(0,5) and whose last end bar is (0,3). -/
theorem C10_counterexample :
    (SortedBarlines sampleEndAtOrigin ∧ NonnegPositions sampleEndAtOrigin ∧
      ∃ R ∈ (RepeatIndexer.new sampleEndAtOrigin).myRepeats,
        R.myStartBarLocation = ⟨0, 0⟩ ∧ R.getLastEndBarLocation = some ⟨0, 0⟩ ∧
        ¬ (R.myStartBarLocation < (⟨0, 0⟩ : SystemLocation))) ∧
    (∃ R ∈ (RepeatIndexer.new sampleUnsorted).myRepeats,
      R.myStartBarLocation = ⟨0, 5⟩ ∧ R.getLastEndBarLocation = some ⟨0, 3⟩ ∧
      ¬ (R.myStartBarLocation < (⟨0, 3⟩ : SystemLocation))) := by
  refine ⟨⟨by decide, by decide,
    (RepeatedSection.new ⟨0, 0⟩).addRepeatEndBar ⟨0, 0⟩ 2, by decide, by decide, by decide,
      by decide⟩,
    (RepeatedSection.new ⟨0, 5⟩).addRepeatEndBar ⟨0, 3⟩ 2, by decide, by decide, by decide,
      by decide⟩

/-- Witness of C10 (as amended): the section of the simple repeat from (0,0) to
(0,10). -/
theorem C10_start_before_last_end_witness :
    SortedBarlines sampleSimple ∧ NonnegPositions sampleSimple ∧
    (RepeatedSection.new ⟨0, 0⟩).addRepeatEndBar ⟨0, 10⟩ 3 ∈
      (RepeatIndexer.new sampleSimple).myRepeats ∧
    ∃ e, ((RepeatedSection.new ⟨0, 0⟩).addRepeatEndBar ⟨0, 10⟩ 3).getLastEndBarLocation =
        some e ∧
      ((RepeatedSection.new ⟨0, 0⟩).addRepeatEndBar ⟨0, 10⟩ 3).myStartBarLocation ≤ e ∧
      ((∀ x ∈ scanOrder 0 sampleSimple.systems, x.2.2.barType = BarType.RepeatEnd →
          entryLocation x ≠ ⟨0, 0⟩) →
        ((RepeatedSection.new ⟨0, 0⟩).addRepeatEndBar ⟨0, 10⟩ 3).myStartBarLocation < e) :=
  ⟨by decide, by decide, by decide,
    C10_start_before_last_end sampleSimple (by decide) (by decide) _ (by decide)⟩

/-! ## Order of the index -/

theorem pairwise_setInsert (r : RepeatedSection) :
    ∀ (l : List RepeatedSection),
      l.Pairwise (fun a b => a.myStartBarLocation < b.myStartBarLocation) →
      (setInsert r l).Pairwise (fun a b => a.myStartBarLocation < b.myStartBarLocation)
  | [], _ => by simp [setInsert]
  | x :: t, h => by
    rw [List.pairwise_cons] at h
    simp only [setInsert, RepeatedSection.lt]
    split_ifs with h1 h2
    · refine List.Pairwise.cons ?_ (List.Pairwise.cons h.1 h.2)
      intro y hy
      rcases List.mem_cons.1 hy with rfl | hy
      · exact h1
      · exact lt_trans h1 (h.1 y hy)
    · refine List.Pairwise.cons ?_ (pairwise_setInsert r t h.2)
      intro y hy
      rcases mem_setInsert r y t hy with rfl | hy
      · exact h2
      · exact h.1 y hy
    · exact List.Pairwise.cons h.1 h.2

theorem indexSorted_step (e : Int × System × Barline) (st : BuildState)
    (hst : IndexSorted st) : IndexSorted (processEntry st e) := by
  unfold processEntry processBarline IndexSorted
  rw [handleAlternateEndings_myRepeats]
  have h1 : IndexSorted (finalizeCheck st) := by
    rcases finalizeCheck_cases st with h | ⟨top, rest, _, _, _, _, h⟩
    · rw [h]; exact hst
    · rw [h]; exact pairwise_setInsert top _ hst
  rcases handleBarType_cases e.1 e.2.2 (finalizeCheck st) with
    ⟨_, h⟩ | ⟨_, h, _⟩ | ⟨_, top, rest, _, _, h⟩ | ⟨_, top, rest, _, _, h⟩
  · rw [h]; exact h1
  · rw [h]; exact h1
  · rw [h]; exact pairwise_setInsert _ _ h1
  · rw [h]; exact h1

theorem build_indexSorted (score : Score) :
    (RepeatIndexer.new score).myRepeats.Pairwise
      (fun a b => a.myStartBarLocation < b.myStartBarLocation) := by
  rw [new_myRepeats]
  exact foldl_processEntry_induction IndexSorted (scanOrder 0 score.systems)
    initialBuildState List.Pairwise.nil (fun e _ s hs => indexSorted_step e s hs)

/-- C11: for every score, the sections enumerated by `getRepeats()` are in
strictly increasing order of start location; no section is enumerated twice and
two enumerated sections with the same start location are the same section. -/
theorem C11_starts_strictly_increasing (score : Score) :
    (RepeatIndexer.new score).getRepeats.Pairwise
      (fun a b => a.getStartBarLocation < b.getStartBarLocation) ∧
    (RepeatIndexer.new score).getRepeats.Nodup ∧
    (∀ a ∈ (RepeatIndexer.new score).getRepeats, ∀ b ∈ (RepeatIndexer.new score).getRepeats,
      a.getStartBarLocation = b.getStartBarLocation → a = b) := by
  have hs := build_indexSorted score
  refine ⟨hs, ?_, ?_⟩
  · refine hs.imp ?_
    intro a b hab heq
    rw [heq] at hab
    exact lt_irrefl _ hab
  · intro a ha b hb hab
    by_contra hne
    have hsym : Symmetric (fun a b : RepeatedSection =>
        a.myStartBarLocation ≠ b.myStartBarLocation) := fun x y h => Ne.symm h
    have hne' : (RepeatIndexer.new score).myRepeats.Pairwise
        (fun a b => a.myStartBarLocation ≠ b.myStartBarLocation) :=
      hs.imp (fun h => ne_of_lt h)
    exact hne'.forall hsym ha hb hne hab

/-! ## The build pass on scores without alternate endings -/

theorem finalizeCheck_of_no_endings (st : BuildState)
    (h : ∀ top rest, st.repeats = top :: rest → top.getAlternateEndingCount = 0) :
    finalizeCheck st = st := by
  rcases finalizeCheck_cases st with h1 | ⟨top, rest, hst, halt, _, _, _⟩
  · exact h1
  · exact absurd (h top rest hst) halt

theorem processEntry_start_no_endings (e : Int × System × Barline) (st : BuildState)
    (he : e.2.2.barType = BarType.RepeatStart) (hno : e.2.1.alternateEndings = [])
    (hf : finalizeCheck st = st) :
    processEntry st e = ⟨RepeatedSection.new (entryLocation e) :: st.repeats, st.myRepeats⟩ := by
  unfold processEntry processBarline
  rw [hf, handleAlternateEndings_of_no_endings _ _ _ _ hno]
  unfold handleBarType
  rw [if_pos he]
  rfl

theorem processEntry_end_no_endings (e : Int × System × Barline) (top : RepeatedSection)
    (rest idx : List RepeatedSection)
    (he : e.2.2.barType = BarType.RepeatEnd) (hno : e.2.1.alternateEndings = [])
    (htop : top.getAlternateEndingCount = 0) :
    processEntry ⟨top :: rest, idx⟩ e =
      ⟨rest, setInsert (top.addRepeatEndBar (entryLocation e) e.2.2.repeatCount) idx⟩ := by
  have hf : finalizeCheck ⟨top :: rest, idx⟩ = ⟨top :: rest, idx⟩ :=
    finalizeCheck_of_no_endings _ (fun t r h => by
      simp only [List.cons.injEq] at h
      rw [← h.1]; exact htop)
  unfold processEntry processBarline
  rw [hf, handleAlternateEndings_of_no_endings _ _ _ _ hno]
  rcases handleBarType_cases e.1 e.2.2 ⟨top :: rest, idx⟩ with
    ⟨h', _⟩ | ⟨_, _, h'⟩ | ⟨_, t, r, ht, _, h⟩ | ⟨_, t, r, ht, h', _⟩
  · rw [he] at h'; exact absurd h' (by decide)
  · exact absurd (h' he) (by simp)
  · simp only [List.cons.injEq] at ht
    obtain ⟨rfl, rfl⟩ := ht
    exact h
  · simp only [List.cons.injEq] at ht
    obtain ⟨rfl, rfl⟩ := ht
    exact absurd htop h'

theorem processEntry_empty_stack (e : Int × System × Barline) (idx : List RepeatedSection)
    (he : e.2.2.barType ≠ BarType.RepeatStart) :
    processEntry ⟨[], idx⟩ e = ⟨[], idx⟩ := by
  unfold processEntry processBarline
  have hf : finalizeCheck ⟨[], idx⟩ = ⟨[], idx⟩ := rfl
  rw [hf]
  rcases handleBarType_cases e.1 e.2.2 ⟨[], idx⟩ with
    ⟨h', _⟩ | ⟨_, h, _⟩ | ⟨_, t, r, ht, _⟩ | ⟨_, t, r, ht, _⟩
  · exact absurd h' he
  · rw [h, handleAlternateEndings_nil _ _ _ _ rfl]
  · exact absurd ht (by simp)
  · exact absurd ht (by simp)

theorem foldl_processEntry_empty_stack (idx : List RepeatedSection) :
    ∀ (evs : List (Int × System × Barline)),
      (∀ x ∈ evs, x.2.2.barType ≠ BarType.RepeatStart) →
      evs.foldl processEntry ⟨[], idx⟩ = ⟨[], idx⟩
  | [], _ => rfl
  | x :: rest, h => by
    rw [List.foldl_cons, processEntry_empty_stack x idx (h x (List.mem_cons_self _ _))]
    exact foldl_processEntry_empty_stack idx rest (fun y hy => h y (List.mem_cons_of_mem _ hy))

theorem foldl_plain_no_endings (score : Score) (hno : NoAlternateEndings score)
    (st : BuildState) (hf : finalizeCheck st = st) (evs : List (Int × System × Barline))
    (hsub : ∀ x ∈ evs, x ∈ scanOrder 0 score.systems) (hplain : ∀ x ∈ evs, PlainEntry x) :
    evs.foldl processEntry st = st :=
  foldl_processEntry_fixed st hf evs (fun x hx =>
    ⟨(hplain x hx).1, (hplain x hx).2, hno _ (mem_scanOrder _ _ x (hsub x hx)).1⟩)

/-- C13: in a score without alternate endings whose only repeat barlines are a
repeat-start barline `a` and, later in scan order, a repeat-end barline `c` with
declared count `n`, the built index holds exactly one section; its start is the
location of `a`, its end bars are `{E -> n}` and its remaining repeats
`{E -> n - 1}`, `E` being the location of `c`, it has no alternate ending and its
active repeat is 1. -/
theorem C13_single_repeat_index (score : Score)
    (p0 p1 p2 : List (Int × System × Barline)) (a c : Int × System × Barline)
    (hscan : scanOrder 0 score.systems = p0 ++ a :: (p1 ++ c :: p2))
    (ha : a.2.2.barType = BarType.RepeatStart) (hc : c.2.2.barType = BarType.RepeatEnd)
    (h0 : ∀ x ∈ p0, PlainEntry x) (h1 : ∀ x ∈ p1, PlainEntry x) (h2 : ∀ x ∈ p2, PlainEntry x)
    (hno : NoAlternateEndings score) :
    ∃ r, (RepeatIndexer.new score).myRepeats = [r] ∧
      r.myStartBarLocation = entryLocation a ∧
      r.myRepeatEndBars.entries = [(entryLocation c, c.2.2.repeatCount)] ∧
      r.myRemainingRepeats.entries = [(entryLocation c, c.2.2.repeatCount - 1)] ∧
      r.myAlternateEndings.entries = [] ∧
      r.myActiveRepeat = 1 := by
  have hmem : ∀ x, x ∈ p0 ++ a :: (p1 ++ c :: p2) → x ∈ scanOrder 0 score.systems :=
    fun x hx => by rw [hscan]; exact hx
  have ma : a ∈ scanOrder 0 score.systems := hmem a (by simp)
  have mc : c ∈ scanOrder 0 score.systems := hmem c (by simp)
  have na := hno _ (mem_scanOrder _ _ a ma).1
  have nc := hno _ (mem_scanOrder _ _ c mc).1
  refine ⟨(RepeatedSection.new (entryLocation a)).addRepeatEndBar (entryLocation c)
    c.2.2.repeatCount, ?_, rfl, rfl, rfl, rfl, rfl⟩
  rw [new_myRepeats, hscan, List.foldl_append, List.foldl_cons, List.foldl_append,
    List.foldl_cons,
    foldl_plain_no_endings score hno _ rfl p0 (fun x hx => hmem x (by simp [hx])) h0,
    processEntry_start_no_endings a _ ha na rfl,
    foldl_plain_no_endings score hno _ rfl p1 (fun x hx => hmem x (by simp [hx])) h1,
    processEntry_end_no_endings c (RepeatedSection.new (entryLocation a)) _ _ hc nc rfl,
    foldl_plain_no_endings score hno _ rfl p2 (fun x hx => hmem x (by simp [hx])) h2]
  rfl

/-- Witness of C13: the sample score with a repeat-start barline at (0,0) and a
repeat-end barline of count 3 at (0,10). -/
theorem C13_single_repeat_index_witness :
    NoAlternateEndings sampleSimple ∧
    ∃ r, (RepeatIndexer.new sampleSimple).myRepeats = [r] ∧
      r.myStartBarLocation = ⟨0, 0⟩ ∧
      r.myRepeatEndBars.entries = [(⟨0, 10⟩, 3)] ∧
      r.myRemainingRepeats.entries = [(⟨0, 10⟩, 3 - 1)] ∧
      r.myAlternateEndings.entries = [] ∧
      r.myActiveRepeat = 1 :=
  ⟨by decide,
    C13_single_repeat_index sampleSimple [] [] []
      (0, ⟨[⟨0, BarType.RepeatStart, 1⟩, ⟨10, BarType.RepeatEnd, 3⟩], []⟩,
        ⟨0, BarType.RepeatStart, 1⟩)
      (0, ⟨[⟨0, BarType.RepeatStart, 1⟩, ⟨10, BarType.RepeatEnd, 3⟩], []⟩,
        ⟨10, BarType.RepeatEnd, 3⟩)
      (by decide) (by decide) (by decide) (by decide) (by decide) (by decide) (by decide)⟩

/-- C17: in a score without repeat-start barlines and without alternate endings,
`e` being the first repeat-end barline in scan order, the built index is exactly
one section, which starts at (0,0) and has the location of `e` as its only end
bar, with the declared count of `e`; from `e` on the stack is empty and the index
is that one section, so every later repeat-end barline is met with an empty
stack and changes nothing. -/
theorem C17_implicit_repeat_from_score_start (score : Score)
    (pre post : List (Int × System × Barline)) (e : Int × System × Barline)
    (hscan : scanOrder 0 score.systems = pre ++ e :: post)
    (he : e.2.2.barType = BarType.RepeatEnd)
    (hpre : ∀ x ∈ pre, PlainEntry x)
    (hpost : ∀ x ∈ post, x.2.2.barType ≠ BarType.RepeatStart)
    (hno : NoAlternateEndings score) :
    (RepeatIndexer.new score).myRepeats =
      [(RepeatedSection.new ⟨0, 0⟩).addRepeatEndBar (entryLocation e) e.2.2.repeatCount] ∧
    (∀ post1 post2, post = post1 ++ post2 →
      (pre ++ e :: post1).foldl processEntry initialBuildState =
        ⟨[], [(RepeatedSection.new ⟨0, 0⟩).addRepeatEndBar (entryLocation e)
          e.2.2.repeatCount]⟩) := by
  have hmem : ∀ x, x ∈ pre ++ e :: post → x ∈ scanOrder 0 score.systems :=
    fun x hx => by rw [hscan]; exact hx
  have ne := hno _ (mem_scanOrder _ _ e (hmem e (by simp))).1
  have hrun : ∀ post1 post2, post = post1 ++ post2 →
      (pre ++ e :: post1).foldl processEntry initialBuildState =
        ⟨[], [(RepeatedSection.new ⟨0, 0⟩).addRepeatEndBar (entryLocation e)
          e.2.2.repeatCount]⟩ := by
    intro post1 post2 hp
    rw [List.foldl_append, List.foldl_cons,
      foldl_plain_no_endings score hno _ rfl pre (fun x hx => hmem x (by simp [hx])) hpre]
    have hstep : processEntry initialBuildState e =
        ⟨[], setInsert ((RepeatedSection.new ⟨0, 0⟩).addRepeatEndBar (entryLocation e)
          e.2.2.repeatCount) []⟩ :=
      processEntry_end_no_endings e (RepeatedSection.new ⟨0, 0⟩) [] [] he ne rfl
    rw [hstep]
    exact foldl_processEntry_empty_stack _ post1 (fun x hx => hpost x (by rw [hp]; simp [hx]))
  refine ⟨?_, hrun⟩
  rw [new_myRepeats, hscan, hrun post [] (by simp)]

/-- Witness of C17: the sample score with two repeat-end barlines; only the first
one ends a section. -/
theorem C17_implicit_repeat_from_score_start_witness :
    NoAlternateEndings sampleTwoEnds ∧
    (RepeatIndexer.new sampleTwoEnds).myRepeats =
      [(RepeatedSection.new ⟨0, 0⟩).addRepeatEndBar ⟨0, 10⟩ 3] :=
  ⟨by decide,
    (C17_implicit_repeat_from_score_start sampleTwoEnds
      [(0, ⟨[⟨0, BarType.Plain, 1⟩, ⟨10, BarType.RepeatEnd, 3⟩, ⟨20, BarType.RepeatEnd, 2⟩],
        []⟩, ⟨0, BarType.Plain, 1⟩)]
      [(0, ⟨[⟨0, BarType.Plain, 1⟩, ⟨10, BarType.RepeatEnd, 3⟩, ⟨20, BarType.RepeatEnd, 2⟩],
        []⟩, ⟨20, BarType.RepeatEnd, 2⟩)]
      (0, ⟨[⟨0, BarType.Plain, 1⟩, ⟨10, BarType.RepeatEnd, 3⟩, ⟨20, BarType.RepeatEnd, 2⟩],
        []⟩, ⟨10, BarType.RepeatEnd, 3⟩)
      (by decide) (by decide) (by decide) (by decide) (by decide)).1⟩

/-! ## Nested repeats -/

theorem getLastEndBarLocation_new_addRepeatEndBar (S E : SystemLocation) (n : Int) :
    ((RepeatedSection.new S).addRepeatEndBar E n).getLastEndBarLocation = some E := rfl

theorem findRepeat_two_inner (secA secB : RepeatedSection) (A B C L : SystemLocation)
    (hA : secA.myStartBarLocation = A) (hB : secB.myStartBarLocation = B)
    (hlastB : secB.getLastEndBarLocation = some C)
    (hAB : A < B) (h1 : B ≤ L) (h2 : L ≤ C) :
    (RepeatIndexer.mk [secA, secB]).findRepeat L = some (some secB) := by
  have hAL : ¬ L < A := not_lt.2 (le_trans (le_of_lt hAB) h1)
  have hBL : ¬ L < B := not_lt.2 h1
  simp [RepeatIndexer.findRepeat, RepeatIndexer.beforeUpperBound, List.takeWhile, hA, hB,
    hAL, hBL, RepeatIndexer.findRepeatScan, hlastB, h2]

theorem findRepeat_two_outer (secA secB : RepeatedSection) (A B C D L : SystemLocation)
    (hA : secA.myStartBarLocation = A) (hB : secB.myStartBarLocation = B)
    (hlastA : secA.getLastEndBarLocation = some D) (hlastB : secB.getLastEndBarLocation = some C)
    (hAB : A < B) (hBC : B < C) (hCD : C < D)
    (h : (A ≤ L ∧ L < B) ∨ (C < L ∧ L ≤ D)) :
    (RepeatIndexer.mk [secA, secB]).findRepeat L = some (some secA) := by
  rcases h with ⟨h1, h2⟩ | ⟨h1, h2⟩
  · have hAL : ¬ L < A := not_lt.2 h1
    have hLD : L ≤ D := le_of_lt (lt_trans h2 (lt_trans hBC hCD))
    simp [RepeatIndexer.findRepeat, RepeatIndexer.beforeUpperBound, List.takeWhile, hA, hB,
      hAL, h2, RepeatIndexer.findRepeatScan, hlastA, hLD]
  · have hBL : ¬ L < B := not_lt.2 (le_of_lt (lt_trans hBC h1))
    have hAL : ¬ L < A := not_lt.2 (le_of_lt (lt_trans hAB (lt_trans hBC h1)))
    have hCL : ¬ L ≤ C := not_le.2 h1
    simp [RepeatIndexer.findRepeat, RepeatIndexer.beforeUpperBound, List.takeWhile, hA, hB,
      hAL, hBL, RepeatIndexer.findRepeatScan, hlastA, hlastB, hCL, h2]

/-- C12: in a score without alternate endings whose only repeat barlines are, in
scan order, repeat-start barlines at `A` and `B` and repeat-end barlines at `C`
and `D`, with `A < B < C < D`, the built index is exactly the section from `A`
with last end bar `D` followed by the section from `B` with last end bar `C`;
`findRepeat(L)` returns the inner section (from `B`) when `B ≤ L ≤ C` and the outer
section (from `A`) when `A ≤ L < B` or `C < L ≤ D`. -/
theorem C12_nested_repeats (score : Score)
    (p0 p1 p2 p3 p4 : List (Int × System × Barline)) (a b c d : Int × System × Barline)
    (hscan : scanOrder 0 score.systems =
      p0 ++ a :: (p1 ++ b :: (p2 ++ c :: (p3 ++ d :: p4))))
    (ha : a.2.2.barType = BarType.RepeatStart) (hb : b.2.2.barType = BarType.RepeatStart)
    (hc : c.2.2.barType = BarType.RepeatEnd) (hd : d.2.2.barType = BarType.RepeatEnd)
    (h0 : ∀ x ∈ p0, PlainEntry x) (h1 : ∀ x ∈ p1, PlainEntry x) (h2 : ∀ x ∈ p2, PlainEntry x)
    (h3 : ∀ x ∈ p3, PlainEntry x) (h4 : ∀ x ∈ p4, PlainEntry x)
    (hno : NoAlternateEndings score)
    (hAB : entryLocation a < entryLocation b) (hBC : entryLocation b < entryLocation c)
    (hCD : entryLocation c < entryLocation d) :
    (RepeatIndexer.new score).myRepeats =
      [(RepeatedSection.new (entryLocation a)).addRepeatEndBar (entryLocation d)
          d.2.2.repeatCount,
        (RepeatedSection.new (entryLocation b)).addRepeatEndBar (entryLocation c)
          c.2.2.repeatCount] ∧
    ((RepeatedSection.new (entryLocation a)).addRepeatEndBar (entryLocation d)
        d.2.2.repeatCount).getLastEndBarLocation = some (entryLocation d) ∧
    ((RepeatedSection.new (entryLocation b)).addRepeatEndBar (entryLocation c)
        c.2.2.repeatCount).getLastEndBarLocation = some (entryLocation c) ∧
    (∀ L, entryLocation b ≤ L → L ≤ entryLocation c →
      (RepeatIndexer.new score).findRepeat L =
        some (some ((RepeatedSection.new (entryLocation b)).addRepeatEndBar (entryLocation c)
          c.2.2.repeatCount))) ∧
    (∀ L, (entryLocation a ≤ L ∧ L < entryLocation b) ∨
        (entryLocation c < L ∧ L ≤ entryLocation d) →
      (RepeatIndexer.new score).findRepeat L =
        some (some ((RepeatedSection.new (entryLocation a)).addRepeatEndBar (entryLocation d)
          d.2.2.repeatCount))) := by
  have hmem : ∀ x, x ∈ p0 ++ a :: (p1 ++ b :: (p2 ++ c :: (p3 ++ d :: p4))) →
      x ∈ scanOrder 0 score.systems := fun x hx => by rw [hscan]; exact hx
  have na := hno _ (mem_scanOrder _ _ a (hmem a (by simp))).1
  have nb := hno _ (mem_scanOrder _ _ b (hmem b (by simp))).1
  have nc := hno _ (mem_scanOrder _ _ c (hmem c (by simp))).1
  have nd := hno _ (mem_scanOrder _ _ d (hmem d (by simp))).1
  have hidx : (RepeatIndexer.new score).myRepeats =
      [(RepeatedSection.new (entryLocation a)).addRepeatEndBar (entryLocation d)
          d.2.2.repeatCount,
        (RepeatedSection.new (entryLocation b)).addRepeatEndBar (entryLocation c)
          c.2.2.repeatCount] := by
    rw [new_myRepeats, hscan, List.foldl_append, List.foldl_cons, List.foldl_append,
      List.foldl_cons, List.foldl_append, List.foldl_cons, List.foldl_append, List.foldl_cons,
      foldl_plain_no_endings score hno _ rfl p0 (fun x hx => hmem x (by simp [hx])) h0,
      processEntry_start_no_endings a _ ha na rfl,
      foldl_plain_no_endings score hno _ rfl p1 (fun x hx => hmem x (by simp [hx])) h1,
      processEntry_start_no_endings b _ hb nb rfl,
      foldl_plain_no_endings score hno _ rfl p2 (fun x hx => hmem x (by simp [hx])) h2,
      processEntry_end_no_endings c (RepeatedSection.new (entryLocation b)) _ _ hc nc rfl,
      foldl_plain_no_endings score hno _ rfl p3 (fun x hx => hmem x (by simp [hx])) h3,
      processEntry_end_no_endings d (RepeatedSection.new (entryLocation a)) _ _ hd nd rfl,
      foldl_plain_no_endings score hno _ rfl p4 (fun x hx => hmem x (by simp [hx])) h4]
    have hlt : RepeatedSection.lt
        ((RepeatedSection.new (entryLocation a)).addRepeatEndBar (entryLocation d)
          d.2.2.repeatCount)
        ((RepeatedSection.new (entryLocation b)).addRepeatEndBar (entryLocation c)
          c.2.2.repeatCount) := hAB
    simp only [initialBuildState, setInsert, if_pos hlt]
  have hnew : RepeatIndexer.new score = RepeatIndexer.mk
      [(RepeatedSection.new (entryLocation a)).addRepeatEndBar (entryLocation d)
          d.2.2.repeatCount,
        (RepeatedSection.new (entryLocation b)).addRepeatEndBar (entryLocation c)
          c.2.2.repeatCount] := by
    cases hn : RepeatIndexer.new score with
    | mk l =>
      rw [hn] at hidx
      simp only at hidx
      rw [hidx]
  refine ⟨hidx, rfl, rfl, ?_, ?_⟩
  · intro L hL1 hL2
    rw [hnew]
    exact findRepeat_two_inner _ _ _ _ _ L rfl rfl rfl hAB hL1 hL2
  · intro L hL
    rw [hnew]
    exact findRepeat_two_outer _ _ _ _ _ _ L rfl rfl rfl rfl hAB hBC hCD hL

/-- Witness of C12: the outer repeat spans the systems 0 to 3, from (0,0) to
(3,20), the inner repeat lies inside system 1, from (1,4) to (1,12); the location
(1,8) is found in the inner section. -/
theorem C12_nested_repeats_witness :
    NoAlternateEndings sampleNested ∧
    (RepeatIndexer.new sampleNested).myRepeats =
      [(RepeatedSection.new ⟨0, 0⟩).addRepeatEndBar ⟨3, 20⟩ 2,
        (RepeatedSection.new ⟨1, 4⟩).addRepeatEndBar ⟨1, 12⟩ 2] ∧
    (RepeatIndexer.new sampleNested).findRepeat ⟨1, 8⟩ =
      some (some ((RepeatedSection.new ⟨1, 4⟩).addRepeatEndBar ⟨1, 12⟩ 2)) :=
  ⟨by decide,
    (C12_nested_repeats sampleNested []
      [(0, nestedSystem0, ⟨20, BarType.Plain, 1⟩), (1, nestedSystem1, ⟨0, BarType.Plain, 1⟩)]
      []
      [(1, nestedSystem1, ⟨20, BarType.Plain, 1⟩), (2, nestedSystem2, ⟨0, BarType.Plain, 1⟩),
        (2, nestedSystem2, ⟨20, BarType.Plain, 1⟩), (3, nestedSystem3, ⟨0, BarType.Plain, 1⟩)]
      []
      (0, nestedSystem0, ⟨0, BarType.RepeatStart, 1⟩)
      (1, nestedSystem1, ⟨4, BarType.RepeatStart, 1⟩)
      (1, nestedSystem1, ⟨12, BarType.RepeatEnd, 2⟩)
      (3, nestedSystem3, ⟨20, BarType.RepeatEnd, 2⟩)
      (by decide) (by decide) (by decide) (by decide) (by decide) (by decide) (by decide)
      (by decide) (by decide) (by decide) (by decide) (by decide) (by decide)
      (by decide)).1,
    (C12_nested_repeats sampleNested []
      [(0, nestedSystem0, ⟨20, BarType.Plain, 1⟩), (1, nestedSystem1, ⟨0, BarType.Plain, 1⟩)]
      []
      [(1, nestedSystem1, ⟨20, BarType.Plain, 1⟩), (2, nestedSystem2, ⟨0, BarType.Plain, 1⟩),
        (2, nestedSystem2, ⟨20, BarType.Plain, 1⟩), (3, nestedSystem3, ⟨0, BarType.Plain, 1⟩)]
      []
      (0, nestedSystem0, ⟨0, BarType.RepeatStart, 1⟩)
      (1, nestedSystem1, ⟨4, BarType.RepeatStart, 1⟩)
      (1, nestedSystem1, ⟨12, BarType.RepeatEnd, 2⟩)
      (3, nestedSystem3, ⟨20, BarType.RepeatEnd, 2⟩)
      (by decide) (by decide) (by decide) (by decide) (by decide) (by decide) (by decide)
      (by decide) (by decide) (by decide) (by decide) (by decide) (by decide)
      (by decide)).2.2.2.1 ⟨1, 8⟩ (by decide) (by decide)⟩

/-! ## Frame properties of the operations of `RepeatedSection` -/

theorem keys_foldl_assign {K V : Type} [LinearOrder K] (f : V → V) :
    ∀ (l : List (K × V)) (m : StdMap K V), (∀ e ∈ l, e.1 ∈ m.keys) →
      (l.foldl (fun m r => m.assign r.1 (f r.2)) m).keys = m.keys
  | [], _, _ => rfl
  | e :: rest, m, h => by
    have h1 : (m.assign e.1 (f e.2)).keys = m.keys :=
      keys_assignRaw_of_mem e.1 (f e.2) m.entries m.sorted (h e (List.mem_cons_self _ _))
    rw [List.foldl_cons, keys_foldl_assign f rest (m.assign e.1 (f e.2))
      (fun x hx => by rw [h1]; exact h x (List.mem_cons_of_mem _ hx)), h1]

theorem find_foldl_assign_const {K V : Type} [LinearOrder K] (v : V) (k : K) :
    ∀ (nums : List K) (m : StdMap K V),
      (nums.foldl (fun m num => m.assign num v) m).find k =
        if k ∈ nums then some v else m.find k
  | [], m => by simp
  | n :: rest, m => by
    rw [List.foldl_cons, find_foldl_assign_const v k rest (m.assign n v)]
    by_cases h1 : k ∈ rest
    · simp [h1]
    · by_cases h2 : k = n
      · subst h2
        simp [h1, StdMap.find_assign_self]
      · simp [h1, h2, StdMap.find_assign_ne _ n k v h2]

namespace RepeatedSection

theorem sameKeys_reset {s : RepeatedSection} (h : SameKeys s) : SameKeys s.reset := by
  show (s.myRepeatEndBars.entries.foldl (fun m r => m.assign r.1 (r.2 - 1))
    s.myRemainingRepeats).keys = s.myRepeatEndBars.keys
  rw [keys_foldl_assign (fun c => c - 1) s.myRepeatEndBars.entries s.myRemainingRepeats
    (fun e he => by rw [h]; exact List.mem_map_of_mem _ he)]
  exact h

/-- Whenever `performRepeat` returns, the structural members are unchanged and
`myActiveRepeat` is unchanged or incremented by one. -/
theorem performRepeat_frame (s : RepeatedSection) (loc out : SystemLocation)
    (s' : RepeatedSection) (h : s.performRepeat loc = some (out, s')) :
    SameStructure s s' ∧
      (s'.myActiveRepeat = s.myActiveRepeat ∨ s'.myActiveRepeat = s.myActiveRepeat + 1) := by
  by_cases hb : takesAlternateBranch s loc
  · obtain ⟨h1, h2⟩ := hb
    obtain ⟨T, hT⟩ := Option.isSome_iff_exists.1 h2
    simp only [performRepeat, h1, hT, if_true, Option.some.injEq, Prod.mk.injEq] at h
    rw [← h.2]
    exact ⟨⟨rfl, rfl, rfl⟩, Or.inl rfl⟩
  · rw [performRepeat_of_not_branch s loc hb] at h
    unfold performRepeatEndBar at h
    cases hr : s.myRemainingRepeats.find loc with
    | none =>
      rw [hr] at h
      simp only [Option.some.injEq, Prod.mk.injEq] at h
      rw [← h.2]
      exact ⟨⟨rfl, rfl, rfl⟩, Or.inl rfl⟩
    | some r =>
      rw [hr] at h
      simp only at h
      split_ifs at h with hne
      · simp only [Option.some.injEq, Prod.mk.injEq] at h
        rw [← h.2]
        exact ⟨⟨rfl, rfl, rfl⟩, Or.inr rfl⟩
      · cases hc : s.myRepeatEndBars.atKey loc with
        | none => rw [hc] at h; exact Option.noConfusion h
        | some c =>
          rw [hc] at h
          simp only [Option.some.injEq, Prod.mk.injEq] at h
          rw [← h.2]
          exact ⟨⟨rfl, rfl, rfl⟩, Or.inl rfl⟩

end RepeatedSection

/-- C14: the key sets of `myRemainingRepeats` and `myRepeatEndBars` coincide on a
newly constructed section, and every operation of `RepeatedSection` keeps them
equal: `addRepeatEndBar`, `addAlternateEnding`, `reset` and `performRepeat` (which
then returns), for every argument. -/
theorem C14_same_key_sets :
    (∀ startBar, RepeatedSection.SameKeys (RepeatedSection.new startBar)) ∧
    (∀ (s : RepeatedSection) location repeatCount, RepeatedSection.SameKeys s →
      RepeatedSection.SameKeys (s.addRepeatEndBar location repeatCount)) ∧
    (∀ (s : RepeatedSection) system ending, RepeatedSection.SameKeys s →
      RepeatedSection.SameKeys (s.addAlternateEnding system ending)) ∧
    (∀ s : RepeatedSection, RepeatedSection.SameKeys s → RepeatedSection.SameKeys s.reset) ∧
    (∀ (s : RepeatedSection) loc, RepeatedSection.SameKeys s →
      ∃ out s', s.performRepeat loc = some (out, s') ∧ RepeatedSection.SameKeys s') := by
  refine ⟨fun _ => rfl, ?_, ?_, ?_, ?_⟩
  · intro s location repeatCount h
    exact RepeatedSection.sameKeys_addRepeatEndBar h location repeatCount
  · intro s system ending h
    exact h
  · intro s h
    exact RepeatedSection.sameKeys_reset h
  · intro s loc h
    obtain ⟨out, s', e, k, _⟩ := RepeatedSection.performRepeat_shape h loc
    exact ⟨out, s', e, k⟩

/-- Witness of C14: `performRepeat((0,10))` on the sample section. -/
theorem C14_same_key_sets_witness :
    RepeatedSection.SameKeys sampleSection ∧
    ∃ out s', sampleSection.performRepeat ⟨0, 10⟩ = some (out, s') ∧
      RepeatedSection.SameKeys s' :=
  ⟨by decide, C14_same_key_sets.2.2.2.2 sampleSection ⟨0, 10⟩ (by decide)⟩

/-- C15: whenever `performRepeat(loc)` returns, `myActiveRepeat` is what it was
before or exactly one more; it is 1 after construction and after `reset()`, and
`addRepeatEndBar` and `addAlternateEnding` do not change it. -/
theorem C15_active_repeat_never_decreases :
    (∀ (s : RepeatedSection) loc out s', s.performRepeat loc = some (out, s') →
      s'.myActiveRepeat = s.myActiveRepeat ∨ s'.myActiveRepeat = s.myActiveRepeat + 1) ∧
    (∀ (s : RepeatedSection) loc out s', s.performRepeat loc = some (out, s') →
      s.myActiveRepeat ≤ s'.myActiveRepeat) ∧
    (∀ startBar, (RepeatedSection.new startBar).myActiveRepeat = 1) ∧
    (∀ s : RepeatedSection, s.reset.myActiveRepeat = 1) ∧
    (∀ (s : RepeatedSection) location repeatCount,
      (s.addRepeatEndBar location repeatCount).myActiveRepeat = s.myActiveRepeat) ∧
    (∀ (s : RepeatedSection) system ending,
      (s.addAlternateEnding system ending).myActiveRepeat = s.myActiveRepeat) := by
  refine ⟨?_, ?_, fun _ => rfl, fun _ => rfl, fun _ _ _ => rfl, fun _ _ _ => rfl⟩
  · intro s loc out s' h
    exact (RepeatedSection.performRepeat_frame s loc out s' h).2
  · intro s loc out s' h
    rcases (RepeatedSection.performRepeat_frame s loc out s' h).2 with h1 | h1
    · rw [h1]
    · rw [h1]; omega

/-- Witness of C15: the first `performRepeat((0,10))` on the sample section
returns the start bar and raises `myActiveRepeat` from 1 to 2. -/
theorem C15_active_repeat_never_decreases_witness :
    sampleSection.performRepeat ⟨0, 10⟩ =
      some (⟨0, 0⟩, { sampleSection with
        myRemainingRepeats := sampleSection.myRemainingRepeats.assign ⟨0, 10⟩ 0
        myActiveRepeat := 2 }) ∧
    ((2 : Int) = sampleSection.myActiveRepeat ∨ (2 : Int) = sampleSection.myActiveRepeat + 1) :=
  ⟨by decide,
    C15_active_repeat_never_decreases.1 sampleSection ⟨0, 10⟩ ⟨0, 0⟩
      { sampleSection with
        myRemainingRepeats := sampleSection.myRemainingRepeats.assign ⟨0, 10⟩ 0
        myActiveRepeat := 2 } (by decide)⟩

/-- C18: after `addAlternateEnding(system, ending)`, `findAlternateEnding(k)`
returns the location `(system, ending.position)` for every `k` among the numbers
of `ending`, whatever was recorded for `k` before, and what it returned before
the call for every other `k`, in particular nothing when nothing was recorded;
on a new section it returns nothing; the start bar, the end bars, the
remaining repeats and the active repeat are unchanged. -/
theorem C18_add_alternate_ending (s : RepeatedSection) (system : Int)
    (ending : AlternateEnding) :
    (∀ k ∈ ending.numbers,
      (s.addAlternateEnding system ending).findAlternateEnding k =
        some ⟨system, ending.position⟩) ∧
    (∀ k, k ∉ ending.numbers →
      (s.addAlternateEnding system ending).findAlternateEnding k = s.findAlternateEnding k) ∧
    (∀ k, k ∉ ending.numbers → s.findAlternateEnding k = none →
      (s.addAlternateEnding system ending).findAlternateEnding k = none) ∧
    (∀ startBar k, (RepeatedSection.new startBar).findAlternateEnding k = none) ∧
    (s.addAlternateEnding system ending).myStartBarLocation = s.myStartBarLocation ∧
    (s.addAlternateEnding system ending).myRepeatEndBars = s.myRepeatEndBars ∧
    (s.addAlternateEnding system ending).myRemainingRepeats = s.myRemainingRepeats ∧
    (s.addAlternateEnding system ending).myActiveRepeat = s.myActiveRepeat := by
  have key : ∀ k, (s.addAlternateEnding system ending).findAlternateEnding k =
      if k ∈ ending.numbers then some ⟨system, ending.position⟩
      else s.findAlternateEnding k := fun k =>
    find_foldl_assign_const (⟨system, ending.position⟩ : SystemLocation) k ending.numbers
      s.myAlternateEndings
  refine ⟨?_, ?_, ?_, fun _ _ => rfl, rfl, rfl, rfl, rfl⟩
  · intro k hk
    rw [key k, if_pos hk]
  · intro k hk
    rw [key k, if_neg hk]
  · intro k hk hnone
    rw [key k, if_neg hk, hnone]

/-- Witness of C18: on the sample section, an alternate ending at position 9 for
the repeats 2 and 3 replaces the target of 2, records 3 and leaves 1 as it is. -/
theorem C18_add_alternate_ending_witness :
    (2 : Int) ∈ [(2 : Int), 3] ∧ (1 : Int) ∉ [(2 : Int), 3] ∧
    sampleSection.findAlternateEnding 2 = some ⟨0, 8⟩ ∧
    (sampleSection.addAlternateEnding 0 ⟨9, [2, 3]⟩).findAlternateEnding 2 = some ⟨0, 9⟩ ∧
    (sampleSection.addAlternateEnding 0 ⟨9, [2, 3]⟩).findAlternateEnding 1 =
      sampleSection.findAlternateEnding 1 :=
  ⟨by decide, by decide, by decide,
    (C18_add_alternate_ending sampleSection 0 ⟨9, [2, 3]⟩).1 2 (by decide),
    (C18_add_alternate_ending sampleSection 0 ⟨9, [2, 3]⟩).2.1 1 (by decide)⟩

theorem sameStructure_reset (s : RepeatedSection) : SameStructure s s.reset :=
  ⟨rfl, rfl, rfl⟩

theorem runPlayback_frame :
    ∀ (calls : List PlaybackCall) (s s' : RepeatedSection),
      runPlayback s calls = some s' → SameStructure s s'
  | [], s, s', h => by
    simp only [runPlayback, Option.some.injEq] at h
    rw [← h]
    exact ⟨rfl, rfl, rfl⟩
  | PlaybackCall.performRepeat loc :: rest, s, s', h => by
    simp only [runPlayback] at h
    cases hp : s.performRepeat loc with
    | none => rw [hp] at h; exact Option.noConfusion h
    | some r =>
      obtain ⟨out, s1⟩ := r
      rw [hp] at h
      have h1 := (RepeatedSection.performRepeat_frame s loc out s1 hp).1
      have h2 := runPlayback_frame rest s1 s' h
      exact ⟨h2.1.trans h1.1, h2.2.1.trans h1.2.1, h2.2.2.trans h1.2.2⟩
  | PlaybackCall.reset :: rest, s, s', h => by
    simp only [runPlayback] at h
    exact runPlayback_frame rest s.reset s' h

/-- C19: `performRepeat(loc)` (whenever it returns) and `reset()` leave the start
bar, the end bars and the alternate endings unchanged; hence after any sequence
of `performRepeat` / `reset` calls the accessors `getStartBarLocation`,
`getLastEndBarLocation`, `getAlternateEndingCount`, `getTotalRepeatCount` and
`findAlternateEnding` return what they returned before, and the comparison
`operator<` of two sections, which orders the index, is the same before and after
playback on both. -/
theorem C19_playback_keeps_structure :
    (∀ (s : RepeatedSection) loc out s', s.performRepeat loc = some (out, s') →
      s'.myStartBarLocation = s.myStartBarLocation ∧
      s'.myRepeatEndBars = s.myRepeatEndBars ∧
      s'.myAlternateEndings = s.myAlternateEndings) ∧
    (∀ s : RepeatedSection,
      s.reset.myStartBarLocation = s.myStartBarLocation ∧
      s.reset.myRepeatEndBars = s.myRepeatEndBars ∧
      s.reset.myAlternateEndings = s.myAlternateEndings) ∧
    (∀ (calls : List PlaybackCall) (s s' : RepeatedSection),
      runPlayback s calls = some s' →
      s'.getStartBarLocation = s.getStartBarLocation ∧
      s'.getLastEndBarLocation = s.getLastEndBarLocation ∧
      s'.getAlternateEndingCount = s.getAlternateEndingCount ∧
      s'.getTotalRepeatCount = s.getTotalRepeatCount ∧
      (∀ k, s'.findAlternateEnding k = s.findAlternateEnding k)) ∧
    (∀ (callsA callsB : List PlaybackCall) (a b a' b' : RepeatedSection),
      runPlayback a callsA = some a' → runPlayback b callsB = some b' →
      (RepeatedSection.lt a' b' ↔ RepeatedSection.lt a b)) := by
  refine ⟨?_, ?_, ?_, ?_⟩
  · intro s loc out s' h
    exact (RepeatedSection.performRepeat_frame s loc out s' h).1
  · intro s
    exact sameStructure_reset s
  · intro calls s s' h
    obtain ⟨h1, h2, h3⟩ := runPlayback_frame calls s s' h
    refine ⟨h1, ?_, ?_, ?_, ?_⟩
    · simp only [RepeatedSection.getLastEndBarLocation, h2]
    · simp only [RepeatedSection.getAlternateEndingCount, h3]
    · simp only [RepeatedSection.getTotalRepeatCount, h2]
    · intro k
      simp only [RepeatedSection.findAlternateEnding, h3]
  · intro callsA callsB a b a' b' ha hb
    have h1 := (runPlayback_frame callsA a a' ha).1
    have h2 := (runPlayback_frame callsB b b' hb).1
    simp only [RepeatedSection.lt, h1, h2]

/-- Witness of C19: on the sample section, the calls `performRepeat((0,10))`,
`reset()`, `performRepeat((0,5))` return, and the accessors are unchanged. -/
theorem C19_playback_keeps_structure_witness :
    ∃ s', runPlayback sampleSection
        [PlaybackCall.performRepeat ⟨0, 10⟩, PlaybackCall.reset,
          PlaybackCall.performRepeat ⟨0, 5⟩] = some s' ∧
      s'.getStartBarLocation = sampleSection.getStartBarLocation ∧
      s'.getLastEndBarLocation = sampleSection.getLastEndBarLocation ∧
      s'.getAlternateEndingCount = sampleSection.getAlternateEndingCount ∧
      s'.getTotalRepeatCount = sampleSection.getTotalRepeatCount ∧
      (∀ k, s'.findAlternateEnding k = sampleSection.findAlternateEnding k) :=
  ⟨sampleSection, by decide,
    C19_playback_keeps_structure.2.2.1
      [PlaybackCall.performRepeat ⟨0, 10⟩, PlaybackCall.reset,
        PlaybackCall.performRepeat ⟨0, 5⟩] sampleSection sampleSection (by decide)⟩

/-! ## Indexed sections are nested or disjoint -/

theorem laminarShapes_pop (P : List SystemLocation)
    (t : SystemLocation × List SystemLocation)
    (S I : List (SystemLocation × List SystemLocation))
    (h : LaminarShapes P (t :: S) I) : LaminarShapes P S (t :: I) := by
  have hst := List.pairwise_cons.1 h.stack
  refine ⟨hst.2, ?_, ?_, ?_, ?_, ?_, ?_⟩
  · intro X hX0 Y hY0 hlt
    rcases List.mem_cons.1 hX0 with rfl | hX
    · rcases List.mem_cons.1 hY0 with rfl | hY
      · exact absurd hlt (lt_irrefl _)
      · exact h.inside Y hY X (List.mem_cons_self _ _) (le_of_lt hlt)
    · rcases List.mem_cons.1 hY0 with rfl | hY
      · intro k hk
        exact Or.inl (h.before X hX Y (List.mem_cons_self _ _) hlt k hk)
      · exact h.index X hX Y hY hlt
  · intro X hX0 T hT hlt
    rcases List.mem_cons.1 hX0 with rfl | hX
    · exact absurd hlt (not_lt.2 (hst.1 T hT).1)
    · exact h.before X hX T (List.mem_cons_of_mem _ hT) hlt
  · intro X hX0 T hT hle
    rcases List.mem_cons.1 hX0 with rfl | hX
    · intro k hk
      exact Or.inl ((hst.1 T hT).2 k hk)
    · exact h.inside X hX T (List.mem_cons_of_mem _ hT) hle
  · intro T hT
    exact h.startsLe T (List.mem_cons_of_mem _ hT)
  · intro T hT
    exact h.stackKeysLt T (List.mem_cons_of_mem _ hT)
  · intro X hX0
    rcases List.mem_cons.1 hX0 with rfl | hX
    · exact h.stackKeysLt X (List.mem_cons_self _ _)
    · exact h.indexKeysLt X hX

theorem laminarShapes_shrink (P : List SystemLocation)
    (S I I' : List (SystemLocation × List SystemLocation))
    (hsub : ∀ X ∈ I', X ∈ I) (h : LaminarShapes P S I) : LaminarShapes P S I' :=
  ⟨h.stack, fun X hX Y hY => h.index X (hsub X hX) Y (hsub Y hY),
    fun X hX => h.before X (hsub X hX), fun X hX => h.inside X (hsub X hX),
    h.startsLe, h.stackKeysLt, fun X hX => h.indexKeysLt X (hsub X hX)⟩

theorem laminarShapes_weaken (p : SystemLocation) (P : List SystemLocation)
    (S I : List (SystemLocation × List SystemLocation))
    (h : LaminarShapes (p :: P) S I) : LaminarShapes P S I :=
  ⟨h.stack, h.index, h.before, h.inside,
    fun T hT q hq => h.startsLe T hT q (List.mem_cons_of_mem _ hq),
    fun T hT k hk q hq => h.stackKeysLt T hT k hk q (List.mem_cons_of_mem _ hq),
    fun X hX k hk q hq => h.indexKeysLt X hX k hk q (List.mem_cons_of_mem _ hq)⟩

theorem laminarShapes_push (p : SystemLocation) (P : List SystemLocation)
    (S I : List (SystemLocation × List SystemLocation))
    (hnext : ∀ q ∈ P, p < q) (h : LaminarShapes (p :: P) S I) :
    LaminarShapes P ((p, []) :: S) I := by
  refine ⟨?_, h.index, ?_, ?_, ?_, ?_, ?_⟩
  · refine List.Pairwise.cons ?_ h.stack
    intro T hT
    exact ⟨h.startsLe T hT p (List.mem_cons_self _ _),
      fun k hk => h.stackKeysLt T hT k hk p (List.mem_cons_self _ _)⟩
  · intro X hX T hT0 hlt
    rcases List.mem_cons.1 hT0 with rfl | hT
    · intro k hk
      exact h.indexKeysLt X hX k hk p (List.mem_cons_self _ _)
    · exact h.before X hX T hT hlt
  · intro X hX T hT0 hle
    rcases List.mem_cons.1 hT0 with rfl | hT
    · intro k hk
      exact absurd hk (List.not_mem_nil k)
    · exact h.inside X hX T hT hle
  · intro T hT0 q hq
    rcases List.mem_cons.1 hT0 with rfl | hT
    · exact le_of_lt (hnext q hq)
    · exact h.startsLe T hT q (List.mem_cons_of_mem _ hq)
  · intro T hT0 k hk q hq
    rcases List.mem_cons.1 hT0 with rfl | hT
    · exact absurd hk (List.not_mem_nil k)
    · exact h.stackKeysLt T hT k hk q (List.mem_cons_of_mem _ hq)
  · intro X hX k hk q hq
    exact h.indexKeysLt X hX k hk q (List.mem_cons_of_mem _ hq)

theorem laminarShapes_addEnd (p : SystemLocation) (P : List SystemLocation)
    (t : SystemLocation × List SystemLocation) (keys : List SystemLocation)
    (S I : List (SystemLocation × List SystemLocation))
    (hnext : ∀ q ∈ P, p < q) (hkeys : ∀ k ∈ keys, k = p ∨ k ∈ t.2)
    (h : LaminarShapes (p :: P) (t :: S) I) : LaminarShapes P ((t.1, keys) :: S) I := by
  have hst := List.pairwise_cons.1 h.stack
  refine ⟨List.Pairwise.cons hst.1 hst.2, h.index, ?_, ?_, ?_, ?_, ?_⟩
  · intro X hX T hT0 hlt
    rcases List.mem_cons.1 hT0 with rfl | hT
    · exact h.before X hX t (List.mem_cons_self _ _) hlt
    · exact h.before X hX T (List.mem_cons_of_mem _ hT) hlt
  · intro X hX T hT0 hle
    rcases List.mem_cons.1 hT0 with rfl | hT
    · intro k hk
      rcases hkeys k hk with rfl | hk
      · exact Or.inr (fun k' hk' => h.indexKeysLt X hX k' hk' k (List.mem_cons_self _ _))
      · exact h.inside X hX t (List.mem_cons_self _ _) hle k hk
    · exact h.inside X hX T (List.mem_cons_of_mem _ hT) hle
  · intro T hT0 q hq
    rcases List.mem_cons.1 hT0 with rfl | hT
    · exact h.startsLe t (List.mem_cons_self _ _) q (List.mem_cons_of_mem _ hq)
    · exact h.startsLe T (List.mem_cons_of_mem _ hT) q (List.mem_cons_of_mem _ hq)
  · intro T hT0 k hk q hq
    rcases List.mem_cons.1 hT0 with rfl | hT
    · rcases hkeys k hk with rfl | hk
      · exact hnext q hq
      · exact h.stackKeysLt t (List.mem_cons_self _ _) k hk q (List.mem_cons_of_mem _ hq)
    · exact h.stackKeysLt T (List.mem_cons_of_mem _ hT) k hk q (List.mem_cons_of_mem _ hq)
  · intro X hX k hk q hq
    exact h.indexKeysLt X hX k hk q (List.mem_cons_of_mem _ hq)

theorem mem_map_sectionShape_setInsert (t : RepeatedSection) (I : List RepeatedSection)
    (X : SystemLocation × List SystemLocation)
    (hX : X ∈ (setInsert t I).map sectionShape) :
    X ∈ sectionShape t :: I.map sectionShape := by
  rw [List.mem_map] at hX
  obtain ⟨r, hr, rfl⟩ := hX
  rcases mem_setInsert t r I hr with rfl | hr
  · exact List.mem_cons_self _ _
  · exact List.mem_cons_of_mem _ (List.mem_map_of_mem _ hr)

theorem laminar_popInsert (pending : List (Int × System × Barline))
    (top : RepeatedSection) (rest idx : List RepeatedSection)
    (h : Laminar pending ⟨top :: rest, idx⟩) :
    Laminar pending ⟨rest, setInsert top idx⟩ :=
  laminarShapes_shrink _ _ _ _ (mem_map_sectionShape_setInsert top idx)
    (laminarShapes_pop _ _ _ _ h)

theorem laminar_finalizeCheck (pending : List (Int × System × Barline)) (st : BuildState)
    (hst : Laminar pending st) : Laminar pending (finalizeCheck st) := by
  rcases finalizeCheck_cases st with h | ⟨top, rest, htop, _, _, _, h⟩
  · rw [h]; exact hst
  · rw [h]
    apply laminar_popInsert
    have e : st = ⟨top :: rest, st.myRepeats⟩ := by
      cases st
      simp only at htop
      subst htop
      rfl
    rw [e] at hst
    exact hst

theorem laminar_addEnd (e : Int × System × Barline) (pending : List (Int × System × Barline))
    (top : RepeatedSection) (rest idx : List RepeatedSection)
    (hnext : ∀ x ∈ pending, entryLocation e < entryLocation x)
    (h : Laminar (e :: pending) ⟨top :: rest, idx⟩) :
    Laminar pending
      ⟨top.addRepeatEndBar ⟨e.1, e.2.2.position⟩ e.2.2.repeatCount :: rest, idx⟩ := by
  refine laminarShapes_addEnd (entryLocation e) _ (sectionShape top) _ _ _ ?_ ?_ h
  · intro q hq
    rw [List.mem_map] at hq
    obtain ⟨x, hx, rfl⟩ := hq
    exact hnext x hx
  · intro k hk
    exact mem_keys_assign top.myRepeatEndBars _ k _ hk

theorem laminar_handleBarType (e : Int × System × Barline)
    (pending : List (Int × System × Barline)) (st : BuildState)
    (hnext : ∀ x ∈ pending, entryLocation e < entryLocation x)
    (hst : Laminar (e :: pending) st) : Laminar pending (handleBarType e.1 e.2.2 st) := by
  have hnext' : ∀ q ∈ pending.map entryLocation, entryLocation e < q := by
    intro q hq
    rw [List.mem_map] at hq
    obtain ⟨x, hx, rfl⟩ := hq
    exact hnext x hx
  rcases handleBarType_cases e.1 e.2.2 st with
    ⟨_, h⟩ | ⟨_, h, _⟩ | ⟨_, top, rest, htop, _, h⟩ | ⟨_, top, rest, htop, _, h⟩
  · rw [h]
    exact laminarShapes_push (entryLocation e) _ _ _ hnext' hst
  · rw [h]
    exact laminarShapes_weaken (entryLocation e) _ _ _ hst
  · rw [h]
    apply laminar_popInsert
    apply laminar_addEnd e pending top rest st.myRepeats hnext
    have e' : st = ⟨top :: rest, st.myRepeats⟩ := by
      cases st
      simp only at htop
      subst htop
      rfl
    rw [e'] at hst
    exact hst
  · rw [h]
    apply laminar_addEnd e pending top rest st.myRepeats hnext
    have e' : st = ⟨top :: rest, st.myRepeats⟩ := by
      cases st
      simp only at htop
      subst htop
      rfl
    rw [e'] at hst
    exact hst

theorem laminar_handleAlternateEndings (pending : List (Int × System × Barline)) (i : Int)
    (system : System) (bar : Barline) (st : BuildState) (hst : Laminar pending st) :
    Laminar pending (handleAlternateEndings i system bar st) := by
  cases h : st.repeats with
  | nil => rw [handleAlternateEndings_nil _ _ _ _ h]; exact hst
  | cons top rest =>
    obtain ⟨top', e1, e2⟩ := handleAlternateEndings_cons i system bar st top rest h
    have hshape : sectionShape top' = sectionShape top := by
      unfold sectionShape
      rw [e2.1, e2.2.1]
    rw [e1]
    unfold Laminar at hst ⊢
    rw [h] at hst
    simp only [List.map_cons, hshape] at hst ⊢
    exact hst

theorem laminar_foldl :
    ∀ (evs : List (Int × System × Barline)) (st : BuildState),
      evs.Pairwise (fun x y => entryLocation x < entryLocation y) →
      Laminar evs st → Laminar [] (evs.foldl processEntry st)
  | [], _, _, h => h
  | e :: rest, st, hp, h => by
    rw [List.pairwise_cons] at hp
    rw [List.foldl_cons]
    apply laminar_foldl rest _ hp.2
    show Laminar rest (handleAlternateEndings e.1 e.2.1 e.2.2
      (handleBarType e.1 e.2.2 (finalizeCheck st)))
    apply laminar_handleAlternateEndings
    apply laminar_handleBarType e rest _ hp.1
    exact laminar_finalizeCheck _ st h

theorem build_laminar (score : Score) (hsorted : SortedBarlines score)
    (hpos : NonnegPositions score) :
    ∀ X ∈ (RepeatIndexer.new score).myRepeats, ∀ Y ∈ (RepeatIndexer.new score).myRepeats,
      X.myStartBarLocation < Y.myStartBarLocation →
      AroundOrBefore (sectionShape X) (sectionShape Y) := by
  have hinit : Laminar (scanOrder 0 score.systems) initialBuildState := by
    refine ⟨?_, ?_, ?_, ?_, ?_, ?_, ?_⟩
    · simp [initialBuildState]
    · intro X hX
      simp [initialBuildState] at hX
    · intro X hX
      simp [initialBuildState] at hX
    · intro X hX
      simp [initialBuildState] at hX
    · intro T hT p hp
      simp only [initialBuildState, List.map_cons, List.map_nil, List.mem_singleton] at hT
      subst hT
      rw [List.mem_map] at hp
      obtain ⟨x, hx, rfl⟩ := hp
      exact origin_le_entryLocation score hpos x hx
    · intro T hT k hk
      simp only [initialBuildState, List.map_cons, List.map_nil, List.mem_singleton] at hT
      subst hT
      simp [sectionShape, RepeatedSection.new, StdMap.keys, StdMap.empty] at hk
    · intro X hX
      simp [initialBuildState] at hX
  have hfinal := laminar_foldl _ initialBuildState
    (pairwise_scanOrder score.systems 0 hsorted) hinit
  intro X hX Y hY hlt
  rw [new_myRepeats] at hX hY
  exact hfinal.index _ (List.mem_map_of_mem _ hX) _ (List.mem_map_of_mem _ hY) hlt

theorem eq_of_start_eq (l : List RepeatedSection)
    (hs : l.Pairwise (fun a b => a.myStartBarLocation < b.myStartBarLocation))
    (a b : RepeatedSection) (ha : a ∈ l) (hb : b ∈ l)
    (hab : a.myStartBarLocation = b.myStartBarLocation) : a = b := by
  by_contra hne
  have hsym : Symmetric (fun a b : RepeatedSection =>
      a.myStartBarLocation ≠ b.myStartBarLocation) := fun x y h => Ne.symm h
  exact (hs.imp (fun h => ne_of_lt h)).forall hsym ha hb hne hab

theorem findRepeat_found (idx : RepeatIndexer) (loc : SystemLocation) (R : RepeatedSection)
    (hsorted : idx.myRepeats.Pairwise
      (fun a b => a.myStartBarLocation < b.myStartBarLocation))
    (hne : ∀ r ∈ idx.myRepeats, r.myRepeatEndBars.isEmpty = false)
    (h : idx.findRepeat loc = some (some R)) :
    R ∈ idx.myRepeats ∧ Encloses R loc ∧
      ∀ R' ∈ idx.myRepeats, Encloses R' loc → R'.myStartBarLocation ≤ R.myStartBarLocation := by
  have hmem := mem_takeWhile_start loc idx.myRepeats hsorted
  have hmem' : ∀ r, r ∈ (idx.beforeUpperBound loc).reverse ↔
      r ∈ idx.myRepeats ∧ r.myStartBarLocation ≤ loc := by
    intro r
    rw [List.mem_reverse]
    exact hmem r
  have hrev : (idx.beforeUpperBound loc).reverse.Pairwise
      (fun a b => b.myStartBarLocation < a.myStartBarLocation) :=
    List.pairwise_reverse.2 (hsorted.sublist (List.takeWhile_sublist _))
  have key := (findRepeatScan_spec loc _ hrev
    (fun r hr => hne r ((hmem' r).1 hr).1)).1 R
  obtain ⟨hin, hhit, hmax⟩ := key.1 h
  have hR := (hmem' R).1 hin
  exact ⟨hR.1, ⟨hR.2, hhit⟩, fun R' hR' hE => hmax R' ((hmem' R').2 ⟨hR', hE.1⟩) hE.2⟩

/-- C20: in a score whose systems list their barlines in strictly increasing
(non-negative) position, two sections `X` and `Y` of the built index with
`X.start < Y.start` are disjoint, `X.getLastEndBarLocation() < Y.start`, or nested,
`Y.getLastEndBarLocation() < X.getLastEndBarLocation()`; hence the section that
`findRepeat(loc)` returns lies inside every other indexed section that surrounds
`loc`: it starts later and its last end bar comes earlier. -/
theorem C20_nested_or_disjoint (score : Score) (hsorted : SortedBarlines score)
    (hpos : NonnegPositions score) :
    (∀ X ∈ (RepeatIndexer.new score).myRepeats, ∀ Y ∈ (RepeatIndexer.new score).myRepeats,
      X.myStartBarLocation < Y.myStartBarLocation →
      ∃ ex ey, X.getLastEndBarLocation = some ex ∧ Y.getLastEndBarLocation = some ey ∧
        (ex < Y.myStartBarLocation ∨ ey < ex)) ∧
    (∀ loc R, (RepeatIndexer.new score).findRepeat loc = some (some R) →
      ∀ R' ∈ (RepeatIndexer.new score).myRepeats, R' ≠ R → Encloses R' loc →
        R'.myStartBarLocation < R.myStartBarLocation ∧
        ∃ e e', R.getLastEndBarLocation = some e ∧ R'.getLastEndBarLocation = some e' ∧
          e < e') := by
  have hne := build_indexHasEndBars score
  have hidx := build_indexSorted score
  have hlam := build_laminar score hsorted hpos
  have first : ∀ X ∈ (RepeatIndexer.new score).myRepeats,
      ∀ Y ∈ (RepeatIndexer.new score).myRepeats,
      X.myStartBarLocation < Y.myStartBarLocation →
      ∃ ex ey, X.getLastEndBarLocation = some ex ∧ Y.getLastEndBarLocation = some ey ∧
        (ex < Y.myStartBarLocation ∨ ey < ex) := by
    intro X hX Y hY hlt
    obtain ⟨ex, hex⟩ := getLastEndBarLocation_isSome X (hne X hX)
    obtain ⟨ey, hey⟩ := getLastEndBarLocation_isSome Y (hne Y hY)
    refine ⟨ex, ey, hex, hey, ?_⟩
    rcases hlam X hX Y hY hlt ex (getLastEndBarLocation_mem_keys X ex hex) with h | h
    · exact Or.inl h
    · exact Or.inr (h ey (getLastEndBarLocation_mem_keys Y ey hey))
  refine ⟨first, ?_⟩
  intro loc R hfind R' hR' hneq hE'
  have hne' : ∀ r ∈ (RepeatIndexer.new score).myRepeats, r.myRepeatEndBars.isEmpty = false := by
    intro r hr
    have := hne r hr
    unfold StdMap.isEmpty
    cases hent : r.myRepeatEndBars.entries with
    | nil => exact absurd hent this
    | cons a b => rfl
  obtain ⟨hR, hE, hmax⟩ := findRepeat_found _ loc R hidx hne' hfind
  have hlt : R'.myStartBarLocation < R.myStartBarLocation :=
    lt_of_le_of_ne (hmax R' hR' hE')
      (fun heq => hneq (eq_of_start_eq _ hidx R' R hR' hR heq))
  refine ⟨hlt, ?_⟩
  obtain ⟨e', e, he', he, hcase⟩ := first R' hR' R hR hlt
  refine ⟨e, e', he, he', ?_⟩
  rcases hcase with h | h
  · exfalso
    obtain ⟨_, e2, he2, hge⟩ := hE'
    rw [he'] at he2
    simp only [Option.some.injEq] at he2
    subst he2
    exact absurd (lt_of_le_of_lt (le_trans hE.1 hge) h) (lt_irrefl _)
  · exact h

/-- Witness of C20: in the sample score with nested repeats the outer section,
from (0,0) to (3,20), and the inner section, from (1,4) to (1,12), are nested. -/
theorem C20_nested_or_disjoint_witness :
    SortedBarlines sampleNested ∧ NonnegPositions sampleNested ∧
    ∃ ex ey,
      ((RepeatedSection.new ⟨0, 0⟩).addRepeatEndBar ⟨3, 20⟩ 2).getLastEndBarLocation = some ex ∧
      ((RepeatedSection.new ⟨1, 4⟩).addRepeatEndBar ⟨1, 12⟩ 2).getLastEndBarLocation = some ey ∧
      (ex < ((RepeatedSection.new ⟨1, 4⟩).addRepeatEndBar ⟨1, 12⟩ 2).myStartBarLocation ∨
        ey < ex) :=
  ⟨by decide, by decide,
    (C20_nested_or_disjoint sampleNested (by decide) (by decide)).1
      ((RepeatedSection.new ⟨0, 0⟩).addRepeatEndBar ⟨3, 20⟩ 2) (by decide)
      ((RepeatedSection.new ⟨1, 4⟩).addRepeatEndBar ⟨1, 12⟩ 2) (by decide) (by decide)⟩

/-! ## The check made before a barline is handled -/

theorem mem_setInsert_self (t : RepeatedSection) :
    ∀ (l : List RepeatedSection),
      (∀ r ∈ l, r.myStartBarLocation ≠ t.myStartBarLocation) → t ∈ setInsert t l
  | [], _ => by simp [setInsert]
  | x :: rest, h => by
    simp only [setInsert, RepeatedSection.lt]
    split_ifs with h1 h2
    · exact List.mem_cons_self _ _
    · exact List.mem_cons_of_mem _
        (mem_setInsert_self t rest (fun r hr => h r (List.mem_cons_of_mem _ hr)))
    · exfalso
      exact h x (List.mem_cons_self _ _) (le_antisymm (not_lt.1 h1) (not_lt.1 h2))

/-- C16 (as amended): when a barline is processed while the section on top of
the stack has at least one alternate ending, a total declared repeat count other
than zero, and at least as many alternate endings as that count, the section is
popped and handed to the `insert` of the index before the kind of the barline is
handled, and it is in the index from then on if the index held no section with
the same start; when the total declared repeat count is zero the check changes
neither the stack nor the index. -/
theorem C16_finalize_check (systemIndex : Int) (system : System) (bar : Barline)
    (st : BuildState) (top : RepeatedSection) (rest : List RepeatedSection)
    (hst : st.repeats = top :: rest) :
    (top.getAlternateEndingCount ≥ 1 → top.getTotalRepeatCount ≠ 0 →
      top.getAlternateEndingCount ≥ top.getTotalRepeatCount →
      finalizeCheck st = ⟨rest, setInsert top st.myRepeats⟩ ∧
      processBarline systemIndex system st bar =
        handleAlternateEndings systemIndex system bar
          (handleBarType systemIndex bar ⟨rest, setInsert top st.myRepeats⟩) ∧
      ((∀ r ∈ st.myRepeats, r.myStartBarLocation ≠ top.myStartBarLocation) →
        top ∈ (finalizeCheck st).myRepeats)) ∧
    (top.getTotalRepeatCount = 0 →
      finalizeCheck st = st ∧
      processBarline systemIndex system st bar =
        handleAlternateEndings systemIndex system bar (handleBarType systemIndex bar st)) := by
  constructor
  · intro halt htot hge
    have hne : top.getAlternateEndingCount ≠ 0 := by omega
    have hf : finalizeCheck st = ⟨rest, setInsert top st.myRepeats⟩ := by
      unfold finalizeCheck
      rw [hst]
      simp only
      rw [if_pos ⟨hne, htot, hge⟩]
    refine ⟨hf, ?_, ?_⟩
    · unfold processBarline
      rw [hf]
    · intro hfresh
      rw [hf]
      exact mem_setInsert_self top st.myRepeats hfresh
  · intro htot
    have hf : finalizeCheck st = st := by
      rcases finalizeCheck_cases st with h | ⟨t, r, ht, _, htot', _, _⟩
      · exact h
      · rw [hst] at ht
        simp only [List.cons.injEq] at ht
        rw [← ht.1] at htot'
        exact absurd htot htot'
    refine ⟨hf, ?_⟩
    unfold processBarline
    rw [hf]

/-- Counterexample to C16 as stated.  In the build pass of `sampleOpenEnding`, when
the barline at (0,8) is processed the top section has one alternate ending and no
end bar (count 1 ≥ total 0), and it is neither popped nor inserted: the state is
unchanged and the built index is empty.  In the build pass of `sampleSameStart`,
when the barline at (0,30) is processed the top section has two alternate endings
and total count 2; it is popped, but the index already holds a section with the
same start, and it is not in the index afterwards. -/
theorem C16_counterexample :
    ((([(0, ⟨[⟨0, BarType.RepeatStart, 1⟩, ⟨8, BarType.Plain, 1⟩, ⟨16, BarType.Plain, 1⟩],
          [⟨2, [1]⟩]⟩, ⟨0, BarType.RepeatStart, 1⟩)] : List (Int × System × Barline)).foldl
        processEntry initialBuildState =
        ⟨[(RepeatedSection.new ⟨0, 0⟩).addAlternateEnding 0 ⟨2, [1]⟩,
          RepeatedSection.new ⟨0, 0⟩], []⟩) ∧
      ((RepeatedSection.new ⟨0, 0⟩).addAlternateEnding 0 ⟨2, [1]⟩).getAlternateEndingCount ≥ 1 ∧
      ((RepeatedSection.new ⟨0, 0⟩).addAlternateEnding 0 ⟨2, [1]⟩).getAlternateEndingCount ≥
        ((RepeatedSection.new ⟨0, 0⟩).addAlternateEnding 0 ⟨2, [1]⟩).getTotalRepeatCount ∧
      finalizeCheck ⟨[(RepeatedSection.new ⟨0, 0⟩).addAlternateEnding 0 ⟨2, [1]⟩,
          RepeatedSection.new ⟨0, 0⟩], []⟩ =
        ⟨[(RepeatedSection.new ⟨0, 0⟩).addAlternateEnding 0 ⟨2, [1]⟩,
          RepeatedSection.new ⟨0, 0⟩], []⟩ ∧
      (RepeatIndexer.new sampleOpenEnding).myRepeats = []) ∧
    ((((scanOrder 0 sampleSameStart.systems).take 4).foldl processEntry initialBuildState =
        ⟨[((RepeatedSection.new ⟨0, 0⟩).addAlternateEnding 0 ⟨13, [1, 2]⟩).addRepeatEndBar
            ⟨0, 20⟩ 2],
          [(RepeatedSection.new ⟨0, 0⟩).addRepeatEndBar ⟨0, 10⟩ 2]⟩) ∧
      (((RepeatedSection.new ⟨0, 0⟩).addAlternateEnding 0 ⟨13, [1, 2]⟩).addRepeatEndBar
          ⟨0, 20⟩ 2).getAlternateEndingCount = 2 ∧
      (((RepeatedSection.new ⟨0, 0⟩).addAlternateEnding 0 ⟨13, [1, 2]⟩).addRepeatEndBar
          ⟨0, 20⟩ 2).getTotalRepeatCount = 2 ∧
      finalizeCheck
          ⟨[((RepeatedSection.new ⟨0, 0⟩).addAlternateEnding 0 ⟨13, [1, 2]⟩).addRepeatEndBar
            ⟨0, 20⟩ 2],
          [(RepeatedSection.new ⟨0, 0⟩).addRepeatEndBar ⟨0, 10⟩ 2]⟩ =
        ⟨[], [(RepeatedSection.new ⟨0, 0⟩).addRepeatEndBar ⟨0, 10⟩ 2]⟩ ∧
      ((RepeatedSection.new ⟨0, 0⟩).addAlternateEnding 0 ⟨13, [1, 2]⟩).addRepeatEndBar
          ⟨0, 20⟩ 2 ∉ (RepeatIndexer.new sampleSameStart).myRepeats) := by
  decide

/-- Witness of C16 (as amended): a section from (0,0) with the end bar (0,10) of
count 2 and alternate endings for the repeats 1 and 2, on top of the stack over
an empty index, is popped and inserted when the next barline is processed. -/
theorem C16_finalize_check_witness :
    sampleSection.getAlternateEndingCount ≥ 1 ∧ sampleSection.getTotalRepeatCount ≠ 0 ∧
    sampleSection.getAlternateEndingCount ≥ sampleSection.getTotalRepeatCount ∧
    finalizeCheck ⟨[sampleSection, RepeatedSection.new ⟨0, 0⟩], []⟩ =
      ⟨[RepeatedSection.new ⟨0, 0⟩], setInsert sampleSection []⟩ :=
  ⟨by decide, by decide, by decide,
    ((C16_finalize_check 0 ⟨[], []⟩ ⟨12, BarType.Plain, 1⟩
      ⟨[sampleSection, RepeatedSection.new ⟨0, 0⟩], []⟩ sampleSection
      [RepeatedSection.new ⟨0, 0⟩] rfl).1 (by decide) (by decide) (by decide)).1⟩

/-! ## The active repeat after a traversal -/

theorem twoEndings_findAlternateEnding (S E P1 P2 : SystemLocation) :
    (twoEndings S E P1 P2).findAlternateEnding 1 = some P1 ∧
    (twoEndings S E P1 P2).findAlternateEnding 2 = some P2 := by
  constructor
  · simp only [twoEndings, RepeatedSection.addAlternateEnding,
      RepeatedSection.findAlternateEnding, List.foldl_cons, List.foldl_nil]
    rw [StdMap.find_assign_ne _ 2 1 _ (by decide), StdMap.find_assign_self]
  · simp only [twoEndings, RepeatedSection.addAlternateEnding,
      RepeatedSection.findAlternateEnding, List.foldl_cons, List.foldl_nil]
    rw [StdMap.find_assign_self]

/-- C22: on a fresh section with start `S`, end bar `E` of count 2 and alternate
endings `1 -> P1`, `2 -> P2` (`P1`, `P2`, `E` pairwise distinct), where
`myActiveRepeat = 1` and `myRemainingRepeats[E] = 1`, the calls `performRepeat(P1)`,
`performRepeat(E)`, `performRepeat(P1)` return `P1`, `S`, `P2` and leave
`myActiveRepeat = 2` and `myRemainingRepeats[E] = 0`; a further `performRepeat(P1)`
returns `P2`, not `P1`, and changes nothing; after `reset()` it returns `P1` again;
and no call of `performRepeat` lowers `myActiveRepeat`. -/
theorem C22_active_repeat_not_restored (S E P1 P2 : SystemLocation)
    (h1 : P1 ≠ E) (_h2 : P2 ≠ E) (h12 : P1 ≠ P2) :
    (twoEndings S E P1 P2).myActiveRepeat = 1 ∧
    (twoEndings S E P1 P2).myRemainingRepeats.find E = some 1 ∧
    (∃ s', (twoEndings S E P1 P2).performRepeats [P1, E, P1] = some ([P1, S, P2], s') ∧
      s'.myActiveRepeat = 2 ∧
      s'.myRemainingRepeats.find E = some 0 ∧
      s'.performRepeat P1 = some (P2, s') ∧
      s'.performRepeat P1 ≠ some (P1, s') ∧
      s'.reset.performRepeat P1 = some (P1, s'.reset)) ∧
    (∀ (t : RepeatedSection) loc out t', t.performRepeat loc = some (out, t') →
      t.myActiveRepeat ≤ t'.myActiveRepeat) := by
  obtain ⟨a1, a2⟩ := twoEndings_findAlternateEnding S E P1 P2
  have hrem : (twoEndings S E P1 P2).myRemainingRepeats.find E = some 1 := by
    show ((StdMap.empty : StdMap SystemLocation Int).assign E (2 - 1)).find E = some 1
    rw [StdMap.find_assign_self]
    rfl
  have hact : (twoEndings S E P1 P2).myActiveRepeat = 1 := rfl
  have hstart : (twoEndings S E P1 P2).myStartBarLocation = S := rfl
  -- first call: the branch of the first alternate ending, on repeat 1
  have c1 : (twoEndings S E P1 P2).performRepeat P1 = some (P1, twoEndings S E P1 P2) := by
    simp only [RepeatedSection.performRepeat, a1, hact, if_true]
  -- second call: the repeat at the end bar
  have c2 : (twoEndings S E P1 P2).performRepeat E =
      some (S, { twoEndings S E P1 P2 with
        myRemainingRepeats := (twoEndings S E P1 P2).myRemainingRepeats.assign E (1 - 1)
        myActiveRepeat := (twoEndings S E P1 P2).myActiveRepeat + 1 }) := by
    have hnb : ¬ RepeatedSection.takesAlternateBranch (twoEndings S E P1 P2) E := by
      rintro ⟨hb, _⟩
      rw [a1] at hb
      exact h1 (Option.some.inj hb)
    rw [RepeatedSection.performRepeat_of_not_branch _ _ hnb]
    simp only [RepeatedSection.performRepeatEndBar, hrem, ne_eq, one_ne_zero,
      not_false_eq_true, if_true, hstart]
  -- third call: the branch again, now on repeat 2
  have c3 : ∀ (m : StdMap SystemLocation Int),
      RepeatedSection.performRepeat
        { twoEndings S E P1 P2 with myRemainingRepeats := m, myActiveRepeat := 2 } P1 =
      some (P2, { twoEndings S E P1 P2 with myRemainingRepeats := m, myActiveRepeat := 2 }) := by
    intro m
    have b1 : RepeatedSection.findAlternateEnding
        { twoEndings S E P1 P2 with myRemainingRepeats := m, myActiveRepeat := 2 } 1 =
        some P1 := a1
    have b2 : RepeatedSection.findAlternateEnding
        { twoEndings S E P1 P2 with myRemainingRepeats := m, myActiveRepeat := 2 } 2 =
        some P2 := a2
    simp only [RepeatedSection.performRepeat, b1, b2, if_true]
  refine ⟨hact, hrem, ⟨{ twoEndings S E P1 P2 with
      myRemainingRepeats := (twoEndings S E P1 P2).myRemainingRepeats.assign E (1 - 1)
      myActiveRepeat := 2 }, ?_, rfl, ?_, c3 _, ?_, ?_⟩, ?_⟩
  · have e : (twoEndings S E P1 P2).myActiveRepeat + 1 = 2 := by rw [hact]; rfl
    simp only [RepeatedSection.performRepeats, c1, c2, e, c3]
  · show ((twoEndings S E P1 P2).myRemainingRepeats.assign E (1 - 1)).find E = some 0
    rw [StdMap.find_assign_self]
    rfl
  · rw [c3]
    intro h
    simp only [Option.some.injEq, Prod.mk.injEq] at h
    exact h12 h.1.symm
  · have b1 : RepeatedSection.findAlternateEnding
        (RepeatedSection.reset { twoEndings S E P1 P2 with
          myRemainingRepeats := (twoEndings S E P1 P2).myRemainingRepeats.assign E (1 - 1)
          myActiveRepeat := 2 }) 1 = some P1 := a1
    have b0 : (RepeatedSection.reset { twoEndings S E P1 P2 with
          myRemainingRepeats := (twoEndings S E P1 P2).myRemainingRepeats.assign E (1 - 1)
          myActiveRepeat := 2 }).myActiveRepeat = 1 := rfl
    simp only [RepeatedSection.performRepeat, b1, b0, if_true]
  · intro t loc out t' h
    rcases (RepeatedSection.performRepeat_frame t loc out t' h).2 with h' | h'
    · rw [h']
    · rw [h']; omega

/-- Witness of C22: `S = (0,0)`, `E = (0,10)`, `P1 = (0,5)`, `P2 = (0,8)`. -/
theorem C22_active_repeat_not_restored_witness :
    (⟨0, 5⟩ : SystemLocation) ≠ ⟨0, 10⟩ ∧ (⟨0, 8⟩ : SystemLocation) ≠ ⟨0, 10⟩ ∧
    (⟨0, 5⟩ : SystemLocation) ≠ ⟨0, 8⟩ ∧
    ∃ s', (twoEndings ⟨0, 0⟩ ⟨0, 10⟩ ⟨0, 5⟩ ⟨0, 8⟩).performRepeats
        [⟨0, 5⟩, ⟨0, 10⟩, ⟨0, 5⟩] = some ([⟨0, 5⟩, ⟨0, 0⟩, ⟨0, 8⟩], s') ∧
      s'.myActiveRepeat = 2 ∧
      s'.myRemainingRepeats.find ⟨0, 10⟩ = some 0 ∧
      s'.performRepeat ⟨0, 5⟩ = some (⟨0, 8⟩, s') ∧
      s'.performRepeat ⟨0, 5⟩ ≠ some (⟨0, 5⟩, s') ∧
      s'.reset.performRepeat ⟨0, 5⟩ = some (⟨0, 5⟩, s'.reset) :=
  ⟨by decide, by decide, by decide,
    (C22_active_repeat_not_restored ⟨0, 0⟩ ⟨0, 10⟩ ⟨0, 5⟩ ⟨0, 8⟩ (by decide) (by decide)
      (by decide)).2.2.1⟩

/-! ## Bounds of the remaining repeats during playback -/

theorem playbackInvariant_of_builtPositive {s : RepeatedSection} (h : BuiltPositive s) :
    PlaybackInvariant s := by
  induction h with
  | new startBar =>
    refine ⟨rfl, ?_, ?_⟩
    · intro loc c hc
      exact Option.noConfusion hc
    · intro loc c hc
      exact Option.noConfusion hc
  | addRepeatEndBar location repeatCount hpos _ ih =>
    obtain ⟨hk, hc, hr⟩ := ih
    refine ⟨RepeatedSection.sameKeys_addRepeatEndBar hk _ _, ?_, ?_⟩
    · intro loc c hfind
      simp only [RepeatedSection.addRepeatEndBar, StdMap.find_assign] at hfind
      split_ifs at hfind with heq
      · simp only [Option.some.injEq] at hfind
        omega
      · exact hc loc c hfind
    · intro loc c hfind
      simp only [RepeatedSection.addRepeatEndBar, StdMap.find_assign] at hfind ⊢
      split_ifs at hfind ⊢ with heq
      · simp only [Option.some.injEq] at hfind
        exact ⟨repeatCount - 1, rfl, by omega, by omega⟩
      · exact hr loc c hfind
  | addAlternateEnding system ending _ ih => exact ih

theorem playbackInvariant_reset {s : RepeatedSection} (h : PlaybackInvariant s) :
    PlaybackInvariant s.reset := by
  obtain ⟨hk, hc, _⟩ := h
  refine ⟨RepeatedSection.sameKeys_reset hk, hc, ?_⟩
  intro loc c hfind
  have hfind' : s.myRepeatEndBars.find loc = some c := hfind
  refine ⟨c - 1, ?_, ?_, le_refl _⟩
  · rw [RepeatedSection.find_reset, hfind']
    rfl
  · have := hc loc c hfind'
    omega

theorem playbackInvariant_performRepeat {s : RepeatedSection} (h : PlaybackInvariant s)
    (loc : SystemLocation) :
    ∃ out s', s.performRepeat loc = some (out, s') ∧ PlaybackInvariant s' := by
  obtain ⟨hk, hc, hr⟩ := h
  by_cases hb : RepeatedSection.takesAlternateBranch s loc
  · obtain ⟨h1, h2⟩ := hb
    obtain ⟨T, hT⟩ := Option.isSome_iff_exists.1 h2
    refine ⟨T, s, ?_, hk, hc, hr⟩
    simp only [RepeatedSection.performRepeat, h1, hT, if_true]
  · rw [RepeatedSection.performRepeat_of_not_branch s loc hb]
    unfold RepeatedSection.performRepeatEndBar
    cases hfind : s.myRemainingRepeats.find loc with
    | none => exact ⟨loc, s, rfl, hk, hc, hr⟩
    | some r =>
      obtain ⟨c0, hc0⟩ := hk.find_endBars loc r hfind
      obtain ⟨r0, hr0, hlo, hhi⟩ := hr loc c0 hc0
      rw [hfind] at hr0
      simp only [Option.some.injEq] at hr0
      subst hr0
      simp only
      split_ifs with hne
      · refine ⟨_, _, rfl, ?_, hc, ?_⟩
        · show (s.myRemainingRepeats.assign loc (r - 1)).keys = s.myRepeatEndBars.keys
          rw [StdMap.keys_assign_of_find _ loc _ r hfind]
          exact hk
        · intro l c hl
          have hl' : s.myRepeatEndBars.find l = some c := hl
          show ∃ r', (s.myRemainingRepeats.assign loc (r - 1)).find l = some r' ∧ _
          rw [StdMap.find_assign]
          split_ifs with heq
          · subst heq
            rw [hc0] at hl'
            simp only [Option.some.injEq] at hl'
            exact ⟨r - 1, rfl, by omega, by omega⟩
          · exact hr l c hl'
      · rw [StdMap.atKey_eq_find, hc0]
        refine ⟨_, _, rfl, ?_, hc, ?_⟩
        · show (s.myRemainingRepeats.assign loc (c0 - 1)).keys = s.myRepeatEndBars.keys
          rw [StdMap.keys_assign_of_find _ loc _ r hfind]
          exact hk
        · intro l c hl
          have hl' : s.myRepeatEndBars.find l = some c := hl
          show ∃ r', (s.myRemainingRepeats.assign loc (c0 - 1)).find l = some r' ∧ _
          rw [StdMap.find_assign]
          split_ifs with heq
          · subst heq
            rw [hc0] at hl'
            simp only [Option.some.injEq] at hl'
            have := hc l c0 hc0
            exact ⟨c0 - 1, rfl, by omega, by omega⟩
          · exact hr l c hl'

theorem playbackInvariant_runPlayback :
    ∀ (calls : List PlaybackCall) (s : RepeatedSection), PlaybackInvariant s →
      ∃ s', runPlayback s calls = some s' ∧ PlaybackInvariant s'
  | [], s, h => ⟨s, rfl, h⟩
  | PlaybackCall.performRepeat loc :: rest, s, h => by
    obtain ⟨out, s1, e1, h1⟩ := playbackInvariant_performRepeat h loc
    obtain ⟨s2, e2, h2⟩ := playbackInvariant_runPlayback rest s1 h1
    refine ⟨s2, ?_, h2⟩
    simp only [runPlayback, e1, e2]
  | PlaybackCall.reset :: rest, s, h => by
    obtain ⟨s2, e2, h2⟩ := playbackInvariant_runPlayback rest s.reset (playbackInvariant_reset h)
    exact ⟨s2, by simp only [runPlayback, e2], h2⟩

/-- At an end bar `loc` that is not the target of the alternate ending 1, with
`k` remaining repeats, the first `k` calls `performRepeat(loc)` return the start
bar and the next one returns `loc`. -/
theorem performRepeats_until_exit (loc : SystemLocation) :
    ∀ (k : Nat) (s : RepeatedSection), RepeatedSection.SameKeys s →
      s.findAlternateEnding 1 ≠ some loc →
      s.myRemainingRepeats.find loc = some (k : Int) →
      ∃ s', s.performRepeats (List.replicate (k + 1) loc) =
        some (List.replicate k s.myStartBarLocation ++ [loc], s')
  | 0, s, hk, halt, hfind => by
    have hnb : ¬ RepeatedSection.takesAlternateBranch s loc := fun hb => halt hb.1
    obtain ⟨c, hc⟩ := hk.find_endBars loc _ hfind
    have hstep : s.performRepeat loc =
        some (loc, { s with myRemainingRepeats := s.myRemainingRepeats.assign loc (c - 1) }) := by
      rw [RepeatedSection.performRepeat_of_not_branch s loc hnb]
      simp only [RepeatedSection.performRepeatEndBar, hfind, Nat.cast_zero, ne_eq,
        not_true_eq_false, if_false, StdMap.atKey_eq_find, hc]
    refine ⟨{ s with myRemainingRepeats := s.myRemainingRepeats.assign loc (c - 1) }, ?_⟩
    simp only [List.replicate, RepeatedSection.performRepeats, hstep, List.nil_append]
  | k + 1, s, hk, halt, hfind => by
    have hnb : ¬ RepeatedSection.takesAlternateBranch s loc := fun hb => halt hb.1
    have hne : ((k + 1 : Nat) : Int) ≠ 0 := by omega
    have hstep : s.performRepeat loc = some (s.myStartBarLocation,
        { s with
          myRemainingRepeats := s.myRemainingRepeats.assign loc (((k + 1 : Nat) : Int) - 1)
          myActiveRepeat := s.myActiveRepeat + 1 }) := by
      rw [RepeatedSection.performRepeat_of_not_branch s loc hnb]
      simp only [RepeatedSection.performRepeatEndBar, hfind, ne_eq, hne, not_false_eq_true,
        if_true]
    have hk' : RepeatedSection.SameKeys
        { s with
          myRemainingRepeats := s.myRemainingRepeats.assign loc (((k + 1 : Nat) : Int) - 1)
          myActiveRepeat := s.myActiveRepeat + 1 } := by
      show (s.myRemainingRepeats.assign loc (((k + 1 : Nat) : Int) - 1)).keys =
        s.myRepeatEndBars.keys
      rw [StdMap.keys_assign_of_find _ loc _ _ hfind]
      exact hk
    have hfind' : (s.myRemainingRepeats.assign loc (((k + 1 : Nat) : Int) - 1)).find loc =
        some (k : Int) := by
      rw [StdMap.find_assign_self]
      congr 1
      omega
    obtain ⟨s', hs'⟩ := performRepeats_until_exit loc k _ hk' halt hfind'
    refine ⟨s', ?_⟩
    rw [List.replicate_succ, RepeatedSection.performRepeats, hstep]
    simp only [hs']
    rfl

/-- C21 (as amended): on a section whose end bars were all added with a declared
count of at least 1, every finite sequence of `performRepeat` and `reset` calls
returns, and afterwards every end bar `loc` has
`0 ≤ myRemainingRepeats[loc] ≤ myRepeatEndBars[loc] - 1`, so that the test
`!= 0` of the code agrees with `> 0`; and at an end bar `loc` that is not the
target of the alternate ending 1, consecutive calls `performRepeat(loc)` return
the start bar `k` times and then `loc`, with `k + 1 ≤ myRepeatEndBars[loc]`. -/
theorem C21_remaining_bounds (s : RepeatedSection) (hs : BuiltPositive s)
    (calls : List PlaybackCall) :
    ∃ s', runPlayback s calls = some s' ∧
      (∀ loc c, s'.myRepeatEndBars.find loc = some c →
        ∃ r, s'.myRemainingRepeats.find loc = some r ∧ 0 ≤ r ∧ r ≤ c - 1 ∧
          (r ≠ 0 ↔ r > 0)) ∧
      (∀ loc c, s'.myRepeatEndBars.find loc = some c →
        s'.findAlternateEnding 1 ≠ some loc →
        ∃ (k : Nat) (s'' : RepeatedSection), (k : Int) + 1 ≤ c ∧
          s'.performRepeats (List.replicate (k + 1) loc) =
            some (List.replicate k s'.myStartBarLocation ++ [loc], s'')) := by
  obtain ⟨s', hrun, hk, _, hr⟩ :=
    playbackInvariant_runPlayback calls s (playbackInvariant_of_builtPositive hs)
  refine ⟨s', hrun, ?_, ?_⟩
  · intro loc c hc
    obtain ⟨r, hfind, hlo, hhi⟩ := hr loc c hc
    refine ⟨r, hfind, hlo, hhi, ?_⟩
    constructor
    · intro hne
      omega
    · intro hpos
      omega
  · intro loc c hc halt
    obtain ⟨r, hfind, hlo, hhi⟩ := hr loc c hc
    have hcast : ((r.toNat : Nat) : Int) = r := Int.toNat_of_nonneg hlo
    obtain ⟨s'', hs''⟩ := performRepeats_until_exit loc r.toNat s' hk halt
      (by rw [hcast]; exact hfind)
    exact ⟨r.toNat, s'', by omega, hs''⟩

theorem builtPositive_sampleEndingOnEndBar : BuiltPositive sampleEndingOnEndBar :=
  BuiltPositive.addAlternateEnding _ _ (BuiltPositive.addAlternateEnding _ _
    (BuiltPositive.addRepeatEndBar _ _ (by decide)
      (BuiltPositive.addRepeatEndBar _ _ (by decide) (BuiltPositive.new _))))

/-- Counterexample to C21 as stated: the sample section has the end bars (0,10)
and (0,20), both added with count 2, and its alternate ending 1 lies on the end
bar (0,10).  After `performRepeat((0,20))` the active repeat is 2, and every call
`performRepeat((0,10))` returns the alternate ending 2, at (0,15), and leaves the
state as it is: no number of consecutive calls at the end bar (0,10) returns
(0,10). -/
theorem C21_counterexample :
    BuiltPositive sampleEndingOnEndBar ∧
    ∃ s1, runPlayback sampleEndingOnEndBar [PlaybackCall.performRepeat ⟨0, 20⟩] = some s1 ∧
      s1.myRepeatEndBars.find ⟨0, 10⟩ = some 2 ∧
      s1.performRepeats [⟨0, 10⟩, ⟨0, 10⟩] = some ([⟨0, 15⟩, ⟨0, 15⟩], s1) ∧
      ∀ n : Nat, s1.performRepeats (List.replicate n ⟨0, 10⟩) =
        some (List.replicate n ⟨0, 15⟩, s1) := by
  refine ⟨builtPositive_sampleEndingOnEndBar,
    { sampleEndingOnEndBar with
      myRemainingRepeats := sampleEndingOnEndBar.myRemainingRepeats.assign ⟨0, 20⟩ 0
      myActiveRepeat := 2 }, by decide, by decide, by decide, ?_⟩
  intro n
  induction n with
  | zero => rfl
  | succ n ih =>
    have hstep : RepeatedSection.performRepeat
        { sampleEndingOnEndBar with
          myRemainingRepeats := sampleEndingOnEndBar.myRemainingRepeats.assign ⟨0, 20⟩ 0
          myActiveRepeat := 2 } ⟨0, 10⟩ =
        some (⟨0, 15⟩, { sampleEndingOnEndBar with
          myRemainingRepeats := sampleEndingOnEndBar.myRemainingRepeats.assign ⟨0, 20⟩ 0
          myActiveRepeat := 2 }) := by decide
    rw [List.replicate_succ, RepeatedSection.performRepeats, hstep]
    simp only [ih]
    rfl

/-- Witness of C21 (as amended): the sample section with end bar (0,10) of count
2 and alternate endings at (0,5) and (0,8), after `performRepeat((0,10))`. -/
theorem C21_remaining_bounds_witness :
    ∃ s', runPlayback sampleSection [PlaybackCall.performRepeat ⟨0, 10⟩] = some s' ∧
      (∀ loc c, s'.myRepeatEndBars.find loc = some c →
        ∃ r, s'.myRemainingRepeats.find loc = some r ∧ 0 ≤ r ∧ r ≤ c - 1 ∧
          (r ≠ 0 ↔ r > 0)) ∧
      (∀ loc c, s'.myRepeatEndBars.find loc = some c →
        s'.findAlternateEnding 1 ≠ some loc →
        ∃ (k : Nat) (s'' : RepeatedSection), (k : Int) + 1 ≤ c ∧
          s'.performRepeats (List.replicate (k + 1) loc) =
            some (List.replicate k s'.myStartBarLocation ++ [loc], s'')) :=
  C21_remaining_bounds sampleSection
    (BuiltPositive.addAlternateEnding _ _ (BuiltPositive.addAlternateEnding _ _
      (BuiltPositive.addRepeatEndBar _ _ (by decide) (BuiltPositive.new _))))
    [PlaybackCall.performRepeat ⟨0, 10⟩]

end RepeatIndex
